import Mathlib

/-!
# General tree container (`Tree.h`): heap-level embedding

The C++ class `Tree<T>` keeps its nodes on the free store and links them with
raw pointers (`children` downwards, `pParent` upwards).  The embedding keeps
that representation: a memory is a list of cells addressed by positive
naturals (pointer `0` is the null pointer), `new` appends a cell, `delete`
empties one, and every member function is a function on memories.  Reading
through a null or deleted pointer is undefined behaviour in C++; here it is the
error `Err.badAccess`.  The three recursive member functions (`remove`, `copy`,
`preOrderPrint`) take a recursion budget; public operations call them with
a budget of one more than the number of cells, which no acyclic pointer graph
can use up.
-/

namespace GeneralTree

/-! Node pointers are natural numbers; `0` is the null pointer. -/

/-- Range of the C++ type `unsigned` (32 bits): `n++` and `n--` wrap modulo it. -/
def UNSIGNED_RANGE : Nat := 4294967296

/-- The nested class `Tree<T>::Node`. -/
structure Node (T : Type) where
  data : T
  children : List Nat
  pParent : Nat
deriving DecidableEq

/-- The data members of a `Tree<T>` object. -/
structure TreeObj where
  pRoot : Nat
  n : Nat
deriving DecidableEq

/-- The nested class `Tree<T>::Handle`: a node pointer and the owning tree
(`pTree` is the index of the tree object in the memory). -/
structure Handle where
  pCurr : Nat
  pTree : Nat
deriving DecidableEq

/-- What can go wrong: `std::out_of_range` with its message, an access
through a null or deleted pointer (undefined behaviour in C++), or a
recursion that exceeded its budget. -/
inductive Err where
  | outOfRange (msg : String)
  | badAccess
  | noFuel
deriving DecidableEq

/-- The free store: cell `p` (for `p ≥ 1`) is entry `p - 1`; `none` is a
deleted cell. -/
abbrev Heap (T : Type) := List (Option (Node T))

/-- The memory: the free store and the `Tree` objects of the program. -/
structure Mem (T : Type) where
  heap : Heap T
  trees : List TreeObj

/-- The node a pointer refers to, if it refers to a live one. -/
def lookup {T : Type} (h : Heap T) : Nat → Option (Node T)
  | 0 => none
  | q + 1 => h[q]?.join

/-- Overwrite the cell of a pointer. -/
def store {T : Type} (h : Heap T) : Nat → Node T → Heap T
  | 0, _ => h
  | q + 1, nd => h.set q (some nd)

/-- The effect of `delete p`. -/
def release {T : Type} (h : Heap T) : Nat → Heap T
  | 0 => h
  | q + 1 => h.set q none

variable {T : Type}

/-- Dereference a node pointer. -/
def Mem.read (m : Mem T) (p : Nat) : Except Err (Node T) :=
  match lookup m.heap p with
  | some nd => .ok nd
  | none => .error .badAccess

/-- Assign to the node behind a pointer. -/
def Mem.write (m : Mem T) (p : Nat) (nd : Node T) : Mem T :=
  ⟨store m.heap p nd, m.trees⟩

/-- Allocate a node with `new`: the fresh pointer and the memory. -/
def Mem.alloc (m : Mem T) (nd : Node T) : Nat × Mem T :=
  (m.heap.length + 1, ⟨m.heap ++ [some nd], m.trees⟩)

/-- Free a node with `delete`. -/
def Mem.free (m : Mem T) (p : Nat) : Mem T :=
  ⟨release m.heap p, m.trees⟩

/-- Read the members of a tree object. -/
def Mem.tree (m : Mem T) (t : Nat) : Except Err TreeObj :=
  match m.trees[t]? with
  | some o => .ok o
  | none => .error .badAccess

/-- Assign the members of a tree object. -/
def Mem.setTree (m : Mem T) (t : Nat) (o : TreeObj) : Mem T :=
  ⟨m.heap, m.trees.set t o⟩

/-- The iterator loop `while (i != v.end()) { body(*i); i++; }` over a
vector of node pointers, threading a state. -/
def forEach {σ : Type} (body : Nat → σ → Except Err σ) : List Nat → σ → Except Err σ
  | [], s => .ok s
  | p :: ps, s =>
    match body p s with
    | .ok s1 => forEach body ps s1
    | .error e => .error e

/-- The recursion budget public operations give to the recursive helpers. -/
def budget (m : Mem T) : Nat := m.heap.length + 1

/-- The constructor `Tree(const T &v)`: `pRoot(new Node(v, 0)), n(1u)`.
Returns the index of the new tree object. -/
def Tree.new (v : T) (m : Mem T) : Nat × Mem T :=
  let (p, m1) := m.alloc ⟨v, [], 0⟩
  (m1.trees.length, ⟨m1.heap, m1.trees ++ [⟨p, 1⟩]⟩)

/-- The member `isEmpty()`: `return n == 0u`. -/
def Tree.isEmpty (t : Nat) (m : Mem T) : Except Err Bool :=
  match m.tree t with
  | .ok o => .ok (o.n == 0)
  | .error e => .error e

/-- The member `size()`: `return n`. -/
def Tree.size (t : Nat) (m : Mem T) : Except Err Nat :=
  match m.tree t with
  | .ok o => .ok o.n
  | .error e => .error e

/-- The member `rootHandle()`: `Handle(pRoot, this)`. -/
def Tree.rootHandle (t : Nat) (m : Mem T) : Except Err Handle :=
  match m.tree t with
  | .ok o => .ok ⟨o.pRoot, t⟩
  | .error e => .error e

/-- The member `Tree<T>::remove(Node *pCurr)`, run on tree object `t`:
removes the children, deletes the node, then `n--`. -/
def Tree.remove : Nat → Nat → Nat → Mem T → Except Err (Mem T)
  | 0, _, _, _ => .error .noFuel
  | fuel + 1, t, pCurr, m =>
    if pCurr = 0 then .ok m
    else
      match m.read pCurr with
      | .error e => .error e
      | .ok nd =>
        match forEach (fun c s => Tree.remove fuel t c s) nd.children m with
        | .error e => .error e
        | .ok m1 =>
          let m2 := m1.free pCurr
          match m2.tree t with
          | .error e => .error e
          | .ok o => .ok (m2.setTree t ⟨o.pRoot, (o.n + (UNSIGNED_RANGE - 1)) % UNSIGNED_RANGE⟩)

/-- The statement `pN->children.push_back(pc)`. -/
def pushChild (pN pc : Nat) (m : Mem T) : Except Err (Mem T) :=
  match m.read pN with
  | .error e => .error e
  | .ok nd => .ok (m.write pN ⟨nd.data, nd.children ++ [pc], nd.pParent⟩)

/-- The member `Tree<T>::copy(Node *pCurr, Node *pPar)`: a new node with the
data of `pCurr` and parent `pPar`, then one copied child per child. -/
def Tree.copy : Nat → Nat → Nat → Mem T → Except Err (Nat × Mem T)
  | 0, _, _, _ => .error .noFuel
  | fuel + 1, pCurr, pPar, m =>
    match m.read pCurr with
    | .error e => .error e
    | .ok src =>
      let (pN, m1) := m.alloc ⟨src.data, [], pPar⟩
      match forEach (fun c s =>
          match Tree.copy fuel c pN s with
          | .error e => .error e
          | .ok (pc, s1) => pushChild pN pc s1) src.children m1 with
      | .error e => .error e
      | .ok m2 => .ok (pN, m2)

/-- The loop shared by the copy constructor and `operator=`:
`pRoot->children.push_back(copy(*i, pRoot))` for every child of the source
root. -/
def copyChildren (fuel : Nat) (pRoot : Nat) (kids : List Nat) (m : Mem T) :
    Except Err (Mem T) :=
  forEach (fun c s =>
    match Tree.copy fuel c pRoot s with
    | .error e => .error e
    | .ok (pc, s1) => pushChild pRoot pc s1) kids m

/-- The copy constructor `Tree(const Tree<T> &tree)`. Returns the index of
the new tree object. The source root is read once: the allocation between
`tree.pRoot->data` and `tree.pRoot->children` changes no existing cell. -/
def Tree.copyCtor (other : Nat) (m : Mem T) : Except Err (Nat × Mem T) :=
  match m.tree other with
  | .error e => .error e
  | .ok o =>
    match m.read o.pRoot with
    | .error e => .error e
    | .ok src =>
      let (pRoot, m1) := m.alloc ⟨src.data, [], 0⟩
      match copyChildren (budget m) pRoot src.children m1 with
      | .error e => .error e
      | .ok m2 =>
        match m2.tree other with
        | .error e => .error e
        | .ok o2 => .ok (m2.trees.length, ⟨m2.heap, m2.trees ++ [⟨pRoot, o2.n⟩]⟩)

/-- The assignment `Tree<T>::operator=(const Tree<T> &tree)` executed on
tree object `this` with argument `other`. -/
def Tree.assign (this other : Nat) (m : Mem T) : Except Err (Mem T) :=
  match m.tree this with
  | .error e => .error e
  | .ok o =>
    -- remove(pRoot); n = 0u;
    match Tree.remove (budget m) this o.pRoot m with
    | .error e => .error e
    | .ok m1 =>
      match m1.tree this with
      | .error e => .error e
      | .ok o1 =>
        let m2 := m1.setTree this ⟨o1.pRoot, 0⟩
        -- pRoot = new Node(tree.pRoot->data, 0);
        match m2.tree other with
        | .error e => .error e
        | .ok src =>
          match m2.read src.pRoot with
          | .error e => .error e
          | .ok srcRoot =>
            let (pNew, m3) := m2.alloc ⟨srcRoot.data, [], 0⟩
            let m4 := m3.setTree this ⟨pNew, 0⟩
            -- the loop over tree.pRoot->children
            match m4.tree other with
            | .error e => .error e
            | .ok src4 =>
              match m4.read src4.pRoot with
              | .error e => .error e
              | .ok srcRoot4 =>
                match copyChildren (budget m) pNew srcRoot4.children m4 with
                | .error e => .error e
                | .ok m5 =>
                  -- n = tree.n;
                  match m5.tree other with
                  | .error e => .error e
                  | .ok src5 => .ok (m5.setTree this ⟨pNew, src5.n⟩)

/-- The member `Handle::addChild(const T &v)`:
`pCurr->children.push_back(new Node(v, pCurr)); pTree->n++;`. -/
def Handle.addChild (h : Handle) (v : T) (m : Mem T) : Except Err (Mem T) :=
  match m.read h.pCurr with
  | .error e => .error e
  | .ok _ =>
    let (pNew, m1) := m.alloc ⟨v, [], h.pCurr⟩
    match pushChild h.pCurr pNew m1 with
    | .error e => .error e
    | .ok m2 =>
      match m2.tree h.pTree with
      | .error e => .error e
      | .ok o => .ok (m2.setTree h.pTree ⟨o.pRoot, (o.n + 1) % UNSIGNED_RANGE⟩)

/-- The member `Handle::getChild(unsigned i)`. The second component is the
memory after the call. -/
def Handle.getChild (h : Handle) (i : Nat) (m : Mem T) : Except Err Handle × Mem T :=
  match m.read h.pCurr with
  | .error e => (.error e, m)
  | .ok nd =>
    if i ≥ nd.children.length then
      (.error (.outOfRange "Indexing invalid child in Tree::Handle:: getChild()"), m)
    else
      (.ok ⟨nd.children.getD i 0, h.pTree⟩, m)

/-- The member `Handle::getParent()`. The second component is the memory
after the call. -/
def Handle.getParent (h : Handle) (m : Mem T) : Except Err Handle × Mem T :=
  match m.read h.pCurr with
  | .error e => (.error e, m)
  | .ok nd =>
    if nd.pParent = 0 then
      (.error (.outOfRange "Requesting parent of root in Tree::Handle::getParent()"), m)
    else
      (.ok ⟨nd.pParent, h.pTree⟩, m)

/-- The member `Handle::numChildren()`: `pCurr->children.size()` converted
to `unsigned`. -/
def Handle.numChildren (h : Handle) (m : Mem T) : Except Err Nat :=
  match m.read h.pCurr with
  | .error e => .error e
  | .ok nd => .ok (nd.children.length % UNSIGNED_RANGE)

/-- The member `Handle::prune()`: `remove` every child, then
`pCurr->children.clear()`. -/
def Handle.prune (h : Handle) (m : Mem T) : Except Err (Mem T) :=
  match m.read h.pCurr with
  | .error e => .error e
  | .ok nd =>
    match forEach (fun c s => Tree.remove (budget m) h.pTree c s) nd.children m with
    | .error e => .error e
    | .ok m1 =>
      match m1.read h.pCurr with
      | .error e => .error e
      | .ok nd1 => .ok (m1.write h.pCurr ⟨nd1.data, [], nd1.pParent⟩)

/-- The member `Handle::operator*()` used as an rvalue: the payload. -/
def Handle.deref (h : Handle) (m : Mem T) : Except Err T :=
  if h.pCurr = 0 then
    .error (.outOfRange "Dereferencing empty handle in Tree::Handle::operator*()")
  else
    match m.read h.pCurr with
    | .error e => .error e
    | .ok nd => .ok nd.data

/-- The member `Handle::operator*()` used as an lvalue: `*h = v`. -/
def Handle.derefAssign (h : Handle) (v : T) (m : Mem T) : Except Err (Mem T) :=
  if h.pCurr = 0 then
    .error (.outOfRange "Dereferencing empty handle in Tree::Handle::operator*()")
  else
    match m.read h.pCurr with
    | .error e => .error e
    | .ok nd => .ok (m.write h.pCurr ⟨v, nd.children, nd.pParent⟩)

/-- The member `Handle::operator=(const Handle &loc)`. -/
def Handle.assign (_self loc : Handle) : Handle := ⟨loc.pCurr, loc.pTree⟩

/-- The friend `preOrderPrint(ostream &out, Node *pCurr)`; the stream is the
text written so far and `fmt` is `operator<<` of the payload type. -/
def preOrderPrint (fmt : T → String) : Nat → String → Nat → Mem T → Except Err String
  | 0, _, _, _ => .error .noFuel
  | fuel + 1, out, pCurr, m =>
    if pCurr = 0 then .ok out
    else
      match m.read pCurr with
      | .error e => .error e
      | .ok nd =>
        forEach (fun c o => preOrderPrint fmt fuel o c m) nd.children (out ++ fmt nd.data ++ " ")

/-- The friend `operator<<(ostream &out, const Tree<T> &tree)`. -/
def Tree.print (fmt : T → String) (t : Nat) (m : Mem T) (out : String) : Except Err String :=
  match m.tree t with
  | .error e => .error e
  | .ok o =>
    match preOrderPrint fmt (budget m) (out ++ "[") o.pRoot m with
    | .error e => .error e
    | .ok o1 => .ok (o1 ++ "]")


/-! ## Abstract trees

A rose tree is kept in first-child / next-sibling form: a forest is empty
or consists of a first tree (its root label and the forest of its children)
followed by the forest of its right siblings.  A tree is a forest with one
root.  Forests labelled with `Nat × T` describe a pointer graph exactly;
forests labelled with `T` describe structure and payloads only. -/

/-- Forests in first-child / next-sibling form. -/
inductive Forest (α : Type) where
  | nil : Forest α
  | cons (x : α) (kids : Forest α) (rest : Forest α) : Forest α
deriving DecidableEq

namespace Forest

variable {α β : Type}

/-- Number of nodes. -/
def size : Forest α → Nat
  | nil => 0
  | cons _ k r => 1 + size k + size r

/-- Number of levels. -/
def depth : Forest α → Nat
  | nil => 0
  | cons _ k r => max (depth k + 1) (depth r)

/-- The labels in preorder: a node first, then the subtrees of its
children from left to right. -/
def preorder : Forest α → List α
  | nil => []
  | cons x k r => x :: (preorder k ++ preorder r)

/-- The labels of the roots, from left to right. -/
def roots : Forest α → List α
  | nil => []
  | cons x _ r => x :: roots r

/-- Relabel every node. -/
def map (g : α → β) : Forest α → Forest β
  | nil => nil
  | cons x k r => cons (g x) (map g k) (map g r)

/-- Append a leaf as the last root. -/
def snoc : Forest α → α → Forest α
  | nil, y => cons y nil nil
  | cons x k r, y => cons x k (snoc r y)

/-- A forest that is a single tree. -/
def IsTree (f : Forest α) : Prop := ∃ x k, f = cons x k nil

end Forest

/-- The addresses of a pointer-labelled forest, in preorder. -/
def addrs (f : Forest (Nat × T)) : List Nat := f.preorder.map Prod.fst

/-- The addresses of the roots of a pointer-labelled forest. -/
def rootPtrs (f : Forest (Nat × T)) : List Nat := f.roots.map Prod.fst

/-- The children of the node at address `p` (the first one in preorder). -/
def kidsAt (p : Nat) : Forest (Nat × T) → Forest (Nat × T)
  | .nil => .nil
  | .cons x k r => if x.1 = p then k else if p ∈ addrs k then kidsAt p k else kidsAt p r

/-- The forest with the leaf `y` appended to the children of node `p`. -/
def addAt (p : Nat) (y : Nat × T) : Forest (Nat × T) → Forest (Nat × T)
  | .nil => .nil
  | .cons x k r => if x.1 = p then .cons x (k.snoc y) r else .cons x (addAt p y k) (addAt p y r)

/-- The forest with every descendant of node `p` taken away. -/
def pruneAt (p : Nat) : Forest (Nat × T) → Forest (Nat × T)
  | .nil => .nil
  | .cons x k r => if x.1 = p then .cons x .nil r else .cons x (pruneAt p k) (pruneAt p r)

/-- The forest with the payload of node `p` replaced by `v`. -/
def setAt (p : Nat) (v : T) : Forest (Nat × T) → Forest (Nat × T)
  | .nil => .nil
  | .cons x k r => if x.1 = p then .cons (x.1, v) k r else .cons x (setAt p v k) (setAt p v r)

/-- The forest with its nodes renumbered `b, b+1, ...` in preorder: the
addresses `copy` gives to the nodes it allocates. -/
def relabel (b : Nat) : Forest (Nat × T) → Forest (Nat × T)
  | .nil => .nil
  | .cons x k r => .cons (b, x.2) (relabel (b + 1) k) (relabel (b + 1 + k.size) r)

/-- The cells of a pointer-labelled forest whose roots have parent `par`,
in preorder. -/
def cells (par : Nat) : Forest (Nat × T) → Heap T
  | .nil => []
  | .cons x k r => some ⟨x.2, rootPtrs k, par⟩ :: (cells x.1 k ++ cells par r)

/-- The heap holds the forest: every node sits at its address with its
payload, the addresses of its children in order, and its parent (`par` for
the roots). -/
def Holds (h : Heap T) : Nat → Forest (Nat × T) → Prop
  | _, .nil => True
  | par, .cons x k r =>
    lookup h x.1 = some ⟨x.2, rootPtrs k, par⟩ ∧ Holds h x.1 k ∧ Holds h par r

/-- The pointer graph below a list of node pointers, read off the heap by
following `children`. -/
def readForest : Nat → Heap T → List Nat → Forest (Nat × T)
  | 0, _, _ => .nil
  | fuel + 1, h, ps =>
    ps.foldr (fun p acc =>
      match lookup h p with
      | some nd => .cons (p, nd.data) (readForest fuel h nd.children) acc
      | none => acc) .nil

/-- The pointer graph of a tree object: everything reachable from `pRoot`. -/
def Tree.graph (t : Nat) (m : Mem T) : Forest (Nat × T) :=
  match m.trees[t]? with
  | some o => readForest (budget m) m.heap [o.pRoot]
  | none => .nil

/-- The nodes reachable from the root of a tree object (root first). -/
def Tree.nodes (t : Nat) (m : Mem T) : List Nat := addrs (Tree.graph t m)

/-- Structure and payloads of a tree object, without the addresses. -/
def Tree.shape (t : Nat) (m : Mem T) : Forest T := (Tree.graph t m).map Prod.snd

/-- The nodes reachable from a node (the node first, then its descendants). -/
def subtreeNodes (p : Nat) (m : Mem T) : List Nat :=
  addrs (readForest (budget m) m.heap [p])

/-- Tree object `t` of the memory is the tree `f`: `pRoot` is its root, the
heap holds it with a null parent at the root, no node occurs twice, and the
counter `n` is the number of nodes as an `unsigned`. -/
def Rep (m : Mem T) (t : Nat) (f : Forest (Nat × T)) : Prop :=
  ∃ a v k, f = .cons (a, v) k .nil ∧
    m.trees[t]? = some ⟨a, f.size % UNSIGNED_RANGE⟩ ∧
    Holds m.heap 0 f ∧ (addrs f).Nodup

/-- A handle on a live node of tree `t`. -/
def Live (m : Mem T) (t : Nat) (h : Handle) : Prop :=
  h.pTree = t ∧ h.pCurr ∈ Tree.nodes t m

/-- The text the specification prescribes for a tree: `[`, then every
payload in preorder followed by one space, then `]`. -/
def referenceText (fmt : T → String) (f : Forest T) : String :=
  "[" ++ String.join (f.preorder.map (fun v => fmt v ++ " ")) ++ "]"


/-! ## Mutation sequences and the predicates of the statements -/

/-- A mutation made through a handle: `h.addChild(v)`, `h.prune()` or
`*h = v`. -/
inductive Op (T : Type) where
  | addChild (h : Handle) (v : T)
  | prune (h : Handle)
  | write (h : Handle) (v : T)

/-- The handle a mutation goes through. -/
def Op.handle : Op T → Handle
  | .addChild h _ => h
  | .prune h => h
  | .write h _ => h

/-- Execute one mutation. -/
def step (op : Op T) (m : Mem T) : Except Err (Mem T) :=
  match op with
  | .addChild h v => h.addChild v m
  | .prune h => h.prune m
  | .write h v => h.derefAssign v m

/-- Execute a sequence of mutations, stopping at the first error. -/
def run (m : Mem T) : List (Op T) → Except Err (Mem T)
  | [] => .ok m
  | op :: ops =>
    match step op m with
    | .ok m1 => run m1 ops
    | .error e => .error e

/-- Every mutation of the sequence goes through a handle that refers, at
the time of the call, to a live node of tree `t`. -/
def LiveRun (t : Nat) : Mem T → List (Op T) → Prop
  | _, [] => True
  | m, op :: ops =>
    Live m t op.handle ∧
      match step op m with
      | .ok m1 => LiveRun t m1 ops
      | .error _ => True

/-- Tree object `t` owns a tree-shaped pointer graph (its counter being the
node count as an `unsigned`). -/
def Valid (m : Mem T) (t : Nat) : Prop := ∃ f, Rep m t f

/-- Two distinct tree objects, each owning a tree-shaped pointer graph, with
no node in common. -/
def Separate (m : Mem T) (a b : Nat) : Prop :=
  a ≠ b ∧ ∃ fa fb, Rep m a fa ∧ Rep m b fb ∧ ∀ q, q ∈ addrs fa → q ∉ addrs fb

/-- The memory of a program that has created nothing yet. -/
def emptyMem : Mem Char := ⟨[], []⟩

/-- Stream insertion of a `char`: the character itself. -/
def charFmt (c : Char) : String := String.singleton c

/-- The memory after `Tree<char> tree('m')` and, through the root handle,
`addChild('a')`, `addChild('r')`, `addChild('k')` (the first stage of the
driver). The tree is object `0` and its root is node `1`. -/
def markMem : Mem Char :=
  match run (Tree.new 'm' emptyMem).2
    [.addChild ⟨1, 0⟩ 'a', .addChild ⟨1, 0⟩ 'r', .addChild ⟨1, 0⟩ 'k'] with
  | .ok m => m
  | .error _ => emptyMem

/-- The pointer graph held by `markMem`. -/
def markForest : Forest (Nat × Char) :=
  .cons (1, 'm') (.cons (2, 'a') .nil (.cons (3, 'r') .nil (.cons (4, 'k') .nil .nil))) .nil

/-- The number of proper descendants of a node. -/
def numDescendants (p : Nat) (m : Mem T) : Nat := (subtreeNodes p m).length - 1

/-- The memory after `Tree<char> tree2(tree)` on `markMem`: the copy is tree
object `1` and its nodes are `5` (root) to `8`. -/
def pairMem : Mem Char :=
  match Tree.copyCtor 0 markMem with
  | .ok (_, m) => m
  | .error _ => emptyMem

/-- The memory after `Tree<char> other('x')` on `markMem`: the second tree
is object `1` and its only node is `5`. -/
def twoMem : Mem Char := (Tree.new 'x' markMem).2

/-! ## Program states, navigation and the driver -/

/-- The preorder sequence of a tree object: every node with its payload. -/
def Tree.labels (t : Nat) (m : Mem T) : List (Nat × T) := (Tree.graph t m).preorder

/-- The preorder sequence of the payloads of a tree object: what
`operator<<` writes between the brackets. -/
def Tree.values (t : Nat) (m : Mem T) : List T := (Tree.shape t m).preorder

/-- The preorder sequence of the subtree below a node: the node first, then
its descendants. -/
def subtreeLabels (p : Nat) (m : Mem T) : List (Nat × T) :=
  (readForest (budget m) m.heap [p]).preorder

/-- One navigation statement: `loc = loc.getChild(i)` or
`loc = loc.getParent()`. -/
inductive Move where
  | child (i : Nat)
  | parent

/-- A sequence of navigation statements executed on a handle, stopping at
the first exception. -/
def navigate (m : Mem T) : Handle → List Move → Except Err Handle
  | h, [] => .ok h
  | h, .child i :: ms =>
    match (h.getChild i m).1 with
    | .ok c => navigate m (Handle.assign h c) ms
    | .error e => .error e
  | h, .parent :: ms =>
    match (h.getParent m).1 with
    | .ok c => navigate m (Handle.assign h c) ms
    | .error e => .error e

/-- The memories a program can reach with the public operations: it starts
with no tree, constructs trees, copy-constructs and assigns them, and mutates
them through handles on live nodes; every call counted here has returned
normally. -/
inductive Reachable : Mem T → Prop where
  | start : Reachable ⟨[], []⟩
  | construct (v : T) {m : Mem T} : Reachable m → Reachable (Tree.new v m).2
  | copy {m m1 : Mem T} {t t1 : Nat} :
    Reachable m → Tree.copyCtor t m = .ok (t1, m1) → Reachable m1
  | assign {m m1 : Mem T} {d s : Nat} :
    Reachable m → Tree.assign d s m = .ok m1 → Reachable m1
  | mutate {m m1 : Mem T} {t : Nat} (op : Op T) :
    Reachable m → Live m t op.handle → step op m = .ok m1 → Reachable m1

/-- Every tree object owns a tree-shaped pointer graph and no node belongs
to two tree objects. -/
def Consistent (m : Mem T) : Prop :=
  (∀ t, t < m.trees.length → Valid m t) ∧
    ∀ a b fa fb, a ≠ b → Rep m a fa → Rep m b fb → ∀ q, q ∈ addrs fa → q ∉ addrs fb

/-- The function `main` of `TestTree.cpp`: the memory after the constructor
and after each of its stages (levels 1 to 5, the copy `tree2(tree)`,
`loc.prune()`, `tree2 = tree`, the second `loc.prune()`, `*loc = 'Z'`).
`tree` is object `0`, `tree2` is object `1`. -/
def driver : Except Err (List (Mem Char)) := do
  let (tree, m0) := Tree.new 'm' emptyMem
  let loc ← Tree.rootHandle tree m0
  let m ← loc.addChild 'a' m0
  let m ← loc.addChild 'r' m
  let m1 ← loc.addChild 'k' m
  let loc := Handle.assign loc (← (loc.getChild 0 m1).1)
  let m ← loc.addChild 'm' m1
  let m2 ← loc.addChild 'e' m
  let loc := Handle.assign loc (← (loc.getChild 1 m2).1)
  let m ← loc.addChild 'y' m2
  let m3 ← loc.addChild 's' m
  let loc := Handle.assign loc (← (loc.getChild 0 m3).1)
  let m ← loc.addChild 'e' m3
  let loc := Handle.assign loc (← (loc.getParent m).1)
  let loc := Handle.assign loc (← (loc.getChild 1 m).1)
  let m4 ← loc.addChild 'n' m
  let loc := Handle.assign loc (← (loc.getChild 0 m4).1)
  let m ← loc.addChild 'b' m4
  let m ← loc.addChild 'u' m
  let m ← loc.addChild 'r' m
  let m5 ← loc.addChild 'g' m
  let (tree2, m6) ← Tree.copyCtor tree m5
  let m7 ← loc.prune m6
  let m8 ← Tree.assign tree2 tree m7
  let loc := Handle.assign loc (← (loc.getParent m8).1)
  let loc := Handle.assign loc (← (loc.getParent m8).1)
  let m9 ← loc.prune m8
  let loc := Handle.assign loc (← Tree.rootHandle tree m9)
  let m10 ← loc.derefAssign 'Z' m9
  pure [m0, m1, m2, m3, m4, m5, m6, m7, m8, m9, m10]

/-- The values of `tree.size()` after the constructor and after each of the
five levels the driver adds. -/
def driverSizes : Except Err (List Nat) :=
  match driver with
  | .ok ms => (ms.take 6).mapM (Tree.size 0)
  | .error e => .error e

/-- The value of `tree.size()` after the driver's first `loc.prune()`. -/
def driverPrunedSize : Except Err Nat :=
  match driver with
  | .ok ms => Tree.size 0 (ms.getD 7 emptyMem)
  | .error e => .error e

/-- The text of `cout << tree` at the end of the driver. -/
def driverFinalText : Except Err String :=
  match driver with
  | .ok ms => Tree.print charFmt 0 (ms.getD 10 emptyMem) ""
  | .error e => .error e

/-! ## Lemmas -/

/-! ### The free store -/

theorem lookup_succ (h : Heap T) (q : Nat) : lookup h (q + 1) = h[q]?.join := rfl

theorem lookup_eq_some_iff {h : Heap T} {q : Nat} {nd : Node T} :
    lookup h (q + 1) = some nd ↔ h[q]? = some (some nd) := by
  rw [lookup_succ]
  cases hq : h[q]? with
  | none => simp
  | some c => cases c <;> simp

theorem lookup_some_pos {h : Heap T} {p : Nat} {nd : Node T} (hl : lookup h p = some nd) :
    p ≠ 0 := by
  rintro rfl; simp [lookup] at hl

theorem lookup_some_le {h : Heap T} {p : Nat} {nd : Node T} (hl : lookup h p = some nd) :
    p ≤ h.length := by
  cases p with
  | zero => simp [lookup] at hl
  | succ q =>
    rw [lookup_eq_some_iff] at hl
    have := (List.getElem?_eq_some.mp hl).1
    omega

theorem lookup_append_left (h l : Heap T) {p : Nat} (hp : p ≤ h.length) :
    lookup (h ++ l) p = lookup h p := by
  cases p with
  | zero => rfl
  | succ q =>
    have : q < h.length := hp
    simp [lookup_succ, List.getElem?_append_left this]

theorem lookup_append_new (h : Heap T) (c : Option (Node T)) (l : Heap T) :
    lookup (h ++ c :: l) (h.length + 1) = c := by
  rw [lookup_succ, List.getElem?_append_right (Nat.le_refl _)]
  simp

theorem lookup_store_same {h : Heap T} {p : Nat} (nd : Node T) (hp : p ≠ 0)
    (hle : p ≤ h.length) : lookup (store h p nd) p = some nd := by
  cases p with
  | zero => exact absurd rfl hp
  | succ q =>
    have : q < h.length := hle
    simp [lookup_succ, store, this]

theorem lookup_store_ne {h : Heap T} {p q : Nat} (nd : Node T) (hne : q ≠ p) :
    lookup (store h p nd) q = lookup h q := by
  cases p with
  | zero => rfl
  | succ p1 =>
    cases q with
    | zero => rfl
    | succ q1 =>
      have : p1 ≠ q1 := fun e => hne (by rw [e])
      simp [lookup_succ, store, List.getElem?_set_ne this]

theorem lookup_release_same (h : Heap T) (p : Nat) : lookup (release h p) p = none := by
  cases p with
  | zero => rfl
  | succ q =>
    by_cases hq : q < h.length
    · simp [lookup_succ, release, hq]
    · have : (h.set q none)[q]? = none := List.getElem?_eq_none (by simpa using hq)
      simp [lookup_succ, release, this]

theorem lookup_release_ne {h : Heap T} {p q : Nat} (hne : q ≠ p) :
    lookup (release h p) q = lookup h q := by
  cases p with
  | zero => rfl
  | succ p1 =>
    cases q with
    | zero => rfl
    | succ q1 =>
      have : p1 ≠ q1 := fun e => hne (by rw [e])
      simp [lookup_succ, release, List.getElem?_set_ne this]

theorem length_store (h : Heap T) (p : Nat) (nd : Node T) : (store h p nd).length = h.length := by
  cases p <;> simp [store]

theorem length_release (h : Heap T) (p : Nat) : (release h p).length = h.length := by
  cases p <;> simp [release]

theorem store_append_left (h l : Heap T) {p : Nat} (nd : Node T) (hp : p ≤ h.length) :
    store (h ++ l) p nd = store h p nd ++ l := by
  cases p with
  | zero => rfl
  | succ q =>
    have : q < h.length := hp
    simp [store, List.set_append_left _ _ this]

theorem store_store (h : Heap T) (p : Nat) (a b : Node T) :
    store (store h p a) p b = store h p b := by
  cases p with
  | zero => rfl
  | succ q => simp [store]

theorem store_append_new (h l : Heap T) (c : Option (Node T)) (nd : Node T) :
    store (h ++ c :: l) (h.length + 1) nd = h ++ some nd :: l := by
  simp [store, List.set_append_right]

theorem read_eq_ok {m : Mem T} {p : Nat} {nd : Node T} (hl : lookup m.heap p = some nd) :
    m.read p = .ok nd := by
  simp [Mem.read, hl]

theorem tree_eq_ok {m : Mem T} {t : Nat} {o : TreeObj} (ht : m.trees[t]? = some o) :
    m.tree t = .ok o := by
  simp only [Mem.tree, ht]

/-! ### Forests -/

namespace Forest
variable {α β : Type}

theorem length_preorder (f : Forest α) : f.preorder.length = f.size := by
  induction f with
  | nil => rfl
  | cons x k r ihk ihr => simp [preorder, size, ihk, ihr]; omega

theorem depth_le_size (f : Forest α) : f.depth ≤ f.size := by
  induction f with
  | nil => simp [depth, size]
  | cons x k r ihk ihr => simp only [depth, size]; omega

theorem roots_snoc (f : Forest α) (y : α) : (f.snoc y).roots = f.roots ++ [y] := by
  induction f with
  | nil => rfl
  | cons x k r _ ihr => simp [snoc, roots, ihr]

theorem preorder_snoc (f : Forest α) (y : α) : (f.snoc y).preorder = f.preorder ++ [y] := by
  induction f with
  | nil => rfl
  | cons x k r _ ihr => simp [snoc, preorder, ihr]

theorem size_snoc (f : Forest α) (y : α) : (f.snoc y).size = f.size + 1 := by
  rw [← length_preorder, preorder_snoc, List.length_append, length_preorder]; rfl

theorem preorder_map (g : α → β) (f : Forest α) : (f.map g).preorder = f.preorder.map g := by
  induction f with
  | nil => rfl
  | cons x k r ihk ihr => simp [map, preorder, ihk, ihr]

theorem size_map (g : α → β) (f : Forest α) : (f.map g).size = f.size := by
  induction f with
  | nil => rfl
  | cons x k r ihk ihr => simp [map, size, ihk, ihr]

end Forest

theorem addrs_nil : addrs (Forest.nil : Forest (Nat × T)) = [] := rfl

theorem addrs_cons (x : Nat × T) (k r : Forest (Nat × T)) :
    addrs (.cons x k r) = x.1 :: (addrs k ++ addrs r) := by
  simp [addrs, Forest.preorder]

theorem rootPtrs_nil : rootPtrs (Forest.nil : Forest (Nat × T)) = [] := rfl

theorem rootPtrs_cons (x : Nat × T) (k r : Forest (Nat × T)) :
    rootPtrs (.cons x k r) = x.1 :: rootPtrs r := by
  simp [rootPtrs, Forest.roots]

theorem length_addrs (f : Forest (Nat × T)) : (addrs f).length = f.size := by
  simp [addrs, Forest.length_preorder]

theorem addrs_snoc (f : Forest (Nat × T)) (y : Nat × T) : addrs (f.snoc y) = addrs f ++ [y.1] := by
  simp [addrs, Forest.preorder_snoc]

theorem rootPtrs_snoc (f : Forest (Nat × T)) (y : Nat × T) :
    rootPtrs (f.snoc y) = rootPtrs f ++ [y.1] := by
  simp [rootPtrs, Forest.roots_snoc]

/-! ### The representation predicate -/

theorem Holds.congr {h h' : Heap T} {par : Nat} {f : Forest (Nat × T)} (H : Holds h par f)
    (hfr : ∀ q ∈ addrs f, lookup h' q = lookup h q) : Holds h' par f := by
  induction f generalizing par with
  | nil => trivial
  | cons x k r ihk ihr =>
    obtain ⟨h1, h2, h3⟩ := H
    refine ⟨?_, ihk h2 ?_, ihr h3 ?_⟩
    · rw [hfr _ (by simp [addrs_cons]), h1]
    · intro q hq; exact hfr q (by simp [addrs_cons, hq])
    · intro q hq; exact hfr q (by simp [addrs_cons, hq])

theorem Holds.lookup_mem {h : Heap T} {par : Nat} {f : Forest (Nat × T)} (H : Holds h par f)
    {p : Nat} (hp : p ∈ addrs f) :
    ∃ v par1, lookup h p = some ⟨v, rootPtrs (kidsAt p f), par1⟩ ∧ Holds h p (kidsAt p f) := by
  induction f generalizing par with
  | nil => simp [addrs_nil] at hp
  | cons x k r ihk ihr =>
    obtain ⟨h1, h2, h3⟩ := H
    by_cases hx : x.1 = p
    · subst hx
      exact ⟨x.2, par, by simpa [kidsAt] using h1, by simpa [kidsAt] using h2⟩
    · by_cases hk : p ∈ addrs k
      · simpa [kidsAt, hx, hk] using ihk h2 hk
      · have hr : p ∈ addrs r := by
          simp only [addrs_cons, List.mem_cons, List.mem_append] at hp
          rcases hp with hp | hp | hp
          · exact absurd hp.symm hx
          · exact absurd hp hk
          · exact hp
        simpa [kidsAt, hx, hk] using ihr h3 hr

theorem Holds.le_length {h : Heap T} {par : Nat} {f : Forest (Nat × T)} (H : Holds h par f)
    {p : Nat} (hp : p ∈ addrs f) : p ≠ 0 ∧ p ≤ h.length := by
  obtain ⟨v, par1, hl, -⟩ := H.lookup_mem hp
  exact ⟨lookup_some_pos hl, lookup_some_le hl⟩

theorem Holds.size_le {h : Heap T} {par : Nat} {f : Forest (Nat × T)} (H : Holds h par f)
    (hnd : (addrs f).Nodup) : f.size ≤ h.length := by
  have hsub : (addrs f).toFinset ⊆ Finset.Icc 1 h.length := by
    intro q hq
    have := H.le_length (List.mem_toFinset.mp hq)
    simp only [Finset.mem_Icc]
    omega
  have := Finset.card_le_card hsub
  rw [List.toFinset_card_of_nodup hnd, length_addrs] at this
  simpa using this

theorem readForest_of_holds {h : Heap T} {par : Nat} {f : Forest (Nat × T)} (H : Holds h par f)
    (fuel : Nat) (hf : f.depth < fuel) : readForest fuel h (rootPtrs f) = f := by
  induction f generalizing par fuel with
  | nil => cases fuel <;> simp [readForest, rootPtrs_nil]
  | cons x k r ihk ihr =>
    obtain ⟨h1, h2, h3⟩ := H
    cases fuel with
    | zero => exact absurd hf (Nat.not_lt_zero _)
    | succ n =>
      simp only [Forest.depth] at hf
      have hk := ihk h2 n (by omega)
      have hr := ihr h3 (n + 1) (by omega)
      simp only [readForest, rootPtrs_cons, List.foldr_cons, h1] at hr ⊢
      rw [hr, hk]

/-! ### Adding a leaf -/

theorem rootPtrs_addAt (p : Nat) (y : Nat × T) (f : Forest (Nat × T)) :
    rootPtrs (addAt p y f) = rootPtrs f := by
  induction f with
  | nil => rfl
  | cons x k r _ ihr =>
    by_cases hx : x.1 = p <;> simp [addAt, hx, rootPtrs_cons, ihr]

theorem addAt_of_not_mem {p : Nat} (y : Nat × T) {f : Forest (Nat × T)} (hp : p ∉ addrs f) :
    addAt p y f = f := by
  induction f with
  | nil => rfl
  | cons x k r ihk ihr =>
    simp only [addrs_cons, List.mem_cons, List.mem_append, not_or] at hp
    have hx : ¬ x.1 = p := fun e => hp.1 e.symm
    simp [addAt, hx, ihk hp.2.1, ihr hp.2.2]

theorem addrs_addAt_perm {p : Nat} (y : Nat × T) {f : Forest (Nat × T)} (hp : p ∈ addrs f)
    (hnd : (addrs f).Nodup) : (addrs (addAt p y f)).Perm (y.1 :: addrs f) := by
  induction f with
  | nil => simp [addrs_nil] at hp
  | cons x k r ihk ihr =>
    rw [addrs_cons] at hnd hp
    have hnd1 := (List.nodup_cons.mp hnd).2
    have hk := (List.nodup_append.mp hnd1).1
    have hr := (List.nodup_append.mp hnd1).2.1
    have hdis := (List.nodup_append.mp hnd1).2.2
    by_cases hx : x.1 = p
    · simp only [addAt, hx, if_true, addrs_cons, addrs_snoc]
      refine List.Perm.trans ?_ (List.Perm.swap _ _ _)
      refine List.Perm.cons _ ?_
      rw [List.append_assoc]
      refine List.Perm.trans (List.perm_append_comm_assoc _ _ _).symm ?_
      simp
    · simp only [addAt, hx, if_false, addrs_cons]
      refine List.Perm.trans ?_ (List.Perm.swap _ _ _)
      refine List.Perm.cons _ ?_
      simp only [List.mem_cons, List.mem_append] at hp
      rcases hp with hp | hp | hp
      · exact absurd hp.symm hx
      · have hpr : p ∉ addrs r := fun h2 => hdis hp h2
        rw [addAt_of_not_mem y hpr]
        exact (List.Perm.append_right _ (ihk hp hk)).trans (by simp)
      · have hpk : p ∉ addrs k := fun h2 => hdis h2 hp
        rw [addAt_of_not_mem y hpk]
        exact (List.Perm.append_left _ (ihr hp hr)).trans List.perm_middle

theorem size_addAt {p : Nat} (y : Nat × T) {f : Forest (Nat × T)} (hp : p ∈ addrs f)
    (hnd : (addrs f).Nodup) : (addAt p y f).size = f.size + 1 := by
  have := (addrs_addAt_perm y hp hnd).length_eq
  simpa [length_addrs] using this

theorem Holds.snoc {h : Heap T} {par : Nat} {k : Forest (Nat × T)} {y : Nat × T}
    (H : Holds h par k) (hy : lookup h y.1 = some ⟨y.2, [], par⟩) : Holds h par (k.snoc y) := by
  induction k with
  | nil => exact ⟨by simpa [rootPtrs_nil] using hy, trivial, trivial⟩
  | cons x k r _ ihr => exact ⟨H.1, H.2.1, ihr H.2.2⟩

theorem Holds.addAt {h h1 : Heap T} {par p : Nat} {y : Nat × T} {f : Forest (Nat × T)}
    (H : Holds h par f) (hnd : (addrs f).Nodup)
    (hy : lookup h1 y.1 = some ⟨y.2, [], p⟩)
    (hp : ∀ nd, lookup h p = some nd →
      lookup h1 p = some ⟨nd.data, nd.children ++ [y.1], nd.pParent⟩)
    (hfr : ∀ q ∈ addrs f, q ≠ p → lookup h1 q = lookup h q) :
    Holds h1 par (addAt p y f) := by
  induction f generalizing par with
  | nil => trivial
  | cons x k r ihk ihr =>
    obtain ⟨h1x, h2, h3⟩ := H
    rw [addrs_cons] at hnd
    have hxn := (List.nodup_cons.mp hnd).1
    have hnd1 := (List.nodup_cons.mp hnd).2
    have hk := (List.nodup_append.mp hnd1).1
    have hr := (List.nodup_append.mp hnd1).2.1
    have hfk : ∀ q ∈ addrs k, q ≠ p → lookup h1 q = lookup h q :=
      fun q hq => hfr q (by simp [addrs_cons, hq])
    have hfrr : ∀ q ∈ addrs r, q ≠ p → lookup h1 q = lookup h q :=
      fun q hq => hfr q (by simp [addrs_cons, hq])
    by_cases hx : x.1 = p
    · simp only [GeneralTree.addAt, hx, if_true]
      have hne : ∀ q ∈ addrs k ++ addrs r, q ≠ p := by
        intro q hq e; rw [e, ← hx] at hq; exact hxn hq
      refine ⟨?_, ?_, ?_⟩
      · have := hp _ (hx ▸ h1x)
        simpa [hx, rootPtrs_snoc] using this
      · refine Holds.snoc (h2.congr fun q hq => hfk q hq (hne q (by simp [hq]))) ?_
        rw [hx]; exact hy
      · exact h3.congr fun q hq => hfrr q hq (hne q (by simp [hq]))
    · simp only [GeneralTree.addAt, hx, if_false]
      refine ⟨?_, ihk h2 hk hfk, ihr h3 hr hfrr⟩
      rw [rootPtrs_addAt, hfr x.1 (by simp [addrs_cons]) hx, h1x]

/-! ### Pruning -/

theorem rootPtrs_pruneAt (p : Nat) (f : Forest (Nat × T)) :
    rootPtrs (pruneAt p f) = rootPtrs f := by
  induction f with
  | nil => rfl
  | cons x k r _ ihr =>
    by_cases hx : x.1 = p <;> simp [pruneAt, hx, rootPtrs_cons, ihr]

theorem pruneAt_of_not_mem {p : Nat} {f : Forest (Nat × T)} (hp : p ∉ addrs f) :
    pruneAt p f = f := by
  induction f with
  | nil => rfl
  | cons x k r ihk ihr =>
    simp only [addrs_cons, List.mem_cons, List.mem_append, not_or] at hp
    have hx : ¬ x.1 = p := fun e => hp.1 e.symm
    simp [pruneAt, hx, ihk hp.2.1, ihr hp.2.2]

theorem kidsAt_of_not_mem {p : Nat} {f : Forest (Nat × T)} (hp : p ∉ addrs f) :
    kidsAt p f = .nil := by
  induction f with
  | nil => rfl
  | cons x k r ihk ihr =>
    simp only [addrs_cons, List.mem_cons, List.mem_append, not_or] at hp
    have hx : ¬ x.1 = p := fun e => hp.1 e.symm
    simp [kidsAt, hx, hp.2.1, ihr hp.2.2]

theorem addrs_pruneAt_perm {p : Nat} {f : Forest (Nat × T)} (hnd : (addrs f).Nodup) :
    (addrs f).Perm (addrs (pruneAt p f) ++ addrs (kidsAt p f)) := by
  induction f with
  | nil => simp [pruneAt, kidsAt, addrs_nil]
  | cons x k r ihk ihr =>
    rw [addrs_cons] at hnd
    have hnd1 := (List.nodup_cons.mp hnd).2
    have hk := (List.nodup_append.mp hnd1).1
    have hr := (List.nodup_append.mp hnd1).2.1
    have hdis := (List.nodup_append.mp hnd1).2.2
    by_cases hx : x.1 = p
    · simp only [pruneAt, kidsAt, hx, if_true, addrs_cons, addrs_nil, List.nil_append,
        List.cons_append]
      exact List.Perm.cons _ List.perm_append_comm
    · by_cases hpk : p ∈ addrs k
      · have hpr : p ∉ addrs r := fun h2 => hdis hpk h2
        simp only [pruneAt, kidsAt, hx, hpk, if_true, if_false, addrs_cons, List.cons_append,
          pruneAt_of_not_mem hpr]
        refine List.Perm.cons _ ?_
        refine ((ihk hk).append_right _).trans ?_
        simp only [List.append_assoc]
        exact List.Perm.append_left _ List.perm_append_comm
      · simp only [pruneAt, kidsAt, hx, hpk, if_false, addrs_cons, List.cons_append,
          pruneAt_of_not_mem hpk, List.append_assoc]
        exact List.Perm.cons _ (List.Perm.append_left _ (ihr hr))

theorem size_pruneAt {p : Nat} {f : Forest (Nat × T)} (hnd : (addrs f).Nodup) :
    (pruneAt p f).size + (kidsAt p f).size = f.size := by
  have := (addrs_pruneAt_perm (p := p) hnd).length_eq
  simpa [length_addrs] using this.symm

theorem Holds.pruneAt {h h1 : Heap T} {par p : Nat} {f : Forest (Nat × T)}
    (H : Holds h par f) (hnd : (addrs f).Nodup)
    (hp : ∀ nd, lookup h p = some nd → lookup h1 p = some ⟨nd.data, [], nd.pParent⟩)
    (hfr : ∀ q ∈ addrs (pruneAt p f), q ≠ p → lookup h1 q = lookup h q) :
    Holds h1 par (pruneAt p f) := by
  induction f generalizing par with
  | nil => trivial
  | cons x k r ihk ihr =>
    obtain ⟨h1x, h2, h3⟩ := H
    rw [addrs_cons] at hnd
    have hxn := (List.nodup_cons.mp hnd).1
    have hnd1 := (List.nodup_cons.mp hnd).2
    have hk := (List.nodup_append.mp hnd1).1
    have hr := (List.nodup_append.mp hnd1).2.1
    by_cases hx : x.1 = p
    · simp only [GeneralTree.pruneAt, hx, if_true] at hfr ⊢
      refine ⟨?_, trivial, ?_⟩
      · have := hp _ (hx ▸ h1x)
        simpa [hx, rootPtrs_nil] using this
      · refine h3.congr fun q hq => hfr q (by simp [addrs_cons, hq]) ?_
        intro e; rw [e, ← hx] at hq; exact hxn (by simp [hq])
    · simp only [GeneralTree.pruneAt, hx, if_false] at hfr ⊢
      refine ⟨?_, ihk h2 hk fun q hq => hfr q (by simp [addrs_cons, hq]),
        ihr h3 hr fun q hq => hfr q (by simp [addrs_cons, hq])⟩
      rw [rootPtrs_pruneAt, hfr x.1 (by simp [addrs_cons]) hx, h1x]

/-! ### Overwriting a payload -/

theorem rootPtrs_setAt (p : Nat) (v : T) (f : Forest (Nat × T)) :
    rootPtrs (setAt p v f) = rootPtrs f := by
  induction f with
  | nil => rfl
  | cons x k r _ ihr =>
    by_cases hx : x.1 = p <;> simp [setAt, hx, rootPtrs_cons, ihr]

theorem addrs_setAt (p : Nat) (v : T) (f : Forest (Nat × T)) :
    addrs (setAt p v f) = addrs f := by
  induction f with
  | nil => rfl
  | cons x k r ihk ihr =>
    by_cases hx : x.1 = p <;> simp [setAt, hx, addrs_cons, ihk, ihr]

theorem size_setAt (p : Nat) (v : T) (f : Forest (Nat × T)) : (setAt p v f).size = f.size := by
  rw [← length_addrs, addrs_setAt, length_addrs]

theorem Holds.setAt {h h1 : Heap T} {par p : Nat} {v : T} {f : Forest (Nat × T)}
    (H : Holds h par f) (hnd : (addrs f).Nodup)
    (hp : ∀ nd, lookup h p = some nd → lookup h1 p = some ⟨v, nd.children, nd.pParent⟩)
    (hfr : ∀ q ∈ addrs f, q ≠ p → lookup h1 q = lookup h q) :
    Holds h1 par (setAt p v f) := by
  induction f generalizing par with
  | nil => trivial
  | cons x k r ihk ihr =>
    obtain ⟨h1x, h2, h3⟩ := H
    rw [addrs_cons] at hnd
    have hxn := (List.nodup_cons.mp hnd).1
    have hnd1 := (List.nodup_cons.mp hnd).2
    have hk := (List.nodup_append.mp hnd1).1
    have hr := (List.nodup_append.mp hnd1).2.1
    have hfk : ∀ q ∈ addrs k, q ≠ p → lookup h1 q = lookup h q :=
      fun q hq => hfr q (by simp [addrs_cons, hq])
    have hfrr : ∀ q ∈ addrs r, q ≠ p → lookup h1 q = lookup h q :=
      fun q hq => hfr q (by simp [addrs_cons, hq])
    by_cases hx : x.1 = p
    · simp only [GeneralTree.setAt, hx, if_true]
      have hne : ∀ q ∈ addrs k ++ addrs r, q ≠ p := by
        intro q hq e; rw [e, ← hx] at hq; exact hxn hq
      refine ⟨?_, ?_, ?_⟩
      · have := hp _ (hx ▸ h1x)
        simpa [hx] using this
      · rw [← hx]
        exact h2.congr fun q hq => hfk q hq (hne q (by simp [hq]))
      · exact h3.congr fun q hq => hfrr q hq (hne q (by simp [hq]))
    · simp only [GeneralTree.setAt, hx, if_false]
      refine ⟨?_, ihk h2 hk hfk, ihr h3 hr hfrr⟩
      rw [rootPtrs_setAt, hfr x.1 (by simp [addrs_cons]) hx, h1x]

/-! ### `remove` -/

theorem unsigned_dec {n n1 d : Nat}
    (h : (n1 + d) % UNSIGNED_RANGE = n % UNSIGNED_RANGE) :
    ((n1 + (UNSIGNED_RANGE - 1)) % UNSIGNED_RANGE + (1 + d)) % UNSIGNED_RANGE
      = n % UNSIGNED_RANGE := by
  unfold UNSIGNED_RANGE at *
  omega

theorem unsigned_sub {s d n1 : Nat} (hd : d ≤ s) (h0 : n1 < UNSIGNED_RANGE)
    (h : (n1 + d) % UNSIGNED_RANGE = (s % UNSIGNED_RANGE) % UNSIGNED_RANGE) :
    n1 = (s - d) % UNSIGNED_RANGE := by
  unfold UNSIGNED_RANGE at *
  omega

theorem remove_forest {g : Forest (Nat × T)} :
    ∀ (m : Mem T) (par fuel t : Nat) (o : TreeObj),
      Holds m.heap par g → (addrs g).Nodup → g.depth ≤ fuel → m.trees[t]? = some o →
      o.n < UNSIGNED_RANGE →
      ∃ m1 n1, forEach (fun c s => Tree.remove fuel t c s) (rootPtrs g) m = .ok m1 ∧
        m1.heap.length = m.heap.length ∧
        (∀ q, lookup m1.heap q = if q ∈ addrs g then none else lookup m.heap q) ∧
        m1.trees.length = m.trees.length ∧
        m1.trees[t]? = some ⟨o.pRoot, n1⟩ ∧
        (∀ t1, t1 ≠ t → m1.trees[t1]? = m.trees[t1]?) ∧
        n1 < UNSIGNED_RANGE ∧ (n1 + g.size) % UNSIGNED_RANGE = o.n % UNSIGNED_RANGE := by
  induction g with
  | nil =>
    intro m par fuel t o _ _ _ ht hn
    exact ⟨m, o.n, rfl, rfl, by simp [addrs_nil], rfl, ht, fun _ _ => rfl, hn, rfl⟩
  | cons x k r ihk ihr =>
    intro m par fuel t o H hnd hfuel ht hn
    obtain ⟨h1x, h2, h3⟩ := H
    rw [addrs_cons] at hnd
    have hxn := (List.nodup_cons.mp hnd).1
    have hnd1 := (List.nodup_cons.mp hnd).2
    have hk := (List.nodup_append.mp hnd1).1
    have hr := (List.nodup_append.mp hnd1).2.1
    have hdis := (List.nodup_append.mp hnd1).2.2
    simp only [Forest.depth] at hfuel
    obtain ⟨n, rfl⟩ : ∃ n, fuel = n + 1 := ⟨fuel - 1, by omega⟩
    obtain ⟨m1, n1, e1, hl1, hc1, htl1, ht1, hto1, hn1, hm1⟩ :=
      ihk m x.1 n t o h2 hk (by omega) ht hn
    -- the call on the first root
    have hx0 : x.1 ≠ 0 := lookup_some_pos h1x
    let m3 : Mem T := (m1.free x.1).setTree t
      ⟨o.pRoot, (n1 + (UNSIGNED_RANGE - 1)) % UNSIGNED_RANGE⟩
    have e3 : Tree.remove (n + 1) t x.1 m = .ok m3 := by
      have hrd : m.read x.1 = .ok ⟨x.2, rootPtrs k, par⟩ := read_eq_ok h1x
      have htr : (m1.free x.1).tree t = .ok ⟨o.pRoot, n1⟩ := tree_eq_ok ht1
      simp only [Tree.remove, if_neg hx0, hrd, e1, htr]
    have ht3 : t < m1.trees.length := by
      have := (List.getElem?_eq_some.mp ht1).1
      exact this
    have hlk3 : ∀ q, lookup m3.heap q
        = if q = x.1 ∨ q ∈ addrs k then none else lookup m.heap q := by
      intro q
      show lookup (release m1.heap x.1) q = _
      by_cases hq : q = x.1
      · simp [hq, lookup_release_same]
      · rw [lookup_release_ne hq, hc1]
        simp [hq]
    have H3 : Holds m3.heap par r := by
      refine h3.congr fun q hq => ?_
      rw [hlk3]
      have h1 : q ≠ x.1 := by
        intro e; rw [e] at hq; exact hxn (by simp [hq])
      have h2 : q ∉ addrs k := fun hqk => hdis hqk hq
      simp [h1, h2]
    have ht3g : m3.trees[t]? = some ⟨o.pRoot, (n1 + (UNSIGNED_RANGE - 1)) % UNSIGNED_RANGE⟩ := by
      show (m1.trees.set t _)[t]? = _
      simp [ht3]
    obtain ⟨m4, n4, e4, hl4, hc4, htl4, ht4, hto4, hn4, hm4⟩ :=
      ihr m3 par (n + 1) t _ H3 hr (by omega) ht3g
        (Nat.mod_lt _ (by unfold UNSIGNED_RANGE; omega))
    refine ⟨m4, n4, ?_, ?_, ?_, ?_, ht4, ?_, hn4, ?_⟩
    · simp only [rootPtrs_cons, forEach, e3]
      exact e4
    · rw [hl4]
      show (release m1.heap x.1).length = _
      rw [length_release, hl1]
    · intro q
      rw [hc4, hlk3, addrs_cons]
      by_cases hq1 : q ∈ addrs r
      · simp [hq1]
      · by_cases hq2 : q = x.1 ∨ q ∈ addrs k
        · rcases hq2 with hq2 | hq2 <;> simp [hq2]
        · simp only [not_or] at hq2
          simp [hq1, hq2.1, hq2.2]
    · rw [htl4]
      show (m1.trees.set t _).length = _
      rw [List.length_set, htl1]
    · intro t1 ht1ne
      rw [hto4 t1 ht1ne]
      show (m1.trees.set t _)[t1]? = _
      rw [List.getElem?_set_ne (fun e => ht1ne e.symm), hto1 t1 ht1ne]
    · have hd := unsigned_dec (n := o.n) (d := k.size) hm1
      simp only [Forest.size]
      dsimp only at hm4
      rw [← hd]
      unfold UNSIGNED_RANGE at *
      omega

/-! ### `preOrderPrint` -/

theorem list_set_self {α : Type} {l : List α} {i : Nat} {a : α} (h : l[i]? = some a) :
    l.set i a = l := by
  induction l generalizing i with
  | nil => rfl
  | cons b l ih =>
    cases i with
    | zero => simp at h; simp [h]
    | succ i => simp at h; simp [ih h]

theorem join_cons (s : String) (l : List String) : String.join (s :: l) = s ++ String.join l := by
  apply String.ext; simp

theorem join_append (l1 l2 : List String) :
    String.join (l1 ++ l2) = String.join l1 ++ String.join l2 := by
  apply String.ext; simp

/-- The text `preOrderPrint` writes for a forest of payloads. -/
theorem print_forest (fmt : T → String) (m : Mem T) {g : Forest (Nat × T)} :
    ∀ (par fuel : Nat) (out : String), Holds m.heap par g → g.depth ≤ fuel →
      forEach (fun c o => preOrderPrint fmt fuel o c m) (rootPtrs g) out
        = .ok (out ++ String.join ((g.map Prod.snd).preorder.map fun v => fmt v ++ " ")) := by
  induction g with
  | nil =>
    intro par fuel out _ _
    simp [rootPtrs_nil, forEach, Forest.map, Forest.preorder, String.join]
  | cons x k r ihk ihr =>
    intro par fuel out H hfuel
    obtain ⟨h1x, h2, h3⟩ := H
    simp only [Forest.depth] at hfuel
    obtain ⟨n, rfl⟩ : ∃ n, fuel = n + 1 := ⟨fuel - 1, by omega⟩
    have hx0 : x.1 ≠ 0 := lookup_some_pos h1x
    have e1 : preOrderPrint fmt (n + 1) out x.1 m
        = .ok (out ++ fmt x.2 ++ " "
            ++ String.join ((k.map Prod.snd).preorder.map fun v => fmt v ++ " ")) := by
      have hrd : m.read x.1 = .ok ⟨x.2, rootPtrs k, par⟩ := read_eq_ok h1x
      simp only [preOrderPrint, if_neg hx0, hrd]
      exact ihk _ _ _ h2 (by omega)
    rw [rootPtrs_cons]
    simp only [forEach, e1]
    rw [ihr _ (n + 1) _ h3 (by omega)]
    simp only [Forest.map, Forest.preorder, List.map_cons, List.map_append, join_cons,
      join_append, String.append_assoc]

/-! ### `copy` -/

theorem size_relabel (b : Nat) (g : Forest (Nat × T)) : (relabel b g).size = g.size := by
  induction g generalizing b with
  | nil => rfl
  | cons x k r ihk ihr => simp [relabel, Forest.size, ihk, ihr]

theorem length_cells (par : Nat) (g : Forest (Nat × T)) : (cells par g).length = g.size := by
  induction g generalizing par with
  | nil => rfl
  | cons x k r ihk ihr => simp [cells, Forest.size, ihk, ihr]; omega

theorem map_snd_relabel (b : Nat) (g : Forest (Nat × T)) :
    (relabel b g).map Prod.snd = g.map Prod.snd := by
  induction g generalizing b with
  | nil => rfl
  | cons x k r ihk ihr => simp [relabel, Forest.map, ihk, ihr]

theorem addrs_relabel (b : Nat) (g : Forest (Nat × T)) :
    addrs (relabel b g) = List.range' b g.size := by
  induction g generalizing b with
  | nil => rfl
  | cons x k r ihk ihr =>
    simp only [relabel, addrs_cons, ihk, ihr, Forest.size, size_relabel]
    rw [show 1 + k.size + r.size = (r.size + k.size) + 1 by omega, List.range'_succ,
      ← List.range'_append_1]

theorem Holds.cells (h0 rest : Heap T) (par : Nat) (g : Forest (Nat × T)) :
    Holds (h0 ++ cells par (relabel (h0.length + 1) g) ++ rest) par
      (relabel (h0.length + 1) g) := by
  induction g generalizing h0 rest par with
  | nil => trivial
  | cons x k r ihk ihr =>
    simp only [relabel, GeneralTree.cells]
    refine ⟨?_, ?_, ?_⟩
    · rw [List.append_assoc, List.cons_append, lookup_append_new]
    · have := ihk (h0 ++ [some ⟨x.2, rootPtrs (relabel (h0.length + 1 + 1) k), par⟩])
        (GeneralTree.cells par (relabel (h0.length + 1 + 1 + k.size) r) ++ rest) (h0.length + 1)
      simpa [List.append_assoc] using this
    · have := ihr (h0 ++ some ⟨x.2, rootPtrs (relabel (h0.length + 1 + 1) k), par⟩
          :: GeneralTree.cells (h0.length + 1) (relabel (h0.length + 1 + 1) k)) rest par
      simp only [List.length_append, List.length_cons, length_cells, size_relabel] at this
      rw [show h0.length + (k.size + 1) + 1 = h0.length + 1 + 1 + k.size by omega] at this
      simpa [List.append_assoc] using this

theorem copy_forest {g : Forest (Nat × T)} :
    ∀ (m : Mem T) (pN par fuel : Nat) (ndN : Node T),
      Holds m.heap par g → g.depth ≤ fuel → lookup m.heap pN = some ndN → pN ∉ addrs g →
      copyChildren fuel pN (rootPtrs g) m
        = .ok ⟨store (m.heap ++ cells pN (relabel (m.heap.length + 1) g)) pN
            ⟨ndN.data, ndN.children ++ rootPtrs (relabel (m.heap.length + 1) g), ndN.pParent⟩,
            m.trees⟩ := by
  induction g with
  | nil =>
    intro m pN par fuel ndN _ _ hN _
    have : store m.heap pN ndN = m.heap := by
      cases pN with
      | zero => rfl
      | succ q =>
        rw [lookup_eq_some_iff] at hN
        simp only [store]
        exact list_set_self hN
    simp [copyChildren, rootPtrs_nil, forEach, relabel, cells, this]
  | cons x k r ihk ihr =>
    intro m pN par fuel ndN H hfuel hN hpN
    obtain ⟨h1x, h2, h3⟩ := H
    simp only [Forest.depth] at hfuel
    obtain ⟨n, rfl⟩ : ∃ n, fuel = n + 1 := ⟨fuel - 1, by omega⟩
    rw [addrs_cons] at hpN
    simp only [List.mem_cons, List.mem_append, not_or] at hpN
    have hNle : pN ≤ m.heap.length := lookup_some_le hN
    have hN0 : pN ≠ 0 := lookup_some_pos hN
    -- the recursive call on the first root
    have ek := ihk ⟨m.heap ++ [some ⟨x.2, [], pN⟩], m.trees⟩ (m.heap.length + 1)
      x.1 n ⟨x.2, [], pN⟩
      (h2.congr fun q hq => lookup_append_left _ _ (h2.le_length hq).2) (by omega)
      (lookup_append_new m.heap _ [])
      (fun hq => by have := (h2.le_length hq).2; omega)
    simp only [List.length_append, List.length_cons, List.length_nil, List.nil_append,
      List.append_assoc, List.singleton_append, store_append_new] at ek
    have e1 : Tree.copy (n + 1) x.1 pN m = .ok (m.heap.length + 1,
        ⟨m.heap ++ some ⟨x.2, rootPtrs (relabel (m.heap.length + 1 + 1) k), pN⟩
          :: cells (m.heap.length + 1) (relabel (m.heap.length + 1 + 1) k), m.trees⟩) := by
      have hrd : m.read x.1 = .ok ⟨x.2, rootPtrs k, par⟩ := read_eq_ok h1x
      unfold copyChildren at ek
      simp only [Tree.copy, hrd, Mem.alloc, ek]
    have e2 : pushChild pN (m.heap.length + 1)
        (⟨m.heap ++ some ⟨x.2, rootPtrs (relabel (m.heap.length + 1 + 1) k), pN⟩
          :: cells (m.heap.length + 1) (relabel (m.heap.length + 1 + 1) k), m.trees⟩ : Mem T)
        = .ok ⟨store m.heap pN ⟨ndN.data, ndN.children ++ [m.heap.length + 1], ndN.pParent⟩
            ++ some ⟨x.2, rootPtrs (relabel (m.heap.length + 1 + 1) k), pN⟩
              :: cells (m.heap.length + 1) (relabel (m.heap.length + 1 + 1) k), m.trees⟩ := by
      have hrd : (⟨m.heap ++ some ⟨x.2, rootPtrs (relabel (m.heap.length + 1 + 1) k), pN⟩
          :: cells (m.heap.length + 1) (relabel (m.heap.length + 1 + 1) k), m.trees⟩ : Mem T).read pN
          = .ok ndN := read_eq_ok (by rw [lookup_append_left _ _ hNle]; exact hN)
      simp only [pushChild, hrd, Mem.write, store_append_left _ _ _ hNle]
    have hlen3 : (store m.heap pN ⟨ndN.data, ndN.children ++ [m.heap.length + 1], ndN.pParent⟩
        ++ some ⟨x.2, rootPtrs (relabel (m.heap.length + 1 + 1) k), pN⟩
          :: cells (m.heap.length + 1) (relabel (m.heap.length + 1 + 1) k)).length
        = m.heap.length + 1 + k.size := by
      simp [length_store, length_cells, size_relabel]; omega
    have er := ihr (⟨store m.heap pN ⟨ndN.data, ndN.children ++ [m.heap.length + 1], ndN.pParent⟩
        ++ some ⟨x.2, rootPtrs (relabel (m.heap.length + 1 + 1) k), pN⟩
          :: cells (m.heap.length + 1) (relabel (m.heap.length + 1 + 1) k), m.trees⟩ : Mem T) pN
      par (n + 1)
      ⟨ndN.data, ndN.children ++ [m.heap.length + 1], ndN.pParent⟩
      (h3.congr fun q hq => by
        have hq1 := (h3.le_length hq).2
        have hq2 : q ≠ pN := fun e => hpN.2.2 (e ▸ hq)
        rw [lookup_append_left _ _ (by rw [length_store]; exact hq1), lookup_store_ne _ hq2])
      (by omega)
      (by rw [lookup_append_left _ _ (by rw [length_store]; exact hNle)]
          exact lookup_store_same _ hN0 hNle)
      hpN.2.2
    rw [rootPtrs_cons]
    unfold copyChildren at er ⊢
    simp only [forEach, e1, e2]
    rw [er]
    simp only [hlen3]
    have hst : ∀ (l : Heap T) (a b : Node T),
        store (store m.heap pN a ++ l) pN b = store (m.heap ++ l) pN b := by
      intro l a b
      rw [store_append_left _ _ _ (by rw [length_store]; exact hNle), store_store,
        store_append_left _ _ _ hNle]
    simp only [relabel, cells, rootPtrs_cons, List.append_assoc, List.cons_append,
      List.singleton_append, List.nil_append, hst]
    rw [show m.heap.length + 1 + k.size + 1 = m.heap.length + 1 + 1 + k.size by omega]

/-! ### Tree objects -/

theorem Rep.isTree {m : Mem T} {t : Nat} {f : Forest (Nat × T)} (R : Rep m t f) : f.IsTree := by
  obtain ⟨a, v, k, rfl, -⟩ := R
  exact ⟨_, _, rfl⟩

theorem Rep.holds {m : Mem T} {t : Nat} {f : Forest (Nat × T)} (R : Rep m t f) :
    Holds m.heap 0 f := by
  obtain ⟨a, v, k, -, -, H, -⟩ := R
  exact H

theorem Rep.nodup {m : Mem T} {t : Nat} {f : Forest (Nat × T)} (R : Rep m t f) :
    (addrs f).Nodup := by
  obtain ⟨a, v, k, -, -, -, H⟩ := R
  exact H

theorem Rep.depth_lt {m : Mem T} {t : Nat} {f : Forest (Nat × T)} (R : Rep m t f) :
    f.depth < budget m :=
  Nat.lt_succ_of_le ((Forest.depth_le_size f).trans (R.holds.size_le R.nodup))

theorem Rep.tree_lt {m : Mem T} {t : Nat} {f : Forest (Nat × T)} (R : Rep m t f) :
    t < m.trees.length := by
  obtain ⟨a, v, k, -, ht, -, -⟩ := R
  exact (List.getElem?_eq_some.mp ht).1

theorem Rep.graph {m : Mem T} {t : Nat} {f : Forest (Nat × T)} (R : Rep m t f) :
    Tree.graph t m = f := by
  have hd := R.depth_lt
  obtain ⟨a, v, k, rfl, ht, H, -⟩ := R
  have := readForest_of_holds H _ hd
  simpa [Tree.graph, ht, rootPtrs_cons, rootPtrs_nil] using this

theorem Rep.nodes {m : Mem T} {t : Nat} {f : Forest (Nat × T)} (R : Rep m t f) :
    Tree.nodes t m = addrs f := by
  rw [Tree.nodes, R.graph]

theorem Rep.shape {m : Mem T} {t : Nat} {f : Forest (Nat × T)} (R : Rep m t f) :
    Tree.shape t m = f.map Prod.snd := by
  rw [Tree.shape, R.graph]

theorem Rep.size {m : Mem T} {t : Nat} {f : Forest (Nat × T)} (R : Rep m t f) :
    Tree.size t m = .ok (f.size % UNSIGNED_RANGE) := by
  obtain ⟨a, v, k, rfl, ht, -, -⟩ := R
  simp only [Tree.size, tree_eq_ok ht]

theorem Rep.rootHandle {m : Mem T} {t : Nat} {f : Forest (Nat × T)} (R : Rep m t f) :
    ∃ a, Tree.rootHandle t m = .ok ⟨a, t⟩ ∧ rootPtrs f = [a] := by
  obtain ⟨a, v, k, rfl, ht, -, -⟩ := R
  exact ⟨a, by simp only [Tree.rootHandle, tree_eq_ok ht], by simp [rootPtrs_cons, rootPtrs_nil]⟩

theorem Rep.print (fmt : T → String) {m : Mem T} {t : Nat} {f : Forest (Nat × T)}
    (R : Rep m t f) (out : String) :
    Tree.print fmt t m out = .ok (out ++ referenceText fmt (f.map Prod.snd)) := by
  have hd := R.depth_lt
  obtain ⟨a, v, k, rfl, ht, H, -⟩ := R
  have h1 := print_forest fmt m _ _ (out ++ "[") H (Nat.le_of_lt hd)
  simp only [rootPtrs_cons, rootPtrs_nil, forEach] at h1
  have h2 : preOrderPrint fmt (budget m) (out ++ "[") a m
      = .ok (out ++ "[" ++ String.join
        (((Forest.cons (a, v) k .nil).map Prod.snd).preorder.map fun v => fmt v ++ " ")) := by
    revert h1
    cases preOrderPrint fmt (budget m) (out ++ "[") a m <;> simp
  simp only [Tree.print, tree_eq_ok ht, h2, referenceText, String.append_assoc]

theorem Rep.frame {m m1 : Mem T} {t : Nat} {f : Forest (Nat × T)} (R : Rep m t f)
    (ht : m1.trees[t]? = m.trees[t]?)
    (hfr : ∀ q ∈ addrs f, lookup m1.heap q = lookup m.heap q) : Rep m1 t f := by
  obtain ⟨a, v, k, rfl, ht0, H, hnd⟩ := R
  exact ⟨a, v, k, rfl, ht.trans ht0, H.congr hfr, hnd⟩

theorem Rep.mem_le {m : Mem T} {t : Nat} {f : Forest (Nat × T)} (R : Rep m t f) {p : Nat}
    (hp : p ∈ addrs f) : p ≠ 0 ∧ p ≤ m.heap.length :=
  R.holds.le_length hp

theorem Rep.unique {m : Mem T} {t : Nat} {f g : Forest (Nat × T)} (R : Rep m t f)
    (R1 : Rep m t g) : f = g := by
  rw [← R.graph, ← R1.graph]

/-! ### The constructor -/

theorem Tree.new_rep (v : T) (m : Mem T) :
    Rep (Tree.new v m).2 (Tree.new v m).1 (.cons (m.heap.length + 1, v) .nil .nil) := by
  refine ⟨m.heap.length + 1, v, .nil, rfl, ?_, ⟨?_, trivial, trivial⟩, ?_⟩
  · simp [Tree.new, Mem.alloc, Forest.size, UNSIGNED_RANGE]
  · simp only [Tree.new, Mem.alloc, rootPtrs_nil]
    exact lookup_append_new m.heap _ []
  · simp [addrs_cons, addrs_nil]

/-! ### `addChild` -/

theorem addChild_eq {m : Mem T} {p t : Nat} {nd : Node T} {o : TreeObj} (v : T)
    (hl : lookup m.heap p = some nd) (ht : m.trees[t]? = some o) :
    Handle.addChild ⟨p, t⟩ v m = .ok
      ⟨store (m.heap ++ [some ⟨v, [], p⟩]) p
          ⟨nd.data, nd.children ++ [m.heap.length + 1], nd.pParent⟩,
        m.trees.set t ⟨o.pRoot, (o.n + 1) % UNSIGNED_RANGE⟩⟩ := by
  have hrd : m.read p = .ok nd := read_eq_ok hl
  have hle := lookup_some_le hl
  have hrd1 : (⟨m.heap ++ [some ⟨v, [], p⟩], m.trees⟩ : Mem T).read p = .ok nd :=
    read_eq_ok (by rw [lookup_append_left _ _ hle]; exact hl)
  have htr : (⟨store (m.heap ++ [some ⟨v, [], p⟩]) p
      ⟨nd.data, nd.children ++ [m.heap.length + 1], nd.pParent⟩, m.trees⟩ : Mem T).tree t
      = .ok o := tree_eq_ok ht
  simp only [Handle.addChild, hrd, Mem.alloc, pushChild, hrd1, Mem.write, htr, Mem.setTree]

theorem addChild_rep {m : Mem T} {t p : Nat} {f : Forest (Nat × T)} (v : T) (R : Rep m t f)
    (hp : p ∈ addrs f) :
    ∃ m1, Handle.addChild ⟨p, t⟩ v m = .ok m1 ∧
      Rep m1 t (addAt p (m.heap.length + 1, v) f) ∧
      m1.heap.length = m.heap.length + 1 ∧ m1.trees.length = m.trees.length ∧
      (∀ q, q ≠ p → q ≤ m.heap.length → lookup m1.heap q = lookup m.heap q) ∧
      (∀ t1, t1 ≠ t → m1.trees[t1]? = m.trees[t1]?) := by
  have hnd := R.nodup
  have htl := R.tree_lt
  obtain ⟨a, w, k, rfl, ht, H, -⟩ := R
  obtain ⟨vp, par1, hl, -⟩ := H.lookup_mem hp
  have hle := lookup_some_le hl
  have hp0 := lookup_some_pos hl
  refine ⟨_, addChild_eq v hl ht, ?_, ?_, ?_, ?_, ?_⟩
  · have hnew : m.heap.length + 1 ∉ addrs (Forest.cons (a, w) k .nil) := fun hq => by
      have := (H.le_length hq).2; omega
    have hperm := addrs_addAt_perm (m.heap.length + 1, v) hp hnd
    have hsz := size_addAt (m.heap.length + 1, v) hp hnd
    have hroot : ∃ k1, addAt p (m.heap.length + 1, v) (Forest.cons (a, w) k .nil)
        = .cons (a, w) k1 .nil := by
      by_cases hx : a = p <;> simp [addAt, hx]
    obtain ⟨k1, hk1⟩ := hroot
    refine ⟨a, w, k1, hk1, ?_, ?_, ?_⟩
    · rw [hsz]
      simp only [List.getElem?_set, htl, if_true]
      congr 2
      unfold UNSIGNED_RANGE; omega
    · refine H.addAt hnd ?_ ?_ ?_
      · show lookup (store _ p _) (m.heap.length + 1) = _
        rw [lookup_store_ne _ (by omega)]
        exact lookup_append_new m.heap _ []
      · intro nd hnd1
        rw [hl] at hnd1
        cases hnd1
        show lookup (store _ p _) p = _
        exact lookup_store_same _ hp0 (by simp; omega)
      · intro q hq hqp
        show lookup (store _ p _) q = _
        rw [lookup_store_ne _ hqp, lookup_append_left _ _ (H.le_length hq).2]
    · exact (List.Perm.nodup_iff hperm).mpr (List.nodup_cons.mpr ⟨hnew, hnd⟩)
  · simp [length_store]
  · simp
  · intro q hqp hq
    show lookup (store _ p _) q = _
    rw [lookup_store_ne _ hqp, lookup_append_left _ _ hq]
  · intro t1 ht1
    show (m.trees.set t _)[t1]? = _
    rw [List.getElem?_set_ne (fun e => ht1 e.symm)]

/-! ### Writing through `operator*` -/

theorem derefAssign_rep {m : Mem T} {t p : Nat} {f : Forest (Nat × T)} (v : T) (R : Rep m t f)
    (hp : p ∈ addrs f) :
    ∃ m1, Handle.derefAssign ⟨p, t⟩ v m = .ok m1 ∧ Rep m1 t (setAt p v f) ∧
      (∀ nd, lookup m.heap p = some nd → lookup m1.heap p = some ⟨v, nd.children, nd.pParent⟩) ∧
      m1.heap.length = m.heap.length ∧ m1.trees = m.trees ∧
      (∀ q, q ≠ p → lookup m1.heap q = lookup m.heap q) := by
  have hnd := R.nodup
  obtain ⟨a, w, k, rfl, ht, H, -⟩ := R
  obtain ⟨vp, par1, hl, -⟩ := H.lookup_mem hp
  have hle := lookup_some_le hl
  have hp0 := lookup_some_pos hl
  have hrd : m.read p = .ok _ := read_eq_ok hl
  refine ⟨m.write p ⟨v, rootPtrs (kidsAt p (Forest.cons (a, w) k .nil)), par1⟩, ?_, ?_, ?_, ?_, rfl,
    ?_⟩
  · simp only [Handle.derefAssign, if_neg hp0, hrd]
  · have hroot : ∃ w1 k1, setAt p v (Forest.cons (a, w) k .nil) = .cons (a, w1) k1 .nil := by
      by_cases hx : a = p <;> simp [setAt, hx]
    obtain ⟨w1, k1, hk1⟩ := hroot
    refine ⟨a, w1, k1, hk1, ?_, ?_, ?_⟩
    · rw [size_setAt]; exact ht
    · refine H.setAt hnd ?_ ?_
      · intro nd hnd1
        rw [hl] at hnd1
        cases hnd1
        exact lookup_store_same _ hp0 hle
      · intro q _ hqp
        exact lookup_store_ne _ hqp
    · rw [addrs_setAt]; exact hnd
  · intro nd hnd1
    rw [hl] at hnd1
    cases hnd1
    exact lookup_store_same _ hp0 hle
  · exact length_store _ _ _
  · intro q hqp
    exact lookup_store_ne _ hqp

/-! ### `prune` -/

theorem mem_addrs_pruneAt {p : Nat} {f : Forest (Nat × T)} (hp : p ∈ addrs f) :
    p ∈ addrs (pruneAt p f) := by
  induction f with
  | nil => simp [addrs_nil] at hp
  | cons x k r ihk ihr =>
    by_cases hx : x.1 = p
    · simp [pruneAt, hx, addrs_cons]
    · simp only [addrs_cons, List.mem_cons, List.mem_append] at hp
      simp only [pruneAt, hx, if_false, addrs_cons, List.mem_cons, List.mem_append]
      rcases hp with hp | hp | hp
      · exact absurd hp.symm hx
      · exact Or.inr (Or.inl (ihk hp))
      · exact Or.inr (Or.inr (ihr hp))

theorem prune_rep {m : Mem T} {t p : Nat} {f : Forest (Nat × T)} (R : Rep m t f)
    (hp : p ∈ addrs f) :
    ∃ m1, Handle.prune ⟨p, t⟩ m = .ok m1 ∧ Rep m1 t (pruneAt p f) ∧
      (∀ nd, lookup m.heap p = some nd → lookup m1.heap p = some ⟨nd.data, [], nd.pParent⟩) ∧
      m1.heap.length = m.heap.length ∧ m1.trees.length = m.trees.length ∧
      (∀ q, q ∉ addrs f → lookup m1.heap q = lookup m.heap q) ∧
      (∀ t1, t1 ≠ t → m1.trees[t1]? = m.trees[t1]?) := by
  have hnd := R.nodup
  have hsz := R.holds.size_le hnd
  obtain ⟨a, w, k, rfl, ht, H, -⟩ := R
  obtain ⟨vp, par1, hl, Hk⟩ := H.lookup_mem hp
  have hle := lookup_some_le hl
  have hp0 := lookup_some_pos hl
  have hperm := addrs_pruneAt_perm (p := p) hnd
  have hnd2 := (List.Perm.nodup_iff hperm).mp hnd
  have hndP := (List.nodup_append.mp hnd2).1
  have hndK := (List.nodup_append.mp hnd2).2.1
  have hdis := (List.nodup_append.mp hnd2).2.2
  have hszP := size_pruneAt (p := p) hnd
  have hpK : p ∉ addrs (kidsAt p (Forest.cons (a, w) k .nil)) :=
    fun hq => hdis (mem_addrs_pruneAt hp) hq
  have hKsub : ∀ q, q ∈ addrs (kidsAt p (Forest.cons (a, w) k .nil)) →
      q ∈ addrs (Forest.cons (a, w) k .nil) :=
    fun q hq => hperm.mem_iff.mpr (List.mem_append.mpr (Or.inr hq))
  obtain ⟨m1, n1, e1, hl1, hc1, htl1, ht1, hto1, hn1, hm1⟩ :=
    remove_forest m _ (budget m) t _ Hk hndK
      (by have := Forest.depth_le_size (kidsAt p (Forest.cons (a, w) k .nil))
          unfold budget; omega)
      ht (Nat.mod_lt _ (by unfold UNSIGNED_RANGE; omega))
  have hl1p : lookup m1.heap p = some ⟨vp, rootPtrs (kidsAt p (Forest.cons (a, w) k .nil)), par1⟩ := by
    rw [hc1, if_neg hpK, hl]
  have hrd : m.read p = .ok _ := read_eq_ok hl
  have hrd1 : m1.read p = .ok _ := read_eq_ok hl1p
  refine ⟨m1.write p ⟨vp, [], par1⟩, ?_, ?_, ?_, ?_, htl1, ?_, hto1⟩
  · simp only [Handle.prune, hrd, e1, hrd1]
  · have hroot : ∃ k1, pruneAt p (Forest.cons (a, w) k .nil) = .cons (a, w) k1 .nil := by
      by_cases hx : a = p <;> simp [pruneAt, hx]
    obtain ⟨k1, hk1⟩ := hroot
    refine ⟨a, w, k1, hk1, ?_, ?_, hndP⟩
    · show m1.trees[t]? = _
      rw [ht1]
      congr 2
      have := unsigned_sub (s := (Forest.cons (a, w) k .nil).size)
        (d := (kidsAt p (Forest.cons (a, w) k .nil)).size) (by omega) hn1 (by simpa using hm1)
      rw [this]
      congr 1
      omega
    · refine H.pruneAt hnd ?_ ?_
      · intro nd hnd1
        rw [hl] at hnd1
        cases hnd1
        exact lookup_store_same _ hp0 (by rw [hl1]; exact hle)
      · intro q hq hqp
        show lookup (store _ p _) q = _
        rw [lookup_store_ne _ hqp, hc1, if_neg (fun hqk => hdis hq hqk)]
  · intro nd hnd1
    rw [hl] at hnd1
    cases hnd1
    exact lookup_store_same _ hp0 (by rw [hl1]; exact hle)
  · show (store _ p _).length = _
    rw [length_store, hl1]
  · intro q hq
    have hqp : q ≠ p := fun e => hq (e ▸ hp)
    show lookup (store _ p _) q = _
    rw [lookup_store_ne _ hqp, hc1, if_neg (fun hqk => hq (hKsub q hqk))]

/-! ### Copy construction -/

theorem relabel_rep {m : Mem T} {t a n : Nat} {f : Forest (Nat × T)} {h0 : Heap T}
    (hf : f.IsTree) (hh : m.heap = h0 ++ cells 0 (relabel (h0.length + 1) f))
    (ht : m.trees[t]? = some ⟨a, n⟩) (ha : a = h0.length + 1)
    (hn : n = f.size % UNSIGNED_RANGE) : Rep m t (relabel (h0.length + 1) f) := by
  obtain ⟨x, k, rfl⟩ := hf
  refine ⟨h0.length + 1, x.2, relabel (h0.length + 1 + 1) k, by simp [relabel], ?_, ?_, ?_⟩
  · rw [ht, size_relabel, ha, hn]
  · rw [hh]
    simpa using Holds.cells h0 [] 0 (Forest.cons x k .nil)
  · rw [addrs_relabel]
    exact List.nodup_range' _ _

theorem copyCtor_rep {m : Mem T} {t : Nat} {f : Forest (Nat × T)} (R : Rep m t f) :
    ∃ m1, Tree.copyCtor t m = .ok (m.trees.length, m1) ∧
      Rep m1 m.trees.length (relabel (m.heap.length + 1) f) ∧ Rep m1 t f ∧
      m.heap.length ≤ m1.heap.length ∧ m1.trees.length = m.trees.length + 1 ∧
      (∀ q, q ≤ m.heap.length → lookup m1.heap q = lookup m.heap q) ∧
      (∀ t1, t1 < m.trees.length → m1.trees[t1]? = m.trees[t1]?) := by
  have hd := R.depth_lt
  have htl := R.tree_lt
  have hft := R.isTree
  have R0 := R
  obtain ⟨a, w, k, rfl, ht, H, hnd⟩ := R
  obtain ⟨h1x, h2, -⟩ := H
  have hrd : m.read a = .ok ⟨w, rootPtrs k, 0⟩ := read_eq_ok h1x
  simp only [Forest.depth] at hd
  have ek := copy_forest ⟨m.heap ++ [some ⟨w, [], 0⟩], m.trees⟩ (m.heap.length + 1)
    a (budget m) ⟨w, [], 0⟩
    (h2.congr fun q hq => lookup_append_left _ _ (h2.le_length hq).2) (by omega)
    (lookup_append_new m.heap _ [])
    (fun hq => by have := (h2.le_length hq).2; omega)
  simp only [List.length_append, List.length_cons, List.length_nil, List.nil_append,
    List.append_assoc, List.singleton_append, store_append_new] at ek
  have hheap : m.heap ++ some ⟨w, rootPtrs (relabel (m.heap.length + (0 + 1) + 1) k), 0⟩
        :: cells (m.heap.length + 1) (relabel (m.heap.length + (0 + 1) + 1) k)
      = m.heap ++ cells 0 (relabel (m.heap.length + 1) (Forest.cons (a, w) k .nil)) := by
    simp [relabel, cells]
  rw [hheap] at ek
  refine ⟨⟨m.heap ++ cells 0 (relabel (m.heap.length + 1) (Forest.cons (a, w) k .nil)),
    m.trees ++ [⟨m.heap.length + 1, (Forest.cons (a, w) k .nil).size % UNSIGNED_RANGE⟩]⟩,
    ?_, ?_, ?_, ?_, ?_, ?_, ?_⟩
  · have htr : (⟨m.heap ++ cells 0 (relabel (m.heap.length + 1) (Forest.cons (a, w) k .nil)),
        m.trees⟩ : Mem T).tree t = .ok ⟨a, (Forest.cons (a, w) k .nil).size % UNSIGNED_RANGE⟩ :=
      tree_eq_ok ht
    simp only [Tree.copyCtor, tree_eq_ok ht, hrd, Mem.alloc, ek, htr]
  · exact relabel_rep hft rfl (by simp) rfl rfl
  · refine R0.frame ?_ ?_
    · show (m.trees ++ _)[t]? = _
      rw [List.getElem?_append_left htl]
    · intro q hq
      exact lookup_append_left _ _ (R0.mem_le hq).2
  · simp
  · simp
  · intro q hq
    exact lookup_append_left _ _ hq
  · intro t1 ht1
    show (m.trees ++ _)[t1]? = _
    rw [List.getElem?_append_left ht1]

/-! ### Navigation -/

theorem rootPtrs_subset {f : Forest (Nat × T)} {q : Nat} (hq : q ∈ rootPtrs f) : q ∈ addrs f := by
  induction f with
  | nil => simp [rootPtrs_nil] at hq
  | cons x k r _ ihr =>
    simp only [rootPtrs_cons, List.mem_cons] at hq
    simp only [addrs_cons, List.mem_cons, List.mem_append]
    rcases hq with hq | hq
    · exact Or.inl hq
    · exact Or.inr (Or.inr (ihr hq))

theorem kidsAt_subset {p : Nat} {f : Forest (Nat × T)} {q : Nat} (hq : q ∈ addrs (kidsAt p f)) :
    q ∈ addrs f := by
  induction f with
  | nil => simp [kidsAt, addrs_nil] at hq
  | cons x k r ihk ihr =>
    simp only [addrs_cons, List.mem_cons, List.mem_append]
    by_cases hx : x.1 = p
    · simp only [kidsAt, hx, if_true] at hq
      exact Or.inr (Or.inl hq)
    · by_cases hpk : p ∈ addrs k
      · simp only [kidsAt, hx, hpk, if_true, if_false] at hq
        exact Or.inr (Or.inl (ihk hq))
      · simp only [kidsAt, hx, hpk, if_false] at hq
        exact Or.inr (Or.inr (ihr hq))

theorem Holds.parent {h : Heap T} {par : Nat} {f : Forest (Nat × T)} (H : Holds h par f)
    (hnd : (addrs f).Nodup) {p : Nat} (hp : p ∈ addrs f) :
    ∃ nd, lookup h p = some nd ∧
      ((p ∈ rootPtrs f ∧ nd.pParent = par) ∨
        (nd.pParent ∈ addrs f ∧ p ∈ rootPtrs (kidsAt nd.pParent f))) := by
  induction f generalizing par with
  | nil => simp [addrs_nil] at hp
  | cons x k r ihk ihr =>
    obtain ⟨h1x, h2, h3⟩ := H
    rw [addrs_cons] at hnd hp
    have hxn := (List.nodup_cons.mp hnd).1
    have hnd1 := (List.nodup_cons.mp hnd).2
    have hk := (List.nodup_append.mp hnd1).1
    have hr := (List.nodup_append.mp hnd1).2.1
    have hdis := (List.nodup_append.mp hnd1).2.2
    simp only [List.mem_cons, List.mem_append] at hp
    rcases hp with hp | hp | hp
    · subst hp
      exact ⟨_, h1x, Or.inl ⟨by simp [rootPtrs_cons], rfl⟩⟩
    · obtain ⟨nd, hl, hcase⟩ := ihk h2 hk hp
      refine ⟨nd, hl, Or.inr ?_⟩
      rcases hcase with ⟨hroot, hpar⟩ | ⟨hq, hroot⟩
      · rw [hpar]
        exact ⟨by simp [addrs_cons], by simpa [kidsAt] using hroot⟩
      · have hxq : ¬ x.1 = nd.pParent := fun e => hxn (by rw [e]; simp [hq])
        exact ⟨by simp [addrs_cons, hq], by simpa [kidsAt, hxq, hq] using hroot⟩
    · obtain ⟨nd, hl, hcase⟩ := ihr h3 hr hp
      refine ⟨nd, hl, ?_⟩
      rcases hcase with ⟨hroot, hpar⟩ | ⟨hq, hroot⟩
      · exact Or.inl ⟨by simp [rootPtrs_cons, hroot], hpar⟩
      · have hxq : ¬ x.1 = nd.pParent := fun e => hxn (by rw [e]; simp [hq])
        have hqk : nd.pParent ∉ addrs k := fun h4 => hdis h4 hq
        exact Or.inr ⟨by simp [addrs_cons, hq], by simpa [kidsAt, hxq, hqk] using hroot⟩

/-! ### Assignment -/

theorem remove_tree {m : Mem T} {t : Nat} {f : Forest (Nat × T)} (R : Rep m t f) :
    ∃ a m1 n1, m.trees[t]? = some ⟨a, f.size % UNSIGNED_RANGE⟩ ∧ rootPtrs f = [a] ∧
      Tree.remove (budget m) t a m = .ok m1 ∧
      m1.heap.length = m.heap.length ∧
      (∀ q, lookup m1.heap q = if q ∈ addrs f then none else lookup m.heap q) ∧
      m1.trees.length = m.trees.length ∧ m1.trees[t]? = some ⟨a, n1⟩ ∧
      (∀ t1, t1 ≠ t → m1.trees[t1]? = m.trees[t1]?) := by
  have hd := R.depth_lt
  have hnd := R.nodup
  obtain ⟨a, w, k, rfl, ht, H, -⟩ := R
  obtain ⟨m1, n1, e1, hl1, hc1, htl1, ht1, hto1, -, -⟩ :=
    remove_forest m _ (budget m) t _ H hnd (Nat.le_of_lt hd) ht
      (Nat.mod_lt _ (by unfold UNSIGNED_RANGE; omega))
  refine ⟨a, m1, n1, ht, by simp [rootPtrs_cons, rootPtrs_nil], ?_, hl1, hc1, htl1, ht1, hto1⟩
  simp only [rootPtrs_cons, rootPtrs_nil, forEach] at e1
  revert e1
  cases Tree.remove (budget m) t a m <;> simp

theorem selfAssign_error {m : Mem T} {t : Nat} {f : Forest (Nat × T)} (R : Rep m t f) :
    Tree.assign t t m = .error .badAccess := by
  have htl := R.tree_lt
  obtain ⟨a, m1, n1, ht, hroot, e1, hl1, hc1, htl1, ht1, -⟩ := remove_tree R
  have ha : a ∈ addrs f := rootPtrs_subset (by rw [hroot]; simp)
  have htr2 : (m1.setTree t ⟨a, 0⟩).tree t = .ok ⟨a, 0⟩ :=
    tree_eq_ok (by show (m1.trees.set t _)[t]? = _; simp [htl1, htl])
  have hrd : (m1.setTree t ⟨a, 0⟩).read a = .error .badAccess := by
    have : lookup (m1.setTree t ⟨a, 0⟩).heap a = none := by
      show lookup m1.heap a = none
      rw [hc1, if_pos ha]
    simp only [Mem.read, this]
  simp only [Tree.assign, tree_eq_ok ht, e1, tree_eq_ok ht1, htr2, hrd]

theorem assign_rep {m : Mem T} {d s : Nat} {fd fs : Forest (Nat × T)} (Rd : Rep m d fd)
    (Rs : Rep m s fs) (hds : d ≠ s) (hdis : ∀ q, q ∈ addrs fd → q ∉ addrs fs) :
    ∃ m1, Tree.assign d s m = .ok m1 ∧
      Rep m1 d (relabel (m.heap.length + 1) fs) ∧ Rep m1 s fs ∧
      m.heap.length ≤ m1.heap.length ∧ m1.trees.length = m.trees.length ∧
      (∀ q, q ∉ addrs fd → q ≤ m.heap.length → lookup m1.heap q = lookup m.heap q) ∧
      (∀ t1, t1 ≠ d → m1.trees[t1]? = m.trees[t1]?) := by
  have htl := Rd.tree_lt
  have hsd := Rs.depth_lt
  have hst := Rs.isTree
  obtain ⟨a, m1, n1, ht, hroot, e1, hl1, hc1, htl1, ht1, hto1⟩ := remove_tree Rd
  have Rs0 := Rs
  obtain ⟨b, w, k, rfl, hts, H, hnd⟩ := Rs
  obtain ⟨h1x, h2, -⟩ := H
  simp only [Forest.depth] at hsd
  have hkeep : ∀ q, q ∈ addrs (Forest.cons (b, w) k .nil) → lookup m1.heap q = lookup m.heap q := by
    intro q hq
    rw [hc1, if_neg (fun hqd => hdis q hqd hq)]
  have hb : b ∈ addrs (Forest.cons (b, w) k .nil) := by simp [addrs_cons]
  have hksub : ∀ q, q ∈ addrs k → q ∈ addrs (Forest.cons (b, w) k .nil) := by
    intro q hq; simp [addrs_cons, hq]
  -- the members read along the way
  have htr2 : (m1.setTree d ⟨a, 0⟩).tree s
      = .ok ⟨b, (Forest.cons (b, w) k .nil).size % UNSIGNED_RANGE⟩ :=
    tree_eq_ok (by
      show (m1.trees.set d _)[s]? = _
      rw [List.getElem?_set_ne hds, hto1 s (fun e => hds e.symm), hts])
  have hrd2 : (m1.setTree d ⟨a, 0⟩).read b = .ok ⟨w, rootPtrs k, 0⟩ :=
    read_eq_ok (by show lookup m1.heap b = _; rw [hkeep b hb, h1x])
  have htr4 : ((⟨m1.heap ++ [some ⟨w, [], 0⟩], (m1.setTree d ⟨a, 0⟩).trees⟩ : Mem T).setTree d
      ⟨m1.heap.length + 1, 0⟩).tree s
      = .ok ⟨b, (Forest.cons (b, w) k .nil).size % UNSIGNED_RANGE⟩ :=
    tree_eq_ok (by
      show ((m1.trees.set d _).set d _)[s]? = _
      rw [List.getElem?_set_ne hds, List.getElem?_set_ne hds, hto1 s (fun e => hds e.symm), hts])
  have hble : b ≤ m1.heap.length := by rw [hl1]; exact (Rs0.mem_le hb).2
  have hrd4 : ((⟨m1.heap ++ [some ⟨w, [], 0⟩], (m1.setTree d ⟨a, 0⟩).trees⟩ : Mem T).setTree d
      ⟨m1.heap.length + 1, 0⟩).read b = .ok ⟨w, rootPtrs k, 0⟩ :=
    read_eq_ok (by
      show lookup (m1.heap ++ _) b = _
      rw [lookup_append_left _ _ hble, hkeep b hb, h1x])
  have ek := copy_forest
    ((⟨m1.heap ++ [some ⟨w, [], 0⟩], (m1.setTree d ⟨a, 0⟩).trees⟩ : Mem T).setTree d
      ⟨m1.heap.length + 1, 0⟩)
    (m1.heap.length + 1) b (budget m) ⟨w, [], 0⟩
    (h2.congr fun q hq => by
      show lookup (m1.heap ++ _) q = _
      rw [lookup_append_left _ _ (by rw [hl1]; exact (h2.le_length hq).2), hkeep q (hksub q hq)])
    (by omega)
    (by show lookup (m1.heap ++ _) _ = _; exact lookup_append_new m1.heap _ [])
    (fun hq => by have := (h2.le_length hq).2; omega)
  simp only [Mem.setTree, List.length_append, List.length_cons, List.length_nil, List.nil_append,
    List.append_assoc, List.singleton_append, store_append_new] at ek
  have hheap : m1.heap ++ some ⟨w, rootPtrs (relabel (m1.heap.length + (0 + 1) + 1) k), 0⟩
        :: cells (m1.heap.length + 1) (relabel (m1.heap.length + (0 + 1) + 1) k)
      = m1.heap ++ cells 0 (relabel (m1.heap.length + 1) (Forest.cons (b, w) k .nil)) := by
    simp [relabel, cells]
  rw [hheap] at ek
  have htr5 : (⟨m1.heap ++ cells 0 (relabel (m1.heap.length + 1) (Forest.cons (b, w) k .nil)),
      ((m1.trees.set d ⟨a, 0⟩).set d ⟨m1.heap.length + 1, 0⟩)⟩ : Mem T).tree s
      = .ok ⟨b, (Forest.cons (b, w) k .nil).size % UNSIGNED_RANGE⟩ :=
    tree_eq_ok (by
      show ((m1.trees.set d _).set d _)[s]? = _
      rw [List.getElem?_set_ne hds, List.getElem?_set_ne hds, hto1 s (fun e => hds e.symm), hts])
  refine ⟨⟨m1.heap ++ cells 0 (relabel (m1.heap.length + 1) (Forest.cons (b, w) k .nil)),
    ((m1.trees.set d ⟨a, 0⟩).set d ⟨m1.heap.length + 1, 0⟩).set d
      ⟨m1.heap.length + 1, (Forest.cons (b, w) k .nil).size % UNSIGNED_RANGE⟩⟩,
    ?_, ?_, ?_, ?_, ?_, ?_, ?_⟩
  · simp only [Tree.assign, tree_eq_ok ht, e1, tree_eq_ok ht1, htr2, hrd2, Mem.alloc]
    simp only [Mem.setTree] at htr4 hrd4 ⊢
    simp only [htr4, hrd4, ek, htr5]
  · rw [← hl1]
    exact relabel_rep hst rfl (by simp [htl1, htl]) rfl rfl
  · refine Rs0.frame ?_ ?_
    · show (((m1.trees.set d _).set d _).set d _)[s]? = _
      rw [List.getElem?_set_ne hds, List.getElem?_set_ne hds, List.getElem?_set_ne hds,
        hto1 s (fun e => hds e.symm)]
    · intro q hq
      show lookup (m1.heap ++ _) q = _
      rw [lookup_append_left _ _ (by rw [hl1]; exact (Rs0.mem_le hq).2), hkeep q hq]
  · simp [hl1]
  · simp [htl1]
  · intro q hq hle
    show lookup (m1.heap ++ _) q = _
    rw [lookup_append_left _ _ (by rw [hl1]; exact hle), hc1, if_neg hq]
  · intro t1 ht1n
    show (((m1.trees.set d _).set d _).set d _)[t1]? = _
    rw [List.getElem?_set_ne (fun e => ht1n e.symm), List.getElem?_set_ne (fun e => ht1n e.symm),
      List.getElem?_set_ne (fun e => ht1n e.symm), hto1 t1 ht1n]

/-! ### Sequences of mutations -/

theorem Rep.live_iff {m : Mem T} {t : Nat} {f : Forest (Nat × T)} (R : Rep m t f) (h : Handle) :
    Live m t h ↔ h.pTree = t ∧ h.pCurr ∈ addrs f := by
  rw [Live, R.nodes]

theorem step_rep {m : Mem T} {t : Nat} {f : Forest (Nat × T)} (R : Rep m t f) (op : Op T)
    (hl : Live m t op.handle) :
    ∃ m1 f1, step op m = .ok m1 ∧ Rep m1 t f1 ∧
      (∀ q, q ∈ addrs f1 → q ∈ addrs f ∨ q = m.heap.length + 1) ∧
      m.heap.length ≤ m1.heap.length ∧ m1.trees.length = m.trees.length ∧
      (∀ q, q ∉ addrs f → q ≤ m.heap.length → lookup m1.heap q = lookup m.heap q) ∧
      (∀ t1, t1 ≠ t → m1.trees[t1]? = m.trees[t1]?) := by
  have hnd := R.nodup
  cases op with
  | addChild h v =>
    obtain ⟨ht, hp⟩ := (R.live_iff h).mp hl
    obtain ⟨p, t0⟩ := h
    simp only at ht hp
    subst ht
    obtain ⟨m1, e, R1, hl1, htl1, hfr, hto⟩ := addChild_rep v R hp
    refine ⟨m1, _, e, R1, ?_, by omega, htl1, ?_, hto⟩
    · intro q hq
      have := (addrs_addAt_perm (m.heap.length + 1, v) hp hnd).mem_iff.mp hq
      simp only [List.mem_cons] at this
      exact this.symm
    · intro q hq hle
      exact hfr q (fun e => hq (e ▸ hp)) hle
  | prune h =>
    obtain ⟨ht, hp⟩ := (R.live_iff h).mp hl
    obtain ⟨p, t0⟩ := h
    simp only at ht hp
    subst ht
    obtain ⟨m1, e, R1, -, hl1, htl1, hfr, hto⟩ := prune_rep R hp
    refine ⟨m1, _, e, R1, ?_, by omega, htl1, fun q hq _ => hfr q hq, hto⟩
    intro q hq
    exact Or.inl ((addrs_pruneAt_perm (p := p) hnd).mem_iff.mpr (List.mem_append.mpr (Or.inl hq)))
  | write h v =>
    obtain ⟨ht, hp⟩ := (R.live_iff h).mp hl
    obtain ⟨p, t0⟩ := h
    simp only at ht hp
    subst ht
    obtain ⟨m1, e, R1, -, hl1, htl1, hfr⟩ := derefAssign_rep v R hp
    refine ⟨m1, _, e, R1, ?_, by omega, by rw [htl1], ?_, fun t1 _ => by rw [htl1]⟩
    · intro q hq
      rw [addrs_setAt] at hq
      exact Or.inl hq
    · intro q hq _
      exact hfr q (fun e => hq (e ▸ hp))

theorem run_rep {t : Nat} (ops : List (Op T)) :
    ∀ {m : Mem T} {f : Forest (Nat × T)}, Rep m t f → LiveRun t m ops →
      ∃ m1 f1, run m ops = .ok m1 ∧ Rep m1 t f1 := by
  induction ops with
  | nil => intro m f R _; exact ⟨m, f, rfl, R⟩
  | cons op ops ih =>
    intro m f R hl
    obtain ⟨hl0, hl1⟩ := hl
    obtain ⟨m1, f1, e, R1, -⟩ := step_rep R op hl0
    rw [e] at hl1
    obtain ⟨m2, f2, e2, R2⟩ := ih R1 hl1
    exact ⟨m2, f2, by simp only [run, e, e2], R2⟩

theorem LiveRun.take {t : Nat} (ops : List (Op T)) :
    ∀ {m : Mem T} (k : Nat), LiveRun t m ops → LiveRun t m (ops.take k) := by
  induction ops with
  | nil => intro m k h; simpa using h
  | cons op ops ih =>
    intro m k h
    cases k with
    | zero => trivial
    | succ k =>
      obtain ⟨h0, h1⟩ := h
      refine ⟨h0, ?_⟩
      cases hs : step op m with
      | error e => trivial
      | ok m1 =>
        rw [hs] at h1
        exact ih k h1

/-- Two tree objects with disjoint nodes: a live run on the second leaves
the first as it is and keeps them apart. -/
theorem run_frame {a b : Nat} (hab : a ≠ b) (ops : List (Op T)) :
    ∀ {m : Mem T} {fa fb : Forest (Nat × T)}, Rep m a fa → Rep m b fb →
      (∀ q, q ∈ addrs fa → q ∉ addrs fb) → LiveRun b m ops →
      ∃ m1 fb1, run m ops = .ok m1 ∧ Rep m1 a fa ∧ Rep m1 b fb1 ∧
        (∀ q, q ∈ addrs fa → q ∉ addrs fb1) := by
  induction ops with
  | nil => intro m fa fb Ra Rb hd _; exact ⟨m, fb, rfl, Ra, Rb, hd⟩
  | cons op ops ih =>
    intro m fa fb Ra Rb hd hl
    obtain ⟨hl0, hl1⟩ := hl
    obtain ⟨m1, f1, e, R1, hsub, hlen, -, hfr, hto⟩ := step_rep Rb op hl0
    rw [e] at hl1
    have Ra1 : Rep m1 a fa := Ra.frame (hto a hab) fun q hq =>
      hfr q (fun hqb => hd q hq hqb) (Ra.mem_le hq).2
    have hd1 : ∀ q, q ∈ addrs fa → q ∉ addrs f1 := by
      intro q hq hq1
      rcases hsub q hq1 with h2 | h2
      · exact hd q hq h2
      · have := (Ra.mem_le hq).2; omega
    obtain ⟨m2, f2, e2, Ra2, Rb2, hd2⟩ := ih Ra1 R1 hd1 hl1
    exact ⟨m2, f2, by simp only [run, e, e2], Ra2, Rb2, hd2⟩

/-! ### Subtrees -/

theorem subtreeNodes_eq {m : Mem T} {t : Nat} {f : Forest (Nat × T)} (R : Rep m t f) {p : Nat}
    (hp : p ∈ addrs f) : subtreeNodes p m = p :: addrs (kidsAt p f) := by
  have hnd := R.nodup
  have hsz := R.holds.size_le hnd
  obtain ⟨v, par1, hl, Hk⟩ := R.holds.lookup_mem hp
  have H1 : Holds m.heap par1 (.cons (p, v) (kidsAt p f) .nil) := ⟨hl, Hk, trivial⟩
  have hszP := size_pruneAt (p := p) hnd
  have hpos : 0 < (pruneAt p f).size := by
    rw [← length_addrs]
    exact List.length_pos_of_mem (mem_addrs_pruneAt hp)
  have hd : (Forest.cons (p, v) (kidsAt p f) .nil).depth < budget m := by
    have := Forest.depth_le_size (kidsAt p f)
    simp only [Forest.depth, budget]
    omega
  have := readForest_of_holds H1 _ hd
  rw [rootPtrs_cons, rootPtrs_nil] at this
  rw [subtreeNodes, this, addrs_cons, addrs_nil, List.append_nil]

/-! ### Facts used by several claims -/

theorem markMem_rep : Rep markMem 0 markForest :=
  ⟨1, 'm', _, rfl, rfl, ⟨rfl, ⟨rfl, trivial, rfl, trivial, rfl, trivial, trivial⟩, trivial⟩,
    by decide⟩

theorem Rep.size_of_lt {m : Mem T} {t : Nat} {f : Forest (Nat × T)} (R : Rep m t f)
    (hb : f.size < UNSIGNED_RANGE) : Tree.size t m = .ok f.size := by
  rw [R.size, Nat.mod_eq_of_lt hb]

theorem mem_addrs_addAt {p q : Nat} (y : Nat × T) {f : Forest (Nat × T)} (hp : p ∈ addrs f)
    (hnd : (addrs f).Nodup) (hq : q ∈ addrs f) : q ∈ addrs (addAt p y f) :=
  (addrs_addAt_perm y hp hnd).mem_iff.mpr (List.mem_cons_of_mem _ hq)

theorem run_replicate_addChild {t p : Nat} (v : T) (k : Nat) :
    ∀ {m : Mem T} {f : Forest (Nat × T)}, Rep m t f → p ∈ addrs f →
      LiveRun t m (List.replicate k (Op.addChild ⟨p, t⟩ v)) ∧
      ∃ m1 f1, run m (List.replicate k (Op.addChild ⟨p, t⟩ v)) = .ok m1 ∧ Rep m1 t f1 ∧
        f1.size = f.size + k := by
  induction k with
  | zero => intro m f R _; exact ⟨trivial, m, f, rfl, R, rfl⟩
  | succ k ih =>
    intro m f R hp
    obtain ⟨m1, e, R1, -⟩ := addChild_rep v R hp
    have hp1 := mem_addrs_addAt (m.heap.length + 1, v) hp R.nodup hp
    obtain ⟨hl, m2, f2, e2, R2, hs⟩ := ih R1 hp1
    have hstep : step (Op.addChild ⟨p, t⟩ v) m = .ok m1 := e
    refine ⟨⟨(R.live_iff _).mpr ⟨rfl, hp⟩, ?_⟩, m2, f2, ?_, R2, ?_⟩
    · rw [hstep]; exact hl
    · simp only [List.replicate_succ, run, hstep, e2]
    · rw [hs, size_addAt _ hp R.nodup]; omega

/-! ## The claims -/

/-- C1, as stated, fails when the counter wraps: after `Tree('m')` and
4294967295 calls of `addChild('a')` through the root handle (all of them on a
live node, all succeeding) the tree has 4294967296 nodes reachable from the
root while `size()` returns 0. -/
theorem size_invariant_fails_on_wraparound :
    LiveRun 0 (Tree.new 'm' emptyMem).2
        (List.replicate 4294967295 (Op.addChild ⟨1, 0⟩ 'a')) ∧
      ∃ m1, run (Tree.new 'm' emptyMem).2
          (List.replicate 4294967295 (Op.addChild ⟨1, 0⟩ 'a')) = .ok m1 ∧
        Tree.size 0 m1 = .ok 0 ∧ (Tree.nodes 0 m1).length = 4294967296 := by
  have R : Rep (Tree.new 'm' emptyMem).2 0 (.cons (1, 'm') .nil .nil) :=
    Tree.new_rep 'm' emptyMem
  have hp : 1 ∈ addrs (Forest.cons (1, 'm') .nil .nil) := by simp [addrs_cons]
  obtain ⟨hl, m1, f1, e, R1, hs⟩ := run_replicate_addChild (t := 0) (p := 1) 'a' 4294967295 R hp
  refine ⟨hl, m1, e, ?_, ?_⟩
  · rw [R1.size, hs]; rfl
  · rw [R1.nodes, length_addrs, hs]; rfl

/-- C1 (amended): for every tree built by `Tree(v)` and every finite
sequence of `addChild`, `prune` (and `*h = v`) calls made through handles on
live nodes of that tree, after every step (every prefix `ops.take k` of the
sequence) the calls have succeeded, no node is reachable twice, and `size()`
is the number of nodes reachable from the root modulo 2^32; so `size()` is
exactly that number whenever it is below 2^32. -/
theorem size_invariant_modulo_wraparound (v : T) (m0 : Mem T) (ops : List (Op T))
    (hlive : LiveRun (Tree.new v m0).1 (Tree.new v m0).2 ops) (k : Nat) :
    ∃ m1, run (Tree.new v m0).2 (ops.take k) = .ok m1 ∧
      (Tree.nodes (Tree.new v m0).1 m1).Nodup ∧
      Tree.size (Tree.new v m0).1 m1
        = .ok ((Tree.nodes (Tree.new v m0).1 m1).length % UNSIGNED_RANGE) ∧
      ((Tree.nodes (Tree.new v m0).1 m1).length < UNSIGNED_RANGE →
        Tree.size (Tree.new v m0).1 m1 = .ok (Tree.nodes (Tree.new v m0).1 m1).length) := by
  obtain ⟨m1, f1, e, R1⟩ := run_rep (ops.take k) (Tree.new_rep v m0) (LiveRun.take ops k hlive)
  refine ⟨m1, e, ?_, ?_, ?_⟩
  · rw [R1.nodes]; exact R1.nodup
  · rw [R1.nodes, length_addrs]; exact R1.size
  · intro hb
    rw [R1.nodes, length_addrs] at hb ⊢
    exact Rep.size_of_lt R1 hb

/-- Witness for C1: `Tree('m')`, then `addChild('a')` at the root, `addChild('b')`
at the new child and `prune()` at the root, observed after the second call. -/
theorem size_invariant_modulo_wraparound_witness :
    LiveRun (Tree.new 'm' emptyMem).1 (Tree.new 'm' emptyMem).2
        [.addChild ⟨1, 0⟩ 'a', .addChild ⟨2, 0⟩ 'b', .prune ⟨1, 0⟩] ∧
      ∃ m1, run (Tree.new 'm' emptyMem).2
          (List.take 2 [.addChild ⟨1, 0⟩ 'a', .addChild ⟨2, 0⟩ 'b', .prune ⟨1, 0⟩]) = .ok m1 ∧
        (Tree.nodes (Tree.new 'm' emptyMem).1 m1).Nodup ∧
        Tree.size (Tree.new 'm' emptyMem).1 m1
          = .ok ((Tree.nodes (Tree.new 'm' emptyMem).1 m1).length % UNSIGNED_RANGE) ∧
        ((Tree.nodes (Tree.new 'm' emptyMem).1 m1).length < UNSIGNED_RANGE →
          Tree.size (Tree.new 'm' emptyMem).1 m1
            = .ok (Tree.nodes (Tree.new 'm' emptyMem).1 m1).length) :=
  ⟨⟨⟨rfl, by decide⟩, ⟨rfl, by decide⟩, ⟨rfl, by decide⟩, trivial⟩,
    size_invariant_modulo_wraparound 'm' emptyMem
      [.addChild ⟨1, 0⟩ 'a', .addChild ⟨2, 0⟩ 'b', .prune ⟨1, 0⟩]
      ⟨⟨rfl, by decide⟩, ⟨rfl, by decide⟩, ⟨rfl, by decide⟩, trivial⟩ 2⟩

/-- C3: for every tree, `operator<<` appends to the stream exactly the
reference form of the tree: `[`, then each payload in preorder followed by one
space, then `]`. In particular the root `'m'` with children `'a'`, `'r'`,
`'k'` added in that order is written as `[m a r k ]`. -/
theorem print_writes_reference_preorder (fmt : T → String) (m : Mem T) (t : Nat)
    (out : String) (hv : Valid m t) :
    Tree.print fmt t m out = .ok (out ++ referenceText fmt (Tree.shape t m)) ∧
      Tree.print charFmt 0 markMem "" = .ok "[m a r k ]" := by
  obtain ⟨f, R⟩ := hv
  refine ⟨?_, rfl⟩
  rw [R.shape]
  exact R.print fmt out

/-- Witness for C3: the tree `m -> (a, r, k)` written to an empty stream. -/
theorem print_writes_reference_preorder_witness :
    Valid markMem 0 ∧
      Tree.print charFmt 0 markMem "" = .ok ("" ++ referenceText charFmt (Tree.shape 0 markMem)) ∧
      Tree.print charFmt 0 markMem "" = .ok "[m a r k ]" :=
  ⟨⟨markForest, markMem_rep⟩,
    print_writes_reference_preorder charFmt markMem 0 "" ⟨markForest, markMem_rep⟩⟩

/-- C4: copy construction from a tree succeeds and gives a new tree
object with the same structure and payloads at every position, hence the same
text from `operator<<`, and the same `size()`. -/
theorem copy_preserves_shape_and_size (m : Mem T) (t : Nat) (hv : Valid m t) :
    ∃ t1 m1, Tree.copyCtor t m = .ok (t1, m1) ∧ t1 ≠ t ∧ Valid m1 t1 ∧
      Tree.shape t1 m1 = Tree.shape t m ∧
      (∀ (fmt : T → String) (out : String), Tree.print fmt t1 m1 out = Tree.print fmt t m out) ∧
      Tree.size t1 m1 = Tree.size t m := by
  obtain ⟨f, R⟩ := hv
  obtain ⟨m1, e, R1, -⟩ := copyCtor_rep R
  refine ⟨m.trees.length, m1, e, ?_, ⟨_, R1⟩, ?_, ?_, ?_⟩
  · have := R.tree_lt; omega
  · rw [R1.shape, R.shape, map_snd_relabel]
  · intro fmt out
    rw [R1.print, R.print, map_snd_relabel]
  · rw [R1.size, R.size, size_relabel]

/-- Witness for C4: copying the tree `m -> (a, r, k)`. -/
theorem copy_preserves_shape_and_size_witness :
    Valid markMem 0 ∧
      ∃ t1 m1, Tree.copyCtor 0 markMem = .ok (t1, m1) ∧ t1 ≠ 0 ∧ Valid m1 t1 ∧
        Tree.shape t1 m1 = Tree.shape 0 markMem ∧
        (∀ (fmt : Char → String) (out : String),
          Tree.print fmt t1 m1 out = Tree.print fmt 0 markMem out) ∧
        Tree.size t1 m1 = Tree.size 0 markMem :=
  ⟨⟨markForest, markMem_rep⟩,
    copy_preserves_shape_and_size markMem 0 ⟨markForest, markMem_rep⟩⟩

theorem Separate.symm {m : Mem T} {a b : Nat} (h : Separate m a b) : Separate m b a := by
  obtain ⟨hab, fa, fb, Ra, Rb, hd⟩ := h
  exact ⟨fun e => hab e.symm, fb, fa, Rb, Ra, fun q hq hqa => hd q hqa hq⟩

theorem not_mem_addrs_relabel {m : Mem T} {t : Nat} {f : Forest (Nat × T)} (R : Rep m t f)
    (g : Forest (Nat × T)) {b : Nat} (hb : m.heap.length < b) :
    ∀ q, q ∈ addrs f → q ∉ addrs (relabel b g) := by
  intro q hq hq1
  rw [addrs_relabel, List.mem_range'_1] at hq1
  have := (R.mem_le hq).2
  omega

theorem separate_of_copyCtor {m m1 : Mem T} {a b : Nat} (hv : Valid m a)
    (e : Tree.copyCtor a m = .ok (b, m1)) : Separate m1 a b := by
  obtain ⟨f, R⟩ := hv
  obtain ⟨m2, e2, R1, R2, -⟩ := copyCtor_rep R
  rw [e2] at e
  cases e
  exact ⟨by have := R.tree_lt; omega, f, _, R2, R1,
    not_mem_addrs_relabel R f (Nat.lt_succ_self _)⟩

theorem separate_of_assign {m m1 : Mem T} {a b : Nat} (hs : Separate m a b)
    (e : Tree.assign b a m = .ok m1) : Separate m1 a b := by
  obtain ⟨hab, fa, fb, Ra, Rb, hd⟩ := hs
  obtain ⟨m2, e2, R1, R2, -⟩ :=
    assign_rep Rb Ra (fun e => hab e.symm) (fun q hq hqa => hd q hqa hq)
  rw [e2] at e
  cases e
  exact ⟨hab, fa, _, R2, R1, not_mem_addrs_relabel Ra fa (Nat.lt_succ_self _)⟩

theorem markMem_valid : Valid markMem 0 := ⟨markForest, markMem_rep⟩

theorem twoMem_separate : Separate twoMem 0 1 :=
  ⟨by decide, markForest, .cons (5, 'x') .nil .nil,
    ⟨1, 'm', _, rfl, rfl, ⟨rfl, ⟨rfl, trivial, rfl, trivial, rfl, trivial, trivial⟩, trivial⟩,
      by decide⟩,
    ⟨5, 'x', _, rfl, rfl, ⟨rfl, trivial, trivial⟩, by decide⟩, by decide⟩

/-- C5: once `b` has been made from `a` by copy construction, or by the
assignment `b = a` between two distinct trees, a sequence of `addChild`,
`prune` and `*h = v` calls through handles on live nodes of one of the two
trees (`x`) succeeds and leaves the other one (`y`) with the same `size()`,
the same nodes with the same payloads and links, and the same text from
`operator<<`. -/
theorem deep_copy_independence (m m1 : Mem T) (a b x y : Nat) (ops : List (Op T))
    (hmade : (Valid m a ∧ Tree.copyCtor a m = .ok (b, m1)) ∨
      (Separate m a b ∧ Tree.assign b a m = .ok m1))
    (hxy : (x = b ∧ y = a) ∨ (x = a ∧ y = b))
    (hlive : LiveRun x m1 ops) :
    ∃ m2, run m1 ops = .ok m2 ∧
      Tree.size y m2 = Tree.size y m1 ∧
      Tree.graph y m2 = Tree.graph y m1 ∧
      Tree.shape y m2 = Tree.shape y m1 ∧
      ∀ (fmt : T → String) (out : String), Tree.print fmt y m2 out = Tree.print fmt y m1 out := by
  have hsep : Separate m1 a b := by
    rcases hmade with ⟨hv, e⟩ | ⟨hs, e⟩
    · exact separate_of_copyCtor hv e
    · exact separate_of_assign hs e
  have hsep1 : Separate m1 y x := by
    rcases hxy with ⟨rfl, rfl⟩ | ⟨rfl, rfl⟩
    · exact hsep
    · exact hsep.symm
  obtain ⟨hne, fy, fx, Ry, Rx, hd⟩ := hsep1
  obtain ⟨m2, fx1, e, Ry2, -, -⟩ := run_frame hne ops Ry Rx hd hlive
  refine ⟨m2, e, ?_, ?_, ?_, ?_⟩
  · rw [Ry2.size, Ry.size]
  · rw [Ry2.graph, Ry.graph]
  · rw [Ry2.shape, Ry.shape]
  · intro fmt out
    rw [Ry2.print, Ry.print]

/-- Witness for C5: the copy of `m -> (a, r, k)` gets a child under its
root, loses it again and has its root overwritten; the original is
unaffected. -/
theorem deep_copy_independence_witness :
    ((Valid markMem 0 ∧ Tree.copyCtor 0 markMem = .ok (1, pairMem)) ∨
        (Separate markMem 0 1 ∧ Tree.assign 1 0 markMem = .ok pairMem)) ∧
      ((1 = 1 ∧ 0 = 0) ∨ (1 = 0 ∧ 0 = 1)) ∧
      LiveRun 1 pairMem [.addChild ⟨5, 1⟩ 'x', .prune ⟨5, 1⟩, .write ⟨5, 1⟩ 'Z'] ∧
      ∃ m2, run pairMem [.addChild ⟨5, 1⟩ 'x', .prune ⟨5, 1⟩, .write ⟨5, 1⟩ 'Z'] = .ok m2 ∧
        Tree.size 0 m2 = Tree.size 0 pairMem ∧
        Tree.graph 0 m2 = Tree.graph 0 pairMem ∧
        Tree.shape 0 m2 = Tree.shape 0 pairMem ∧
        ∀ (fmt : Char → String) (out : String),
          Tree.print fmt 0 m2 out = Tree.print fmt 0 pairMem out :=
  ⟨Or.inl ⟨markMem_valid, rfl⟩, Or.inl ⟨rfl, rfl⟩,
    ⟨⟨rfl, by decide⟩, ⟨rfl, by decide⟩, ⟨rfl, by decide⟩, trivial⟩,
    deep_copy_independence markMem pairMem 0 1 1 0
      [.addChild ⟨5, 1⟩ 'x', .prune ⟨5, 1⟩, .write ⟨5, 1⟩ 'Z']
      (Or.inl ⟨markMem_valid, rfl⟩) (Or.inl ⟨rfl, rfl⟩)
      ⟨⟨rfl, by decide⟩, ⟨rfl, by decide⟩, ⟨rfl, by decide⟩, trivial⟩⟩

/-- C6: for two distinct trees `dst` and `src` (with no node in common),
`dst = src` succeeds; afterwards `dst` is a tree with the structure, payloads,
text and `size()` of `src`, whatever it held before, and `src` has the same
nodes, links, payloads, `size()` and text as before. -/
theorem assign_distinct_copies_source (m : Mem T) (dst src : Nat) (hsep : Separate m src dst) :
    ∃ m1, Tree.assign dst src m = .ok m1 ∧ Valid m1 dst ∧
      Tree.shape dst m1 = Tree.shape src m ∧
      (∀ (fmt : T → String) (out : String),
        Tree.print fmt dst m1 out = Tree.print fmt src m out) ∧
      Tree.size dst m1 = Tree.size src m ∧
      Tree.graph src m1 = Tree.graph src m ∧
      Tree.size src m1 = Tree.size src m ∧
      (∀ (fmt : T → String) (out : String),
        Tree.print fmt src m1 out = Tree.print fmt src m out) := by
  obtain ⟨hne, fs, fd, Rs, Rd, hd⟩ := hsep
  obtain ⟨m1, e, R1, R2, -⟩ :=
    assign_rep Rd Rs (fun e => hne e.symm) (fun q hq hqs => hd q hqs hq)
  refine ⟨m1, e, ⟨_, R1⟩, ?_, ?_, ?_, ?_, ?_, ?_⟩
  · rw [R1.shape, Rs.shape, map_snd_relabel]
  · intro fmt out
    rw [R1.print, Rs.print, map_snd_relabel]
  · rw [R1.size, Rs.size, size_relabel]
  · rw [R2.graph, Rs.graph]
  · rw [R2.size, Rs.size]
  · intro fmt out
    rw [R2.print, Rs.print]

/-- Witness for C6: the one-node tree `x` is assigned the tree
`m -> (a, r, k)`. -/
theorem assign_distinct_copies_source_witness :
    Separate twoMem 0 1 ∧
      ∃ m1, Tree.assign 1 0 twoMem = .ok m1 ∧ Valid m1 1 ∧
        Tree.shape 1 m1 = Tree.shape 0 twoMem ∧
        (∀ (fmt : Char → String) (out : String),
          Tree.print fmt 1 m1 out = Tree.print fmt 0 twoMem out) ∧
        Tree.size 1 m1 = Tree.size 0 twoMem ∧
        Tree.graph 0 m1 = Tree.graph 0 twoMem ∧
        Tree.size 0 m1 = Tree.size 0 twoMem ∧
        (∀ (fmt : Char → String) (out : String),
          Tree.print fmt 0 m1 out = Tree.print fmt 0 twoMem out) :=
  ⟨twoMem_separate, assign_distinct_copies_source twoMem 1 0 twoMem_separate⟩

/-- C7 on the code: `Tree<char> t('m'); t = t;` deletes the root in
`remove(pRoot)` and then reads `tree.pRoot->data` through the same, now
dangling, pointer. -/
theorem self_assignment_reads_deleted_root :
    Tree.assign 0 0 (Tree.new 'm' emptyMem).2 = .error .badAccess := rfl

/-- C9: for a handle `h` on a live node of a tree, `h.getParent()` throws
`std::out_of_range` exactly when `h` is the root handle of the tree;
otherwise it returns the handle made of the node's `pParent` and the same
tree, which is a live node whose `children` contain the node of `h`. The
memory after the call is the memory before it. -/
theorem getParent_fails_exactly_on_root (m : Mem T) (t : Nat) (h : Handle)
    (hv : Valid m t) (hl : Live m t h) :
    ∃ r nd, Tree.rootHandle t m = .ok r ∧ lookup m.heap h.pCurr = some nd ∧
      ((h.getParent m).1
          = .error (.outOfRange "Requesting parent of root in Tree::Handle::getParent()")
        ↔ h = r) ∧
      (h ≠ r → (h.getParent m).1 = .ok ⟨nd.pParent, h.pTree⟩ ∧
        Live m t ⟨nd.pParent, h.pTree⟩ ∧
        ∃ pn, lookup m.heap nd.pParent = some pn ∧ h.pCurr ∈ pn.children) ∧
      (h.getParent m).2 = m := by
  obtain ⟨f, R⟩ := hv
  obtain ⟨ht, hp⟩ := (R.live_iff h).mp hl
  obtain ⟨p, t0⟩ := h
  simp only at ht hp
  subst ht
  obtain ⟨a, hroot, hra⟩ := R.rootHandle
  obtain ⟨nd, hlk, hcase⟩ := R.holds.parent R.nodup hp
  have hrd := read_eq_ok hlk
  refine ⟨⟨a, t0⟩, nd, hroot, hlk, ?_, ?_, ?_⟩
  · rcases hcase with ⟨hpr, hpar⟩ | ⟨hq, hpr⟩
    · rw [hra, List.mem_singleton] at hpr
      subst hpr
      simp [Handle.getParent, hrd, hpar]
    · have hq0 := (R.mem_le hq).1
      have hpa : p ≠ a := by
        rintro rfl
        obtain ⟨a1, w, k, rfl, ht, H, -⟩ := R
        have : a1 = p := by simpa [rootPtrs_cons, rootPtrs_nil] using hra
        subst this
        rw [H.1] at hlk
        cases hlk
        exact hq0 rfl
      simp [Handle.getParent, hrd, hq0, hpa]
  · intro hne
    rcases hcase with ⟨hpr, hpar⟩ | ⟨hq, hpr⟩
    · rw [hra, List.mem_singleton] at hpr
      exact absurd (by rw [hpr]) hne
    · have hq0 := (R.mem_le hq).1
      obtain ⟨vq, parq, hlq, -⟩ := R.holds.lookup_mem hq
      exact ⟨by simp only [Handle.getParent, hrd, if_neg hq0],
        (R.live_iff _).mpr ⟨rfl, hq⟩, _, hlq, hpr⟩
  · simp only [Handle.getParent, hrd]
    split <;> rfl

/-- Witness for C9: the third node (`r`) of `m -> (a, r, k)`. -/
theorem getParent_fails_exactly_on_root_witness :
    Valid markMem 0 ∧ Live markMem 0 ⟨3, 0⟩ ∧
      ∃ r nd, Tree.rootHandle 0 markMem = .ok r ∧ lookup markMem.heap 3 = some nd ∧
        ((Handle.getParent ⟨3, 0⟩ markMem).1
            = .error (.outOfRange "Requesting parent of root in Tree::Handle::getParent()")
          ↔ (⟨3, 0⟩ : Handle) = r) ∧
        ((⟨3, 0⟩ : Handle) ≠ r → (Handle.getParent ⟨3, 0⟩ markMem).1 = .ok ⟨nd.pParent, 0⟩ ∧
          Live markMem 0 ⟨nd.pParent, 0⟩ ∧
          ∃ pn, lookup markMem.heap nd.pParent = some pn ∧ 3 ∈ pn.children) ∧
        (Handle.getParent ⟨3, 0⟩ markMem).2 = markMem :=
  ⟨markMem_valid, ⟨rfl, by decide⟩,
    getParent_fails_exactly_on_root markMem 0 ⟨3, 0⟩ markMem_valid ⟨rfl, by decide⟩⟩

/-! ### Memories with several trees -/

theorem lookup_of_length_lt {h : Heap T} {q : Nat} (hq : h.length < q) : lookup h q = none := by
  cases hl : lookup h q with
  | none => rfl
  | some nd => have := lookup_some_le hl; omega

theorem Consistent.update {m m1 : Mem T} (hc : Consistent m) (t : Nat)
    (f1 : Forest (Nat × T)) (S : List Nat) (hrep : Rep m1 t f1)
    (hsub : ∀ q, q ∈ addrs f1 → q ∈ S ∨ m.heap.length < q)
    (hS : ∀ q, q ∈ S → ∀ b g, b ≠ t → Rep m b g → q ∉ addrs g)
    (hfr : ∀ q, q ∉ S → q ≤ m.heap.length → lookup m1.heap q = lookup m.heap q)
    (hto : ∀ b, b ≠ t → b < m.trees.length → m1.trees[b]? = m.trees[b]?)
    (hlen : ∀ b, b < m1.trees.length → b = t ∨ b < m.trees.length) : Consistent m1 := by
  have fwd : ∀ b g, b ≠ t → Rep m b g → Rep m1 b g := fun b g hb R =>
    R.frame (hto b hb R.tree_lt) fun q hq =>
      hfr q (fun hqS => hS q hqS b g hb R hq) (R.mem_le hq).2
  have back : ∀ b g, b ≠ t → Rep m1 b g → Rep m b g := by
    intro b g hb R1
    have hbl : b < m.trees.length := by
      rcases hlen b R1.tree_lt with h | h
      · exact absurd h hb
      · exact h
    obtain ⟨g0, R0⟩ := hc.1 b hbl
    rw [R1.unique (fwd b g0 hb R0)]
    exact R0
  have key : ∀ b fb q, b ≠ t → Rep m1 b fb → q ∈ addrs f1 → q ∉ addrs fb := by
    intro b fb q hb Rb hq1 hqb
    have Rb0 := back b fb hb Rb
    rcases hsub q hq1 with h | h
    · exact hS q h b fb hb Rb0 hqb
    · have := (Rb0.mem_le hqb).2; omega
  refine ⟨?_, ?_⟩
  · intro b hb
    by_cases hbt : b = t
    · subst hbt; exact ⟨f1, hrep⟩
    · rcases hlen b hb with h | h
      · exact absurd h hbt
      · obtain ⟨g0, R0⟩ := hc.1 b h
        exact ⟨g0, fwd b g0 hbt R0⟩
  · intro a b fa fb hab Ra Rb q hqa hqb
    by_cases hat : a = t
    · subst hat
      rw [Ra.unique hrep] at hqa
      exact key b fb q (fun e => hab e.symm) Rb hqa hqb
    · by_cases hbt : b = t
      · subst hbt
        rw [Rb.unique hrep] at hqb
        exact key a fa q hat Ra hqb hqa
      · exact hc.2 a b fa fb hab (back a fa hat Ra) (back b fb hbt Rb) q hqa hqb

theorem consistent_start : Consistent (⟨[], []⟩ : Mem T) :=
  ⟨fun t ht => absurd ht (Nat.not_lt_zero _), fun a b fa fb _ Ra => by
    have := Ra.tree_lt; exact absurd this (Nat.not_lt_zero _)⟩

theorem consistent_new (v : T) {m : Mem T} (hc : Consistent m) :
    Consistent (Tree.new v m).2 := by
  refine hc.update m.trees.length _ [] (Tree.new_rep v m) ?_ ?_ ?_ ?_ ?_
  · intro q hq
    simp only [addrs_cons, addrs_nil, List.append_nil, List.mem_singleton] at hq
    right; omega
  · intro q hq; simp at hq
  · intro q _ hle
    exact lookup_append_left _ _ hle
  · intro b _ hb
    show (m.trees ++ _)[b]? = _
    rw [List.getElem?_append_left hb]
  · intro b hb
    have : b < m.trees.length + 1 := by simpa [Tree.new, Mem.alloc] using hb
    omega

theorem consistent_copy {m m1 : Mem T} {t t1 : Nat} (hc : Consistent m)
    (e : Tree.copyCtor t m = .ok (t1, m1)) : Consistent m1 := by
  have ht : t < m.trees.length := by
    by_contra hge
    have : m.trees[t]? = none := List.getElem?_eq_none (Nat.le_of_not_lt hge)
    simp [Tree.copyCtor, Mem.tree, this] at e
  obtain ⟨f, R⟩ := hc.1 t ht
  obtain ⟨m2, e2, R1, -, -, hlen, hfr, hto⟩ := copyCtor_rep R
  rw [e2] at e
  cases e
  refine hc.update m.trees.length _ [] R1 ?_ ?_ ?_ ?_ ?_
  · intro q hq
    rw [addrs_relabel, List.mem_range'_1] at hq
    right; omega
  · intro q hq; simp at hq
  · intro q _ hle
    exact hfr q hle
  · intro b _ hb
    exact hto b hb
  · intro b hb
    omega

theorem assign_ok_inv {m m1 : Mem T} {d s : Nat} (hc : Consistent m)
    (e : Tree.assign d s m = .ok m1) : d < m.trees.length ∧ s < m.trees.length ∧ d ≠ s := by
  have hd : d < m.trees.length := by
    by_contra hge
    have : m.trees[d]? = none := List.getElem?_eq_none (Nat.le_of_not_lt hge)
    simp [Tree.assign, Mem.tree, this] at e
  obtain ⟨f, R⟩ := hc.1 d hd
  refine ⟨hd, ?_, ?_⟩
  · by_contra hge
    obtain ⟨a, m0, n1, ht, -, e1, -, -, htl1, ht1, -⟩ := remove_tree R
    have hnone : (m0.setTree d ⟨a, 0⟩).tree s = .error .badAccess := by
      have : (m0.trees.set d ⟨a, 0⟩)[s]? = none :=
        List.getElem?_eq_none (by rw [List.length_set, htl1]; exact Nat.le_of_not_lt hge)
      simp only [Mem.tree, Mem.setTree, this]
    simp only [Tree.assign, tree_eq_ok ht, e1, tree_eq_ok ht1, hnone] at e
    cases e
  · rintro rfl
    rw [selfAssign_error R] at e
    cases e

theorem consistent_assign {m m1 : Mem T} {d s : Nat} (hc : Consistent m)
    (e : Tree.assign d s m = .ok m1) : Consistent m1 := by
  obtain ⟨hd, hs, hds⟩ := assign_ok_inv hc e
  obtain ⟨fd, Rd⟩ := hc.1 d hd
  obtain ⟨fs, Rs⟩ := hc.1 s hs
  obtain ⟨m2, e2, R1, -, -, htl, hfr, hto⟩ :=
    assign_rep Rd Rs hds (hc.2 d s fd fs hds Rd Rs)
  rw [e2] at e
  cases e
  refine hc.update d _ (addrs fd) R1 ?_ ?_ ?_ ?_ ?_
  · intro q hq
    rw [addrs_relabel, List.mem_range'_1] at hq
    right; omega
  · intro q hq b g hb Rb
    exact hc.2 d b fd g (fun e => hb e.symm) Rd Rb q hq
  · exact hfr
  · intro b hb _
    exact hto b hb
  · intro b hb
    right; omega

theorem consistent_step {m m1 : Mem T} {t : Nat} (op : Op T) (hc : Consistent m)
    (hl : Live m t op.handle) (e : step op m = .ok m1) : Consistent m1 := by
  have ht : t < m.trees.length := by
    by_contra hge
    have : m.trees[t]? = none := List.getElem?_eq_none (Nat.le_of_not_lt hge)
    have hn : Tree.nodes t m = [] := by simp [Tree.nodes, Tree.graph, this, addrs_nil]
    have := hl.2
    rw [hn] at this
    simp at this
  obtain ⟨f, R⟩ := hc.1 t ht
  obtain ⟨m2, f1, e2, R1, hsub, -, htl, hfr, hto⟩ := step_rep R op hl
  rw [e2] at e
  cases e
  refine hc.update t f1 (addrs f) R1 ?_ ?_ ?_ ?_ ?_
  · intro q hq
    rcases hsub q hq with h | h
    · exact Or.inl h
    · right; omega
  · intro q hq b g hb Rb
    exact hc.2 t b f g (fun e => hb e.symm) R Rb q hq
  · exact hfr
  · intro b hb _
    exact hto b hb
  · intro b hb
    right; omega

theorem Reachable.consistent {m : Mem T} (hr : Reachable m) : Consistent m := by
  induction hr with
  | start => exact consistent_start
  | construct v _ ih => exact consistent_new v ih
  | copy _ e ih => exact consistent_copy ih e
  | assign _ e ih => exact consistent_assign ih e
  | mutate op _ hl e ih => exact consistent_step op ih hl e

theorem Reachable.valid {m : Mem T} (hr : Reachable m) {t : Nat} (ht : t < m.trees.length) :
    Valid m t :=
  hr.consistent.1 t ht

theorem Reachable.run {t : Nat} (ops : List (Op T)) :
    ∀ {m m1 : Mem T}, Reachable m → LiveRun t m ops → GeneralTree.run m ops = .ok m1 →
      Reachable m1 := by
  induction ops with
  | nil =>
    intro m m1 hr _ e
    cases e
    exact hr
  | cons op ops ih =>
    intro m m1 hr hl e
    obtain ⟨hl0, hl1⟩ := hl
    cases hs : step op m with
    | error err => simp [GeneralTree.run, hs] at e
    | ok m2 =>
      rw [hs] at hl1
      simp only [GeneralTree.run, hs] at e
      exact ih (Reachable.mutate op hr hl0 hs) hl1 e

/-! ### Preorder sequences -/

theorem preorder_map_of_not_mem {p : Nat} (w : T) {g : Forest (Nat × T)} (hp : p ∉ addrs g) :
    g.preorder.map (fun x => if x.1 = p then (x.1, w) else x) = g.preorder := by
  have : ∀ x ∈ g.preorder, (fun x : Nat × T => if x.1 = p then (x.1, w) else x) x = x := by
    intro x hx
    have hne : x.1 ≠ p := fun e => hp (e ▸ List.mem_map_of_mem Prod.fst hx)
    simp [hne]
  rw [List.map_congr_left this, List.map_id']

theorem preorder_setAt {p : Nat} (w : T) {f : Forest (Nat × T)} (hnd : (addrs f).Nodup) :
    (setAt p w f).preorder = f.preorder.map (fun x => if x.1 = p then (x.1, w) else x) := by
  induction f with
  | nil => rfl
  | cons x k r ihk ihr =>
    rw [addrs_cons] at hnd
    have hxn := (List.nodup_cons.mp hnd).1
    have hnd1 := (List.nodup_cons.mp hnd).2
    have hk := (List.nodup_append.mp hnd1).1
    have hr := (List.nodup_append.mp hnd1).2.1
    by_cases hx : x.1 = p
    · have hpk : p ∉ addrs k := fun h => hxn (by rw [hx]; simp [h])
      have hpr : p ∉ addrs r := fun h => hxn (by rw [hx]; simp [h])
      simp only [setAt, hx, if_true, Forest.preorder, List.map_cons, List.map_append,
        preorder_map_of_not_mem w hpk, preorder_map_of_not_mem w hpr]
    · simp only [setAt, hx, if_false, Forest.preorder, List.map_cons, List.map_append,
        ihk hk, ihr hr]

/-- Where a node sits in the preorder: its own entry, directly followed by
its descendants; and what the three edits do to the sequence. -/
theorem preorder_split {p : Nat} {f : Forest (Nat × T)} (hp : p ∈ addrs f)
    (hnd : (addrs f).Nodup) :
    ∃ pre post x, x.1 = p ∧
      f.preorder = pre ++ x :: ((kidsAt p f).preorder ++ post) ∧
      (∀ y, (addAt p y f).preorder = pre ++ x :: ((kidsAt p f).preorder ++ y :: post)) ∧
      (pruneAt p f).preorder = pre ++ x :: post := by
  induction f with
  | nil => simp [addrs_nil] at hp
  | cons x k r ihk ihr =>
    rw [addrs_cons] at hnd hp
    have hxn := (List.nodup_cons.mp hnd).1
    have hnd1 := (List.nodup_cons.mp hnd).2
    have hk := (List.nodup_append.mp hnd1).1
    have hr := (List.nodup_append.mp hnd1).2.1
    have hdis := (List.nodup_append.mp hnd1).2.2
    by_cases hx : x.1 = p
    · refine ⟨[], r.preorder, x, hx, ?_, ?_, ?_⟩
      · simp [kidsAt, hx, Forest.preorder]
      · intro y
        simp [kidsAt, addAt, hx, Forest.preorder, Forest.preorder_snoc]
      · simp [pruneAt, hx, Forest.preorder]
    · simp only [List.mem_cons, List.mem_append] at hp
      rcases hp with hp | hp | hp
      · exact absurd hp.symm hx
      · have hpr : p ∉ addrs r := fun h2 => hdis hp h2
        obtain ⟨pre, post, z, hz, h1, h2, h3⟩ := ihk hp hk
        refine ⟨x :: pre, post ++ r.preorder, z, hz, ?_, ?_, ?_⟩
        · simp [kidsAt, hx, hp, Forest.preorder, h1]
        · intro y
          simp [kidsAt, addAt, hx, hp, Forest.preorder, h2 y, addAt_of_not_mem y hpr]
        · simp [pruneAt, hx, Forest.preorder, h3, pruneAt_of_not_mem hpr]
      · have hpk : p ∉ addrs k := fun h2 => hdis h2 hp
        obtain ⟨pre, post, z, hz, h1, h2, h3⟩ := ihr hp hr
        refine ⟨x :: (k.preorder ++ pre), post, z, hz, ?_, ?_, ?_⟩
        · simp [kidsAt, hx, hpk, Forest.preorder, h1]
        · intro y
          simp [kidsAt, addAt, hx, hpk, Forest.preorder, h2 y, addAt_of_not_mem y hpk]
        · simp [pruneAt, hx, Forest.preorder, h3, pruneAt_of_not_mem hpk]

theorem Rep.labels {m : Mem T} {t : Nat} {f : Forest (Nat × T)} (R : Rep m t f) :
    Tree.labels t m = f.preorder := by
  rw [Tree.labels, R.graph]

theorem Rep.values {m : Mem T} {t : Nat} {f : Forest (Nat × T)} (R : Rep m t f) :
    Tree.values t m = f.preorder.map Prod.snd := by
  rw [Tree.values, R.shape, Forest.preorder_map]

theorem subtreeLabels_eq {m : Mem T} {t : Nat} {f : Forest (Nat × T)} (R : Rep m t f) {p : Nat}
    (hp : p ∈ addrs f) :
    ∃ v, subtreeLabels p m = (p, v) :: (kidsAt p f).preorder ∧
      ∃ nd, lookup m.heap p = some nd ∧ nd.data = v := by
  have hnd := R.nodup
  have hsz := R.holds.size_le hnd
  obtain ⟨v, par1, hl, Hk⟩ := R.holds.lookup_mem hp
  have H1 : Holds m.heap par1 (.cons (p, v) (kidsAt p f) .nil) := ⟨hl, Hk, trivial⟩
  have hszP := size_pruneAt (p := p) hnd
  have hpos : 0 < (pruneAt p f).size := by
    rw [← length_addrs]
    exact List.length_pos_of_mem (mem_addrs_pruneAt hp)
  have hd : (Forest.cons (p, v) (kidsAt p f) .nil).depth < budget m := by
    have := Forest.depth_le_size (kidsAt p f)
    simp only [Forest.depth, budget]
    omega
  have := readForest_of_holds H1 _ hd
  rw [rootPtrs_cons, rootPtrs_nil] at this
  exact ⟨v, by rw [subtreeLabels, this]; simp [Forest.preorder], _, hl, rfl⟩

theorem Rep.root_labels {m : Mem T} {t a : Nat} {f : Forest (Nat × T)} (R : Rep m t f)
    (hroot : rootPtrs f = [a]) : ∃ v, f = .cons (a, v) (kidsAt a f) .nil := by
  obtain ⟨a1, w, k, rfl, -⟩ := R
  have : a1 = a := by simpa [rootPtrs_cons, rootPtrs_nil] using hroot
  subst this
  exact ⟨w, by simp [kidsAt]⟩

/-! ### More on `prune` -/

theorem store_self {h : Heap T} {p : Nat} {nd : Node T} (hl : lookup h p = some nd) :
    store h p nd = h := by
  cases p with
  | zero => rfl
  | succ q =>
    rw [lookup_eq_some_iff] at hl
    simp only [store]
    exact list_set_self hl

theorem prune_leaf {m : Mem T} {p t par : Nat} {v : T}
    (hl : lookup m.heap p = some ⟨v, [], par⟩) : Handle.prune ⟨p, t⟩ m = .ok m := by
  have hrd : m.read p = .ok ⟨v, [], par⟩ := read_eq_ok hl
  simp only [Handle.prune, hrd, forEach, Mem.write, store_self hl]

theorem prune_cells {m m1 : Mem T} {t p : Nat} {f : Forest (Nat × T)} (R : Rep m t f)
    (hp : p ∈ addrs f) (e : Handle.prune ⟨p, t⟩ m = .ok m1) :
    ∀ q, q ≠ p → lookup m1.heap q = if q ∈ addrs (kidsAt p f) then none else lookup m.heap q := by
  have hnd := R.nodup
  have hsz := R.holds.size_le hnd
  obtain ⟨a, w, k, rfl, ht, H, -⟩ := R
  obtain ⟨vp, par1, hl, Hk⟩ := H.lookup_mem hp
  have hperm := addrs_pruneAt_perm (p := p) hnd
  have hnd2 := (List.Perm.nodup_iff hperm).mp hnd
  have hndK := (List.nodup_append.mp hnd2).2.1
  have hdis := (List.nodup_append.mp hnd2).2.2
  have hszP := size_pruneAt (p := p) hnd
  have hpK : p ∉ addrs (kidsAt p (Forest.cons (a, w) k .nil)) :=
    fun hq => hdis (mem_addrs_pruneAt hp) hq
  obtain ⟨m0, n1, e1, hl1, hc1, -⟩ :=
    remove_forest m _ (budget m) t _ Hk hndK
      (by have := Forest.depth_le_size (kidsAt p (Forest.cons (a, w) k .nil))
          unfold budget; omega)
      ht (Nat.mod_lt _ (by unfold UNSIGNED_RANGE; omega))
  have hl1p : lookup m0.heap p
      = some ⟨vp, rootPtrs (kidsAt p (Forest.cons (a, w) k .nil)), par1⟩ := by
    rw [hc1, if_neg hpK, hl]
  have hrd : m.read p = .ok _ := read_eq_ok hl
  have hrd1 : m0.read p = .ok _ := read_eq_ok hl1p
  simp only [Handle.prune, hrd, e1, hrd1] at e
  cases e
  intro q hq
  show lookup (store _ p _) q = _
  rw [lookup_store_ne _ hq, hc1]

/-! ### More on navigation -/

theorem Holds.roots_parent {h : Heap T} {par : Nat} {g : Forest (Nat × T)} (H : Holds h par g)
    {c : Nat} (hc : c ∈ rootPtrs g) : ∃ nd, lookup h c = some nd ∧ nd.pParent = par := by
  induction g with
  | nil => simp [rootPtrs_nil] at hc
  | cons x k r _ ihr =>
    obtain ⟨h1, -, h3⟩ := H
    simp only [rootPtrs_cons, List.mem_cons] at hc
    rcases hc with hc | hc
    · subst hc; exact ⟨_, h1, rfl⟩
    · exact ihr h3 hc

theorem getChild_ok {m : Mem T} {t p i : Nat} {f : Forest (Nat × T)} {c : Handle}
    (R : Rep m t f) (hp : p ∈ addrs f) (e : (Handle.getChild ⟨p, t⟩ i m).1 = .ok c) :
    c.pTree = t ∧ c.pCurr ∈ rootPtrs (kidsAt p f) := by
  obtain ⟨v, par, hlk, -⟩ := R.holds.lookup_mem hp
  have hrd := read_eq_ok hlk
  simp only [Handle.getChild, hrd] at e
  by_cases hi : i ≥ (rootPtrs (kidsAt p f)).length
  · simp [hi] at e
  · simp only [if_neg hi] at e
    cases e
    have hi1 : i < (rootPtrs (kidsAt p f)).length := by omega
    refine ⟨rfl, ?_⟩
    simp only [List.getD_eq_getElem?_getD, List.getElem?_eq_getElem hi1, Option.getD_some]
    exact List.getElem_mem hi1

theorem getParent_ok {m : Mem T} {t p : Nat} {f : Forest (Nat × T)} {c : Handle}
    (R : Rep m t f) (hp : p ∈ addrs f) (e : (Handle.getParent ⟨p, t⟩ m).1 = .ok c) :
    c.pTree = t ∧ c.pCurr ∈ addrs f := by
  obtain ⟨nd, hlk, hcase⟩ := R.holds.parent R.nodup hp
  have hrd := read_eq_ok hlk
  simp only [Handle.getParent, hrd] at e
  by_cases h0 : nd.pParent = 0
  · simp [h0] at e
  · simp only [if_neg h0] at e
    cases e
    refine ⟨rfl, ?_⟩
    rcases hcase with ⟨hpr, hpar⟩ | ⟨hq, -⟩
    · obtain ⟨a, w, k, rfl, -, H, -⟩ := R
      have := H.1
      simp only [rootPtrs_cons, rootPtrs_nil, List.mem_singleton] at hpr
      subst hpr
      rw [hlk] at this
      cases this
      exact absurd rfl h0
    · exact hq

theorem navigate_live {m : Mem T} {t : Nat} {f : Forest (Nat × T)} (R : Rep m t f)
    (moves : List Move) :
    ∀ {h h1 : Handle}, h.pTree = t → h.pCurr ∈ addrs f → navigate m h moves = .ok h1 →
      h1.pTree = t ∧ h1.pCurr ∈ addrs f := by
  induction moves with
  | nil =>
    intro h h1 ht hp e
    cases e
    exact ⟨ht, hp⟩
  | cons mv moves ih =>
    intro h h1 ht hp e
    obtain ⟨p, t0⟩ := h
    simp only at ht hp
    subst ht
    cases mv with
    | child i =>
      cases hc : (Handle.getChild ⟨p, t0⟩ i m).1 with
      | error err => simp [navigate, hc] at e
      | ok c =>
        simp only [navigate, hc] at e
        obtain ⟨h1t, h1p⟩ := getChild_ok R hp hc
        exact ih (h := Handle.assign ⟨p, t0⟩ c) h1t (kidsAt_subset (rootPtrs_subset h1p)) e
    | parent =>
      cases hc : (Handle.getParent ⟨p, t0⟩ m).1 with
      | error err => simp [navigate, hc] at e
      | ok c =>
        simp only [navigate, hc] at e
        obtain ⟨h1t, h1p⟩ := getParent_ok R hp hc
        exact ih (h := Handle.assign ⟨p, t0⟩ c) h1t h1p e

theorem run_replicate_addChild_mem {t p : Nat} (v : T) (k : Nat) :
    ∀ {m : Mem T} {f : Forest (Nat × T)}, Rep m t f → p ∈ addrs f →
      ∃ m1 f1, run m (List.replicate k (Op.addChild ⟨p, t⟩ v)) = .ok m1 ∧ Rep m1 t f1 ∧
        f1.size = f.size + k ∧ p ∈ addrs f1 := by
  induction k with
  | zero => intro m f R hp; exact ⟨m, f, rfl, R, rfl, hp⟩
  | succ k ih =>
    intro m f R hp
    obtain ⟨m1, e, R1, -⟩ := addChild_rep v R hp
    have hp1 := mem_addrs_addAt (m.heap.length + 1, v) hp R.nodup hp
    obtain ⟨m2, f2, e2, R2, hs, hp2⟩ := ih R1 hp1
    have hstep : step (Op.addChild ⟨p, t⟩ v) m = .ok m1 := e
    refine ⟨m2, f2, ?_, R2, ?_, hp2⟩
    · simp only [List.replicate_succ, run, hstep, e2]
    · rw [hs, size_addAt _ hp R.nodup]; omega

theorem reachable_new (v : T) : Reachable (Tree.new v (⟨[], []⟩ : Mem T)).2 :=
  Reachable.construct v Reachable.start

theorem markMem_reachable : Reachable markMem :=
  Reachable.run (t := 0) [.addChild ⟨1, 0⟩ 'a', .addChild ⟨1, 0⟩ 'r', .addChild ⟨1, 0⟩ 'k']
    (reachable_new 'm') ⟨⟨rfl, by decide⟩, ⟨rfl, by decide⟩, ⟨rfl, by decide⟩, trivial⟩ rfl

/-- C12, as stated, fails: the sizes the driver's build sequence produces
are not 1, 4, 6, 8, 12 (the fifth stage gives 10 and there is a sixth), and the
prune at the node holding `'n'` does not bring `size()` to 8. -/
theorem driver_sizes_differ_from_claimed :
    driverSizes ≠ .ok [1, 4, 6, 8, 12] ∧ driverPrunedSize ≠ .ok 8 := by
  have h1 : driverSizes = .ok [1, 4, 6, 8, 10, 14] := rfl
  have h2 : driverPrunedSize = .ok 10 := rfl
  rw [h1, h2]
  exact ⟨by simp, by simp⟩

/-- C12 (amended): running the driver's build sequence, `size()` is 1 after
the constructor and 4, 6, 8, 10, 14 after the five levels, and pruning at the
deepest handle (the node holding `'n'`) brings it back to 10. -/
theorem driver_size_progression :
    driverSizes = .ok [1, 4, 6, 8, 10, 14] ∧ driverPrunedSize = .ok 10 :=
  ⟨rfl, rfl⟩

theorem Rep.nodes_pos {m : Mem T} {t : Nat} {f : Forest (Nat × T)} (R : Rep m t f) :
    1 ≤ (Tree.nodes t m).length := by
  rw [R.nodes]
  obtain ⟨a, v, k, rfl, -⟩ := R
  simp [addrs_cons]

theorem Rep.isEmpty {m : Mem T} {t : Nat} {f : Forest (Nat × T)} (R : Rep m t f) :
    Tree.isEmpty t m = .ok (f.size % UNSIGNED_RANGE == 0) := by
  obtain ⟨a, v, k, rfl, ht, -, -⟩ := R
  simp only [Tree.isEmpty, tree_eq_ok ht]

/-- C13, as stated, fails when the counter wraps: after `Tree('m')` and
4294967295 calls of `addChild('a')` through the root handle (a sequence of
public operations on live nodes that all succeed) `isEmpty()` returns true. -/
theorem isEmpty_true_after_wraparound :
    LiveRun 0 (Tree.new 'm' emptyMem).2
        (List.replicate 4294967295 (Op.addChild ⟨1, 0⟩ 'a')) ∧
      ∃ m1, run (Tree.new 'm' emptyMem).2
          (List.replicate 4294967295 (Op.addChild ⟨1, 0⟩ 'a')) = .ok m1 ∧
        Reachable m1 ∧ Tree.isEmpty 0 m1 = .ok true := by
  have R : Rep (Tree.new 'm' emptyMem).2 0 (.cons (1, 'm') .nil .nil) :=
    Tree.new_rep 'm' emptyMem
  have hp : 1 ∈ addrs (Forest.cons (1, 'm') .nil .nil) := by simp [addrs_cons]
  obtain ⟨hl, m1, f1, e, R1, hs⟩ := run_replicate_addChild (t := 0) (p := 1) 'a' 4294967295 R hp
  refine ⟨hl, m1, e, Reachable.run _ (reachable_new 'm') hl e, ?_⟩
  rw [R1.isEmpty, hs]
  rfl

/-- C13 (amended): `isEmpty()` returns true exactly when `size()` is 0; and
for every tree of a program that has used only the public operations
(constructors, copy construction, assignment, `addChild`, `prune` and `*h = v`
through handles on live nodes), the tree has at least one node, `size()` is
its number of nodes modulo 2^32, and `isEmpty()` returns false, with
`size() >= 1`, as long as it has fewer than 2^32 nodes. -/
theorem isEmpty_false_below_wraparound (m : Mem T) (t : Nat) (hr : Reachable m)
    (ht : t < m.trees.length) :
    ∃ n, Tree.size t m = .ok n ∧ Tree.isEmpty t m = .ok (n == 0) ∧
      1 ≤ (Tree.nodes t m).length ∧
      n = (Tree.nodes t m).length % UNSIGNED_RANGE ∧
      ((Tree.nodes t m).length < UNSIGNED_RANGE → Tree.isEmpty t m = .ok false ∧ 1 ≤ n) := by
  obtain ⟨f, R⟩ := hr.valid ht
  have hpos := R.nodes_pos
  refine ⟨_, R.size, R.isEmpty, hpos, by rw [R.nodes, length_addrs], ?_⟩
  intro hb
  rw [R.nodes, length_addrs] at hb hpos
  rw [R.isEmpty, Nat.mod_eq_of_lt hb]
  refine ⟨?_, hpos⟩
  have : f.size ≠ 0 := by omega
  simp [this]

/-- Witness for C13: the tree `m -> (a, r, k)`. -/
theorem isEmpty_false_below_wraparound_witness :
    Reachable markMem ∧ 0 < markMem.trees.length ∧
      ∃ n, Tree.size 0 markMem = .ok n ∧ Tree.isEmpty 0 markMem = .ok (n == 0) ∧
        1 ≤ (Tree.nodes 0 markMem).length ∧
        n = (Tree.nodes 0 markMem).length % UNSIGNED_RANGE ∧
        ((Tree.nodes 0 markMem).length < UNSIGNED_RANGE →
          Tree.isEmpty 0 markMem = .ok false ∧ 1 ≤ n) :=
  ⟨markMem_reachable, by decide,
    isEmpty_false_below_wraparound markMem 0 markMem_reachable (by decide)⟩

/-- C14: for a handle `h` on a live node of a tree and a value `v`, `*h = v`
succeeds and a following `*h` returns `v`; `size()`, the nodes of the tree and
its structure are the same; every other node keeps its payload, children and
parent; every `numChildren()` is the same; and the preorder sequence is the
former one with the payload replaced at the entry of that node, which occurs
exactly once, and nowhere else. Writing `'Z'` at the root of the driver's final
tree gives the text `[Z a m e r k ]`. -/
theorem derefAssign_changes_one_payload (m : Mem T) (t : Nat) (h : Handle) (v : T)
    (hv : Valid m t) (hl : Live m t h) :
    ∃ m1, h.derefAssign v m = .ok m1 ∧ h.deref m1 = .ok v ∧
      Tree.size t m1 = Tree.size t m ∧
      Tree.nodes t m1 = Tree.nodes t m ∧
      (Tree.shape t m1).map (fun _ => ()) = (Tree.shape t m).map (fun _ => ()) ∧
      (∀ q, q ≠ h.pCurr → lookup m1.heap q = lookup m.heap q) ∧
      (∀ g : Handle, g.numChildren m1 = g.numChildren m) ∧
      (∀ g : Handle, g.pCurr ≠ h.pCurr → g.deref m1 = g.deref m) ∧
      Tree.labels t m1
        = (Tree.labels t m).map (fun x => if x.1 = h.pCurr then (x.1, v) else x) ∧
      (Tree.nodes t m).count h.pCurr = 1 ∧
      driverFinalText = .ok "[Z a m e r k ]" := by
  obtain ⟨f, R⟩ := hv
  obtain ⟨ht, hp⟩ := (R.live_iff h).mp hl
  obtain ⟨p, t0⟩ := h
  simp only at ht hp
  subst ht
  have hnd := R.nodup
  obtain ⟨vp, par, hlk, -⟩ := R.holds.lookup_mem hp
  have hp0 := lookup_some_pos hlk
  obtain ⟨m1, e, R1, hcell, -, -, hfr⟩ := derefAssign_rep v R hp
  have hlk1 := hcell _ hlk
  refine ⟨m1, e, ?_, ?_, ?_, ?_, hfr, ?_, ?_, ?_, ?_, rfl⟩
  · simp only [Handle.deref, if_neg hp0, read_eq_ok hlk1]
  · rw [R1.size, R.size, size_setAt]
  · rw [R1.nodes, R.nodes, addrs_setAt]
  · rw [R1.shape, R.shape]
    have : ∀ g : Forest (Nat × T),
        ((setAt p v g).map Prod.snd).map (fun _ => ()) = (g.map Prod.snd).map (fun _ => ()) := by
      intro g
      induction g with
      | nil => rfl
      | cons x k r ihk ihr =>
        by_cases hx : x.1 = p <;> simp [setAt, hx, Forest.map, ihk, ihr]
    exact this f
  · intro g
    by_cases hg : g.pCurr = p
    · simp only [Handle.numChildren, hg, read_eq_ok hlk1, read_eq_ok hlk]
    · simp only [Handle.numChildren, Mem.read, hfr _ hg]
  · intro g hg
    simp only [Handle.deref, Mem.read, hfr _ hg]
  · rw [R1.labels, R.labels]
    exact preorder_setAt v hnd
  · rw [R.nodes]
    exact List.count_eq_one_of_mem hnd hp

/-- Witness for C14: writing `'Z'` at the third node (`r`) of
`m -> (a, r, k)`. -/
theorem derefAssign_changes_one_payload_witness :
    Valid markMem 0 ∧ Live markMem 0 ⟨3, 0⟩ ∧
      ∃ m1, Handle.derefAssign ⟨3, 0⟩ 'Z' markMem = .ok m1 ∧
        Handle.deref ⟨3, 0⟩ m1 = .ok 'Z' ∧
        Tree.size 0 m1 = Tree.size 0 markMem ∧
        Tree.nodes 0 m1 = Tree.nodes 0 markMem ∧
        (Tree.shape 0 m1).map (fun _ => ()) = (Tree.shape 0 markMem).map (fun _ => ()) ∧
        (∀ q, q ≠ 3 → lookup m1.heap q = lookup markMem.heap q) ∧
        (∀ g : Handle, g.numChildren m1 = g.numChildren markMem) ∧
        (∀ g : Handle, g.pCurr ≠ 3 → g.deref m1 = g.deref markMem) ∧
        Tree.labels 0 m1
          = (Tree.labels 0 markMem).map (fun x => if x.1 = 3 then (x.1, 'Z') else x) ∧
        (Tree.nodes 0 markMem).count 3 = 1 ∧
        driverFinalText = .ok "[Z a m e r k ]" :=
  ⟨markMem_valid, ⟨rfl, by decide⟩,
    derefAssign_changes_one_payload markMem 0 ⟨3, 0⟩ 'Z' markMem_valid ⟨rfl, by decide⟩⟩

/-- C15: `operator*` throws its `std::out_of_range` exactly when the handle
holds the null pointer; and a handle obtained from `rootHandle()` of a tree by
a sequence of successful `getChild` / `getParent` calls, each assigned back to
the handle, is on a live node of the tree, so it is not null and `*h` returns
a payload. -/
theorem deref_succeeds_on_navigated_handles (m : Mem T) (t : Nat) (r h : Handle)
    (moves : List Move) (hv : Valid m t) (hroot : Tree.rootHandle t m = .ok r)
    (hnav : navigate m r moves = .ok h) :
    (∀ (g : Handle) (s : Mem T),
      g.deref s = .error (.outOfRange "Dereferencing empty handle in Tree::Handle::operator*()")
        ↔ g.pCurr = 0) ∧
      h.pCurr ≠ 0 ∧ Live m t h ∧ ∃ v, h.deref m = .ok v := by
  obtain ⟨f, R⟩ := hv
  refine ⟨?_, ?_⟩
  · intro g s
    by_cases hg : g.pCurr = 0
    · simp [Handle.deref, hg]
    · simp only [Handle.deref, if_neg hg, Mem.read, hg, iff_false]
      cases lookup s.heap g.pCurr <;> simp
  · obtain ⟨a, hra, hrp⟩ := R.rootHandle
    rw [hra] at hroot
    cases hroot
    have hmem : a ∈ addrs f := rootPtrs_subset (by rw [hrp]; simp)
    obtain ⟨h1, h2⟩ := navigate_live R moves (h := ⟨a, t⟩) rfl hmem hnav
    obtain ⟨w, par, hlk, -⟩ := R.holds.lookup_mem h2
    have h0 := lookup_some_pos hlk
    exact ⟨h0, (R.live_iff _).mpr ⟨h1, h2⟩, w,
      by simp only [Handle.deref, if_neg h0, read_eq_ok hlk]⟩

/-- Witness for C15: from the root of `m -> (a, r, k)` to child 1, back to
the parent and on to child 2. -/
theorem deref_succeeds_on_navigated_handles_witness :
    Valid markMem 0 ∧ Tree.rootHandle 0 markMem = .ok ⟨1, 0⟩ ∧
      navigate markMem ⟨1, 0⟩ [.child 1, .parent, .child 2] = .ok ⟨4, 0⟩ ∧
      (∀ (g : Handle) (s : Mem Char),
        g.deref s
            = .error (.outOfRange "Dereferencing empty handle in Tree::Handle::operator*()")
          ↔ g.pCurr = 0) ∧
      (⟨4, 0⟩ : Handle).pCurr ≠ 0 ∧ Live markMem 0 ⟨4, 0⟩ ∧
      ∃ v, Handle.deref ⟨4, 0⟩ markMem = .ok v :=
  ⟨markMem_valid, rfl, rfl,
    deref_succeeds_on_navigated_handles markMem 0 ⟨1, 0⟩ ⟨4, 0⟩ [.child 1, .parent, .child 2]
      markMem_valid rfl rfl⟩

/-- C17: in every tree of a program that has used only the public
operations (constructors, copy construction, assignment, `addChild`, `prune`
and `*h = v` through handles on live nodes), the root is the only node whose
`pParent` is null, every entry of the `children` of a node `x` is a node whose
`pParent` is `x`, and for every handle `h` on a live node and every index with
which `h.getChild(i)` returns, `h.getChild(i).getParent()` returns `h`. -/
theorem parent_links_invariant (m : Mem T) (t : Nat) (hr : Reachable m)
    (ht : t < m.trees.length) :
    ∃ r, Tree.rootHandle t m = .ok r ∧ r.pCurr ∈ Tree.nodes t m ∧
      (∀ p, p ∈ Tree.nodes t m →
        ∃ nd, lookup m.heap p = some nd ∧ (nd.pParent = 0 ↔ p = r.pCurr)) ∧
      (∀ (x : Nat) (ndx : Node T) (i c : Nat), x ∈ Tree.nodes t m → lookup m.heap x = some ndx →
        ndx.children[i]? = some c →
        c ∈ Tree.nodes t m ∧ ∃ nc, lookup m.heap c = some nc ∧ nc.pParent = x) ∧
      (∀ (h c : Handle) (i : Nat), Live m t h → (h.getChild i m).1 = .ok c →
        (c.getParent m).1 = .ok h) := by
  obtain ⟨f, R⟩ := hr.valid ht
  obtain ⟨a, hra, hrp⟩ := R.rootHandle
  have hamem : a ∈ addrs f := rootPtrs_subset (by rw [hrp]; simp)
  have hchild : ∀ x c, x ∈ addrs f → c ∈ rootPtrs (kidsAt x f) →
      c ∈ addrs f ∧ ∃ nc, lookup m.heap c = some nc ∧ nc.pParent = x := by
    intro x c hx hc
    obtain ⟨vx, parx, -, Hk⟩ := R.holds.lookup_mem hx
    exact ⟨kidsAt_subset (rootPtrs_subset hc), Hk.roots_parent hc⟩
  refine ⟨⟨a, t⟩, hra, by rw [R.nodes]; exact hamem, ?_, ?_, ?_⟩
  · intro p hp
    rw [R.nodes] at hp
    obtain ⟨nd, hlk, hcase⟩ := R.holds.parent R.nodup hp
    refine ⟨nd, hlk, ?_⟩
    rcases hcase with ⟨hpr, hpar⟩ | ⟨hq, hpr⟩
    · rw [hrp, List.mem_singleton] at hpr
      exact ⟨fun _ => hpr, fun _ => hpar⟩
    · have hq0 := (R.mem_le hq).1
      refine ⟨fun h0 => absurd h0 hq0, ?_⟩
      intro hpa
      simp only at hpa
      subst hpa
      obtain ⟨nd2, hlk2, hpar2⟩ := R.holds.roots_parent (c := p) (by rw [hrp]; simp)
      rw [hlk] at hlk2
      cases hlk2
      exact hpar2
  · intro x ndx i c hx hlx hc
    rw [R.nodes] at hx ⊢
    obtain ⟨vx, parx, hlk, -⟩ := R.holds.lookup_mem hx
    rw [hlk] at hlx
    cases hlx
    exact hchild x c hx (List.getElem?_mem hc)
  · intro h c i hl e
    obtain ⟨hpt, hp⟩ := (R.live_iff h).mp hl
    obtain ⟨p, t0⟩ := h
    simp only at hpt hp
    subst hpt
    obtain ⟨hct, hcp⟩ := getChild_ok R hp e
    obtain ⟨c1, c2⟩ := c
    simp only at hct hcp
    subst hct
    obtain ⟨-, nc, hlc, hpar⟩ := hchild p c1 hp hcp
    have hp0 := (R.mem_le hp).1
    simp only [Handle.getParent, read_eq_ok hlc, hpar, if_neg hp0]

/-- Witness for C17: the tree `m -> (a, r, k)`. -/
theorem parent_links_invariant_witness :
    Reachable markMem ∧ 0 < markMem.trees.length ∧
      ∃ r, Tree.rootHandle 0 markMem = .ok r ∧ r.pCurr ∈ Tree.nodes 0 markMem ∧
        (∀ p, p ∈ Tree.nodes 0 markMem →
          ∃ nd, lookup markMem.heap p = some nd ∧ (nd.pParent = 0 ↔ p = r.pCurr)) ∧
        (∀ (x : Nat) (ndx : Node Char) (i c : Nat), x ∈ Tree.nodes 0 markMem →
          lookup markMem.heap x = some ndx →
          ndx.children[i]? = some c →
          c ∈ Tree.nodes 0 markMem ∧ ∃ nc, lookup markMem.heap c = some nc ∧ nc.pParent = x) ∧
        (∀ (h c : Handle) (i : Nat), Live markMem 0 h → (h.getChild i markMem).1 = .ok c →
          (c.getParent markMem).1 = .ok h) :=
  ⟨markMem_reachable, by decide,
    parent_links_invariant markMem 0 markMem_reachable (by decide)⟩

/-- C18, as stated, fails when the counter wraps: after `Tree('m')` and
4294967295 calls of `addChild('a')` through the root handle, `operator<<`
writes 4294967296 values between the brackets while `size()` returns 0. -/
theorem rendering_longer_than_wrapped_size :
    LiveRun 0 (Tree.new 'm' emptyMem).2
        (List.replicate 4294967295 (Op.addChild ⟨1, 0⟩ 'a')) ∧
      ∃ m1, run (Tree.new 'm' emptyMem).2
          (List.replicate 4294967295 (Op.addChild ⟨1, 0⟩ 'a')) = .ok m1 ∧
        Tree.print charFmt 0 m1 ""
          = .ok ("[" ++ String.join ((Tree.values 0 m1).map fun v => charFmt v ++ " ") ++ "]") ∧
        (Tree.values 0 m1).length = 4294967296 ∧ Tree.size 0 m1 = .ok 0 := by
  have R : Rep (Tree.new 'm' emptyMem).2 0 (.cons (1, 'm') .nil .nil) :=
    Tree.new_rep 'm' emptyMem
  have hp : 1 ∈ addrs (Forest.cons (1, 'm') .nil .nil) := by simp [addrs_cons]
  obtain ⟨hl, m1, f1, e, R1, hs⟩ := run_replicate_addChild (t := 0) (p := 1) 'a' 4294967295 R hp
  refine ⟨hl, m1, e, ?_, ?_, ?_⟩
  · rw [R1.print, Tree.values, R1.shape]
    simp [referenceText]
  · rw [R1.values, List.length_map, Forest.length_preorder, hs]; rfl
  · rw [R1.size, hs]; rfl

/-- C18 (amended): for every tree of a program that has used only the public
operations (constructors, copy construction, assignment, `addChild`, `prune`
and `*h = v` through handles on live nodes), `operator<<` writes `[`, one
entry per element of the preorder sequence and `]`, and `size()` is the length
of that sequence modulo 2^32; so the number of values written equals `size()`
whenever the tree has fewer than 2^32 nodes. -/
theorem rendering_length_is_size_below_wraparound (fmt : T → String) (m : Mem T) (t : Nat)
    (out : String) (hr : Reachable m) (ht : t < m.trees.length) :
    Tree.print fmt t m out
        = .ok (out ++ ("[" ++ String.join ((Tree.values t m).map fun v => fmt v ++ " ") ++ "]")) ∧
      Tree.size t m = .ok ((Tree.values t m).length % UNSIGNED_RANGE) ∧
      ((Tree.values t m).length < UNSIGNED_RANGE →
        Tree.size t m = .ok (Tree.values t m).length) := by
  obtain ⟨f, R⟩ := hr.valid ht
  have hlen : (Tree.values t m).length = f.size := by
    rw [R.values, List.length_map, Forest.length_preorder]
  refine ⟨?_, ?_, ?_⟩
  · rw [R.print, Tree.values, R.shape]
    rfl
  · rw [hlen]; exact R.size
  · intro hb
    rw [hlen] at hb ⊢
    exact Rep.size_of_lt R hb

/-- Witness for C18: the tree `m -> (a, r, k)`. -/
theorem rendering_length_is_size_below_wraparound_witness :
    Reachable markMem ∧ 0 < markMem.trees.length ∧
      Tree.print charFmt 0 markMem ""
          = .ok ("" ++ ("[" ++ String.join ((Tree.values 0 markMem).map fun v => charFmt v ++ " ")
            ++ "]")) ∧
      Tree.size 0 markMem = .ok ((Tree.values 0 markMem).length % UNSIGNED_RANGE) ∧
      ((Tree.values 0 markMem).length < UNSIGNED_RANGE →
        Tree.size 0 markMem = .ok (Tree.values 0 markMem).length) :=
  ⟨markMem_reachable, by decide,
    rendering_length_is_size_below_wraparound charFmt markMem 0 "" markMem_reachable
      (by decide)⟩

theorem Holds.preorder_data {h : Heap T} {par : Nat} {f : Forest (Nat × T)} (H : Holds h par f)
    {x : Nat × T} (hx : x ∈ f.preorder) : ∃ nd, lookup h x.1 = some nd ∧ nd.data = x.2 := by
  induction f generalizing par with
  | nil => simp [Forest.preorder] at hx
  | cons y k r ihk ihr =>
    obtain ⟨h1, h2, h3⟩ := H
    simp only [Forest.preorder, List.mem_cons, List.mem_append] at hx
    rcases hx with hx | hx | hx
    · subst hx; exact ⟨_, h1, rfl⟩
    · exact ihk h2 hx
    · exact ihr h3 hx

/-- The place of a live node in the preorder of its tree, in terms of what
can be read off the memory. -/
theorem labels_split {m : Mem T} {t p : Nat} {f : Forest (Nat × T)} (R : Rep m t f)
    (hp : p ∈ addrs f) :
    ∃ pre post w, subtreeLabels p m = (p, w) :: (kidsAt p f).preorder ∧
      f.preorder = pre ++ (p, w) :: ((kidsAt p f).preorder ++ post) ∧
      (∀ y, (addAt p y f).preorder = pre ++ (p, w) :: ((kidsAt p f).preorder ++ y :: post)) ∧
      (pruneAt p f).preorder = pre ++ (p, w) :: post := by
  obtain ⟨w, hsub, nd, hlk, hdata⟩ := subtreeLabels_eq R hp
  obtain ⟨pre, post, z, hz, h1, h2, h3⟩ := preorder_split hp R.nodup
  have hzmem : z ∈ f.preorder := by rw [h1]; simp
  obtain ⟨nd1, hlk1, hd1⟩ := R.holds.preorder_data hzmem
  rw [hz, hlk] at hlk1
  cases hlk1
  have hzw : z = (p, w) := by
    rw [← hz, ← hdata, hd1]
  subst hzw
  exact ⟨pre, post, w, hsub, h1, h2, h3⟩

theorem append_self_middle {α : Type} {l pre post : List α} (h : l = pre ++ l ++ post) :
    pre = [] ∧ post = [] := by
  have := congrArg List.length h
  simp only [List.length_append] at this
  exact ⟨List.length_eq_zero.mp (by omega), List.length_eq_zero.mp (by omega)⟩

theorem root_subtreeLabels {m : Mem T} {t a : Nat} {f : Forest (Nat × T)} (R : Rep m t f)
    (hroot : Tree.rootHandle t m = .ok ⟨a, t⟩) :
    a ∈ addrs f ∧ subtreeLabels a m = f.preorder := by
  obtain ⟨a1, hra, hrp⟩ := R.rootHandle
  rw [hra] at hroot
  cases hroot
  have hmem : a ∈ addrs f := rootPtrs_subset (by rw [hrp]; simp)
  obtain ⟨w, hsub, nd, hlk, hdata⟩ := subtreeLabels_eq R hmem
  obtain ⟨v, hf⟩ := R.root_labels hrp
  refine ⟨hmem, ?_⟩
  have hv : v = w := by
    have H := R.holds
    rw [hf] at H
    have := H.1
    rw [hlk] at this
    cases this
    exact hdata
  rw [hsub]
  conv_rhs => rw [hf]
  simp [Forest.preorder, hv]

/-- C19: for a handle `h` on a live node of a tree and a value `v`,
`h.addChild(v)` succeeds and the preorder sequence afterwards is the former
one with the new node (holding `v`) inserted right behind the block of `h`'s
subtree, a block that starts with the node of `h` itself and continues with its
descendants; so when `h` is the root handle `v` is appended at the end of the
sequence of payloads. -/
theorem addChild_inserts_after_subtree (m : Mem T) (t : Nat) (h : Handle) (v : T)
    (hv : Valid m t) (hl : Live m t h) :
    ∃ m1 pre post, h.addChild v m = .ok m1 ∧
      (subtreeLabels h.pCurr m).head?.map Prod.fst = some h.pCurr ∧
      (subtreeLabels h.pCurr m).map Prod.fst = subtreeNodes h.pCurr m ∧
      Tree.labels t m = pre ++ subtreeLabels h.pCurr m ++ post ∧
      Tree.labels t m1
        = pre ++ subtreeLabels h.pCurr m ++ (m.heap.length + 1, v) :: post ∧
      Tree.values t m
        = pre.map Prod.snd ++ (subtreeLabels h.pCurr m).map Prod.snd ++ post.map Prod.snd ∧
      Tree.values t m1
        = pre.map Prod.snd ++ (subtreeLabels h.pCurr m).map Prod.snd
          ++ v :: post.map Prod.snd ∧
      (Tree.rootHandle t m = .ok h → Tree.values t m1 = Tree.values t m ++ [v]) := by
  obtain ⟨f, R⟩ := hv
  obtain ⟨ht, hp⟩ := (R.live_iff h).mp hl
  obtain ⟨p, t0⟩ := h
  simp only at ht hp
  subst ht
  obtain ⟨m1, e, R1, -⟩ := addChild_rep v R hp
  obtain ⟨pre, post, w, hsub, h1, h2, -⟩ := labels_split R hp
  have hl0 : Tree.labels t0 m = pre ++ subtreeLabels p m ++ post := by
    rw [R.labels, h1, hsub]; simp
  have hl1 : Tree.labels t0 m1
      = pre ++ subtreeLabels p m ++ (m.heap.length + 1, v) :: post := by
    rw [R1.labels, h2, hsub]; simp
  have hv0 : Tree.values t0 m
      = pre.map Prod.snd ++ (subtreeLabels p m).map Prod.snd ++ post.map Prod.snd := by
    rw [R.values, ← R.labels, hl0]; simp
  have hv1 : Tree.values t0 m1
      = pre.map Prod.snd ++ (subtreeLabels p m).map Prod.snd ++ v :: post.map Prod.snd := by
    rw [R1.values, ← R1.labels, hl1]; simp
  refine ⟨m1, pre, post, e, by rw [hsub]; rfl, ?_, hl0, hl1, hv0, hv1, ?_⟩
  · rw [subtreeNodes_eq R hp, hsub]
    simp [addrs]
  · intro hroot
    obtain ⟨-, hrs⟩ := root_subtreeLabels R hroot
    have hself : subtreeLabels p m = pre ++ subtreeLabels p m ++ post := by
      conv_lhs => rw [hrs, ← R.labels, hl0]
    obtain ⟨hpre, hpost⟩ := append_self_middle hself
    rw [hv1, hv0, hpre, hpost]
    simp

/-- Witness for C19: adding `'x'` under the second node (`a`) of
`m -> (a, r, k)`. -/
theorem addChild_inserts_after_subtree_witness :
    Valid markMem 0 ∧ Live markMem 0 ⟨2, 0⟩ ∧
      ∃ m1 pre post, Handle.addChild ⟨2, 0⟩ 'x' markMem = .ok m1 ∧
        (subtreeLabels 2 markMem).head?.map Prod.fst = some 2 ∧
        (subtreeLabels 2 markMem).map Prod.fst = subtreeNodes 2 markMem ∧
        Tree.labels 0 markMem = pre ++ subtreeLabels 2 markMem ++ post ∧
        Tree.labels 0 m1
          = pre ++ subtreeLabels 2 markMem ++ (markMem.heap.length + 1, 'x') :: post ∧
        Tree.values 0 markMem
          = pre.map Prod.snd ++ (subtreeLabels 2 markMem).map Prod.snd ++ post.map Prod.snd ∧
        Tree.values 0 m1
          = pre.map Prod.snd ++ (subtreeLabels 2 markMem).map Prod.snd
            ++ 'x' :: post.map Prod.snd ∧
        (Tree.rootHandle 0 markMem = .ok ⟨2, 0⟩ →
          Tree.values 0 m1 = Tree.values 0 markMem ++ ['x']) :=
  ⟨markMem_valid, ⟨rfl, by decide⟩,
    addChild_inserts_after_subtree markMem 0 ⟨2, 0⟩ 'x' markMem_valid ⟨rfl, by decide⟩⟩

/-- C20: for a handle `h` on a live node of a tree, `h.prune()` succeeds
and the preorder sequence afterwards is the former one without the run of
`h`'s proper descendants, the entries that directly follow the entry of `h`;
what precedes and what follows the block keeps its order; every node outside
the subtree of `h` keeps its payload, children and parent; the descendants are
deleted; and when `h` is the root handle the tree is left with `size()` 1 and
the text `[`, the root payload, a space and `]`. -/
theorem prune_deletes_descendant_block (m : Mem T) (t : Nat) (h : Handle)
    (hv : Valid m t) (hl : Live m t h) :
    ∃ m1 x desc pre post, h.prune m = .ok m1 ∧ x.1 = h.pCurr ∧
      subtreeLabels h.pCurr m = x :: desc ∧
      Tree.labels t m = pre ++ x :: (desc ++ post) ∧
      Tree.labels t m1 = pre ++ x :: post ∧
      (∀ q, q ∉ subtreeNodes h.pCurr m → lookup m1.heap q = lookup m.heap q) ∧
      (∀ q, q ∈ desc.map Prod.fst → lookup m1.heap q = none) ∧
      (Tree.rootHandle t m = .ok h →
        pre = [] ∧ post = [] ∧ Tree.size t m1 = .ok 1 ∧
        ∀ (fmt : T → String) (out : String),
          Tree.print fmt t m1 out = .ok (out ++ ("[" ++ (fmt x.2 ++ " ") ++ "]"))) := by
  obtain ⟨f, R⟩ := hv
  obtain ⟨ht, hp⟩ := (R.live_iff h).mp hl
  obtain ⟨p, t0⟩ := h
  simp only at ht hp
  subst ht
  obtain ⟨m1, e, R1, -⟩ := prune_rep R hp
  have hcells := prune_cells R hp e
  obtain ⟨pre, post, w, hsub, h1, -, h3⟩ := labels_split R hp
  have hnodes := subtreeNodes_eq R hp
  refine ⟨m1, (p, w), (kidsAt p f).preorder, pre, post, e, rfl, hsub, ?_, ?_, ?_, ?_, ?_⟩
  · rw [R.labels, h1]
  · rw [R1.labels, h3]
  · intro q hq
    rw [hnodes] at hq
    simp only [List.mem_cons, not_or] at hq
    rw [hcells q hq.1, if_neg hq.2]
  · intro q hq
    have hqk : q ∈ addrs (kidsAt p f) := hq
    have hqp : q ≠ p := by
      intro e1
      have hperm := addrs_pruneAt_perm (p := p) R.nodup
      have hnd2 := (List.Perm.nodup_iff hperm).mp R.nodup
      exact (List.nodup_append.mp hnd2).2.2 (mem_addrs_pruneAt hp) (e1 ▸ hqk)
    rw [hcells q hqp, if_pos hqk]
  · intro hroot
    obtain ⟨-, hrs⟩ := root_subtreeLabels R hroot
    have hself : subtreeLabels p m = pre ++ subtreeLabels p m ++ post := by
      have h4 : subtreeLabels p m = pre ++ (p, w) :: ((kidsAt p f).preorder ++ post) := by
        rw [hrs, h1]
      rw [hsub] at h4 ⊢
      simpa using h4
    obtain ⟨hpre, hpost⟩ := append_self_middle hself
    have hlab : (pruneAt p f).preorder = [(p, w)] := by rw [h3, hpre, hpost]; rfl
    have hsz : (pruneAt p f).size = 1 := by
      rw [← Forest.length_preorder, hlab]; rfl
    refine ⟨hpre, hpost, ?_, ?_⟩
    · rw [R1.size, hsz]; rfl
    · intro fmt out
      rw [R1.print, referenceText, Forest.preorder_map, hlab]
      simp [join_cons, String.join]

/-- Witness for C20: pruning at the root of `m -> (a, r, k)`. -/
theorem prune_deletes_descendant_block_witness :
    Valid markMem 0 ∧ Live markMem 0 ⟨1, 0⟩ ∧
      ∃ m1 x desc pre post, Handle.prune ⟨1, 0⟩ markMem = .ok m1 ∧ x.1 = 1 ∧
        subtreeLabels 1 markMem = x :: desc ∧
        Tree.labels 0 markMem = pre ++ x :: (desc ++ post) ∧
        Tree.labels 0 m1 = pre ++ x :: post ∧
        (∀ q, q ∉ subtreeNodes 1 markMem → lookup m1.heap q = lookup markMem.heap q) ∧
        (∀ q, q ∈ desc.map Prod.fst → lookup m1.heap q = none) ∧
        (Tree.rootHandle 0 markMem = .ok ⟨1, 0⟩ →
          pre = [] ∧ post = [] ∧ Tree.size 0 m1 = .ok 1 ∧
          ∀ (fmt : Char → String) (out : String),
            Tree.print fmt 0 m1 out = .ok (out ++ ("[" ++ (fmt x.2 ++ " ") ++ "]"))) :=
  ⟨markMem_valid, ⟨rfl, by decide⟩,
    prune_deletes_descendant_block markMem 0 ⟨1, 0⟩ markMem_valid ⟨rfl, by decide⟩⟩

/-! ### Trees whose counters have wrapped -/

theorem addChild_state {m : Mem T} {t p : Nat} {f : Forest (Nat × T)} {nd : Node T}
    {o : TreeObj} (v : T) (R : Rep m t f) (hp : p ∈ addrs f)
    (hl : lookup m.heap p = some nd) (ht : m.trees[t]? = some o) :
    ∃ m1, Handle.addChild ⟨p, t⟩ v m = .ok m1 ∧
      Rep m1 t (addAt p (m.heap.length + 1, v) f) ∧
      lookup m1.heap p = some ⟨nd.data, nd.children ++ [m.heap.length + 1], nd.pParent⟩ ∧
      lookup m1.heap (m.heap.length + 1) = some ⟨v, [], p⟩ ∧
      m1.trees[t]? = some ⟨o.pRoot, (o.n + 1) % UNSIGNED_RANGE⟩ ∧
      m1.heap.length = m.heap.length + 1 ∧
      (∀ q, q ≠ p → q ≤ m.heap.length → lookup m1.heap q = lookup m.heap q) := by
  have hp0 := lookup_some_pos hl
  have hle := lookup_some_le hl
  have htl : t < m.trees.length := R.tree_lt
  obtain ⟨m1, e, R1, hlen, -, hfr, -⟩ := addChild_rep v R hp
  refine ⟨m1, e, R1, ?_, ?_, ?_, hlen, hfr⟩
  · have e0 := addChild_eq v hl ht
    rw [e0] at e
    cases e
    exact lookup_store_same _ hp0 (by simp; omega)
  · have e0 := addChild_eq v hl ht
    rw [e0] at e
    cases e
    show lookup (store _ p _) _ = _
    rw [lookup_store_ne _ (by omega)]
    exact lookup_append_new m.heap _ []
  · have e0 := addChild_eq v hl ht
    rw [e0] at e
    cases e
    show (m.trees.set t _)[t]? = _
    simp [htl]

theorem replicate_addChild_state {t p : Nat} (v : T) (k : Nat) :
    ∀ {m : Mem T} {f : Forest (Nat × T)} {nd : Node T} {o : TreeObj},
      Rep m t f → p ∈ addrs f → lookup m.heap p = some nd → m.trees[t]? = some o →
      LiveRun t m (List.replicate k (Op.addChild ⟨p, t⟩ v)) ∧
      ∃ m1 f1 nd1 o1, run m (List.replicate k (Op.addChild ⟨p, t⟩ v)) = .ok m1 ∧
        Rep m1 t f1 ∧ p ∈ addrs f1 ∧ f1.size = f.size + k ∧
        lookup m1.heap p = some nd1 ∧ nd1.data = nd.data ∧
        nd1.children.length = nd.children.length + k ∧
        (∀ c, nd.children.head? = some c → nd1.children.head? = some c) ∧
        m1.trees[t]? = some o1 ∧ o1.pRoot = o.pRoot ∧
        m.heap.length ≤ m1.heap.length ∧
        (∀ q, q ≠ p → q ≤ m.heap.length → lookup m1.heap q = lookup m.heap q) := by
  induction k with
  | zero =>
    intro m f nd o R hp hl ht
    exact ⟨trivial, m, f, nd, o, rfl, R, hp, rfl, hl, rfl, rfl, fun _ h => h, ht, rfl,
      Nat.le_refl _, fun _ _ _ => rfl⟩
  | succ k ih =>
    intro m f nd o R hp hl ht
    obtain ⟨m1, e, R1, hl1, -, ht1, hlen1, hfr1⟩ := addChild_state v R hp hl ht
    have hp1 := mem_addrs_addAt (m.heap.length + 1, v) hp R.nodup hp
    obtain ⟨hlive, m2, f2, nd2, o2, e2, R2, hp2, hs2, hl2, hd2, hc2, hh2, ht2, ho2, hlen2, hfr2⟩ :=
      ih R1 hp1 hl1 ht1
    have hstep : step (Op.addChild ⟨p, t⟩ v) m = .ok m1 := e
    refine ⟨⟨(R.live_iff _).mpr ⟨rfl, hp⟩, by rw [hstep]; exact hlive⟩,
      m2, f2, nd2, o2, ?_, R2, hp2, ?_, hl2, hd2, ?_, ?_, ht2, ho2, by omega, ?_⟩
    · simp only [List.replicate_succ, run, hstep, e2]
    · rw [hs2, size_addAt _ hp R.nodup]; omega
    · rw [hc2]; simp; omega
    · intro c hc
      apply hh2
      cases hk : nd.children with
      | nil => rw [hk] at hc; simp at hc
      | cons x xs => rw [hk] at hc; simpa using hc
    · intro q hqp hq
      rw [hfr2 q hqp (by omega), hfr1 q hqp hq]

theorem Rep.root_of_tree {m : Mem T} {t : Nat} {f : Forest (Nat × T)} {o : TreeObj}
    (R : Rep m t f) (ht : m.trees[t]? = some o) : rootPtrs f = [o.pRoot] := by
  obtain ⟨a, v, k, rfl, ht0, -, -⟩ := R
  rw [ht0] at ht
  cases ht
  simp [rootPtrs_cons, rootPtrs_nil]

theorem prune_root_size {m : Mem T} {t a : Nat} {f : Forest (Nat × T)} (R : Rep m t f)
    (hroot : rootPtrs f = [a]) : (pruneAt a f).size = 1 ∧ (kidsAt a f).size + 1 = f.size := by
  obtain ⟨a1, w, k, rfl, -⟩ := R
  have : a1 = a := by simpa [rootPtrs_cons, rootPtrs_nil] using hroot
  subst this
  simp [pruneAt, kidsAt, Forest.size]
  omega

theorem numDescendants_eq {m : Mem T} {t : Nat} {f : Forest (Nat × T)} (R : Rep m t f) {p : Nat}
    (hp : p ∈ addrs f) : numDescendants p m = (kidsAt p f).size := by
  simp only [numDescendants, subtreeNodes_eq R hp, List.length_cons, length_addrs]
  omega

theorem newTree_state :
    Rep (Tree.new 'm' emptyMem).2 0 (.cons (1, 'm') .nil .nil) ∧
      1 ∈ addrs (Forest.cons (1, 'm') .nil .nil) ∧
      lookup (Tree.new 'm' emptyMem).2.heap 1 = some ⟨'m', [], 0⟩ ∧
      (Tree.new 'm' emptyMem).2.trees[0]? = some ⟨1, 1⟩ :=
  ⟨Tree.new_rep 'm' emptyMem, by simp [addrs_cons], rfl, rfl⟩

theorem LiveRun.cons {t : Nat} {m m1 : Mem T} {op : Op T} {ops : List (Op T)}
    (hl : Live m t op.handle) (h1 : step op m = .ok m1) (h2 : LiveRun t m1 ops) :
    LiveRun t m (op :: ops) :=
  ⟨hl, by rw [h1]; exact h2⟩

/-- C2, as stated, fails once the counter has wrapped: the tree reached by
`Tree('m')` and 4294967295 calls of `addChild('a')` at the root has 2^32
nodes, so `size()` is 0, and its root is a live node with 4294967295 proper
descendants; `prune()` at the root succeeds and leaves `numChildren()` at 0,
but `size()` is 1 afterwards: it has gone up by one, not down by
4294967295. -/
theorem prune_size_drop_differs_after_wraparound :
    ∃ m, run (Tree.new 'm' emptyMem).2
        (List.replicate 4294967295 (Op.addChild ⟨1, 0⟩ 'a')) = .ok m ∧
      Reachable m ∧ Valid m 0 ∧ Live m 0 ⟨1, 0⟩ ∧ Tree.size 0 m = .ok 0 ∧
      numDescendants 1 m = 4294967295 ∧
      ∃ m1, Handle.prune ⟨1, 0⟩ m = .ok m1 ∧ Handle.numChildren ⟨1, 0⟩ m1 = .ok 0 ∧
        Tree.size 0 m1 = .ok 1 := by
  obtain ⟨R, hp, hl, ht⟩ := newTree_state
  obtain ⟨hlive, m, f, nd, o, e, R1, hp1, hs, hl1, -, -, -, ht1, ho, -, -⟩ :=
    replicate_addChild_state (t := 0) (p := 1) 'a' 4294967295 R hp hl ht
  have hroot : rootPtrs f = [1] := by rw [R1.root_of_tree ht1, ho]
  obtain ⟨hs1, hs2⟩ := prune_root_size R1 hroot
  have hsz : f.size = 4294967296 := by rw [hs]; rfl
  obtain ⟨m1, e1, R2, hcell, -⟩ := prune_rep R1 hp1
  refine ⟨m, e, Reachable.run _ (reachable_new 'm') hlive e, ⟨f, R1⟩,
    (R1.live_iff _).mpr ⟨rfl, hp1⟩, ?_, ?_, m1, e1, ?_, ?_⟩
  · rw [R1.size, hsz]; rfl
  · rw [numDescendants_eq R1 hp1]; omega
  · simp only [Handle.numChildren, read_eq_ok (hcell _ hl1), List.length_nil, Nat.zero_mod]
  · rw [R2.size, hs1]; rfl

/-- C2 (amended): for a handle `h` on a live node of a tree, `h.prune()`
succeeds; afterwards `h.numChildren()` is 0, the node is still a live node of
the tree with the payload it had, and `size()` has gone down by the number of
proper descendants the node had modulo 2^32: the new `size()` plus that number
is the old `size()` modulo 2^32, and exactly the old `size()` whenever the
tree had fewer than 2^32 nodes. -/
theorem prune_removes_descendants_modulo_wraparound (m : Mem T) (t : Nat) (h : Handle)
    (hv : Valid m t) (hl : Live m t h) :
    ∃ m1 n n1 v, h.prune m = .ok m1 ∧ h.numChildren m1 = .ok 0 ∧
      Tree.size t m = .ok n ∧ Tree.size t m1 = .ok n1 ∧
      (n1 + numDescendants h.pCurr m) % UNSIGNED_RANGE = n ∧
      ((Tree.nodes t m).length < UNSIGNED_RANGE → n1 + numDescendants h.pCurr m = n) ∧
      Live m1 t h ∧ h.deref m = .ok v ∧ h.deref m1 = .ok v := by
  obtain ⟨f, R⟩ := hv
  obtain ⟨ht, hp⟩ := (R.live_iff h).mp hl
  obtain ⟨p, t0⟩ := h
  simp only at ht hp
  subst ht
  have hnd := R.nodup
  obtain ⟨m1, e, R1, hcell, -⟩ := prune_rep R hp
  obtain ⟨v, par, hlk, -⟩ := R.holds.lookup_mem hp
  have hlk1 := hcell _ hlk
  have hp0 := lookup_some_pos hlk
  have hsz := size_pruneAt (p := p) hnd
  have hnum := numDescendants_eq R hp
  refine ⟨m1, f.size % UNSIGNED_RANGE, (pruneAt p f).size % UNSIGNED_RANGE, v, e, ?_, R.size,
    R1.size, ?_, ?_, (R1.live_iff _).mpr ⟨rfl, mem_addrs_pruneAt hp⟩, ?_, ?_⟩
  · simp only [Handle.numChildren, read_eq_ok hlk1, List.length_nil, Nat.zero_mod]
  · simp only [hnum]
    rw [Nat.mod_add_mod, hsz]
  · intro hb
    rw [R.nodes, length_addrs] at hb
    simp only [hnum]
    rw [Nat.mod_eq_of_lt hb, Nat.mod_eq_of_lt (by omega)]
    exact hsz
  · simp only [Handle.deref, if_neg hp0, read_eq_ok hlk]
  · simp only [Handle.deref, if_neg hp0, read_eq_ok hlk1]

/-- Witness for C2: pruning at the root of the tree `m -> (a, r, k)`. -/
theorem prune_removes_descendants_modulo_wraparound_witness :
    Valid markMem 0 ∧ Live markMem 0 ⟨1, 0⟩ ∧
      ∃ m1 n n1 v, Handle.prune ⟨1, 0⟩ markMem = .ok m1 ∧
        Handle.numChildren ⟨1, 0⟩ m1 = .ok 0 ∧
        Tree.size 0 markMem = .ok n ∧ Tree.size 0 m1 = .ok n1 ∧
        (n1 + numDescendants 1 markMem) % UNSIGNED_RANGE = n ∧
        ((Tree.nodes 0 markMem).length < UNSIGNED_RANGE → n1 + numDescendants 1 markMem = n) ∧
        Live m1 0 ⟨1, 0⟩ ∧ Handle.deref ⟨1, 0⟩ markMem = .ok v ∧
        Handle.deref ⟨1, 0⟩ m1 = .ok v :=
  ⟨markMem_valid, ⟨rfl, by decide⟩,
    prune_removes_descendants_modulo_wraparound markMem 0 ⟨1, 0⟩ markMem_valid ⟨rfl, by decide⟩⟩

/-- C8, as stated, fails once a node has 2^32 children: in the tree reached
by `Tree('m')` and 4294967296 calls of `addChild('a')` at the root, the root is
a live node and `numChildren()` is 0, so index 0 satisfies
`i >= numChildren()`; yet `getChild(0)` raises no error and returns a handle on
a live node. -/
theorem getChild_succeeds_at_wrapped_numChildren :
    ∃ m, run (Tree.new 'm' emptyMem).2
        (List.replicate 4294967296 (Op.addChild ⟨1, 0⟩ 'a')) = .ok m ∧
      Reachable m ∧ Valid m 0 ∧ Live m 0 ⟨1, 0⟩ ∧
      Handle.numChildren ⟨1, 0⟩ m = .ok 0 ∧
      ∃ c, (Handle.getChild ⟨1, 0⟩ 0 m).1 = .ok c ∧ Live m 0 c := by
  obtain ⟨R, hp, hl, ht⟩ := newTree_state
  obtain ⟨hlive, m, f, nd, o, e, R1, hp1, -, hl1, -, hlen, -⟩ :=
    replicate_addChild_state (t := 0) (p := 1) 'a' 4294967296 R hp hl ht
  have hlen1 : nd.children.length = 4294967296 := by rw [hlen]; rfl
  obtain ⟨v, par, hlk, -⟩ := R1.holds.lookup_mem hp1
  have hch : nd.children = rootPtrs (kidsAt 1 f) := by
    rw [hl1] at hlk
    cases hlk
    rfl
  have hi : 0 < nd.children.length := by omega
  have hc : nd.children[0]? = some (nd.children[0]) := List.getElem?_eq_getElem hi
  have hmem : nd.children.getD 0 0 ∈ rootPtrs (kidsAt 1 f) := by
    rw [← hch]
    simp only [List.getD_eq_getElem?_getD, hc, Option.getD_some]
    exact List.getElem_mem hi
  refine ⟨m, e, Reachable.run _ (reachable_new 'm') hlive e, ⟨f, R1⟩,
    (R1.live_iff _).mpr ⟨rfl, hp1⟩, ?_, ⟨nd.children.getD 0 0, 0⟩, ?_, ?_⟩
  · simp only [Handle.numChildren, read_eq_ok hl1, hlen1]
    rfl
  · have hge : ¬ 0 ≥ nd.children.length := by omega
    simp only [Handle.getChild, read_eq_ok hl1, if_neg hge]
  · exact (R1.live_iff _).mpr ⟨rfl, kidsAt_subset (rootPtrs_subset hmem)⟩

/-- C8 (amended): for a handle `h` on a live node of a tree and any index
`i`, `h.getChild(i)` throws `std::out_of_range` exactly when `i` is at least
the length of the node's `children` vector; `h.numChildren()` is that length
modulo 2^32, so the call throws exactly when `i >= h.numChildren()` whenever
the node has fewer than 2^32 children. Otherwise it returns the handle made of
the `i`-th entry of the `children` vector and the same tree, a handle on a
live node. The memory after the call is the memory before it. -/
theorem getChild_fails_exactly_past_the_children (m : Mem T) (t : Nat) (h : Handle) (i : Nat)
    (hv : Valid m t) (hl : Live m t h) :
    ∃ nd k, lookup m.heap h.pCurr = some nd ∧ h.numChildren m = .ok k ∧
      k = nd.children.length % UNSIGNED_RANGE ∧
      ((h.getChild i m).1
          = .error (.outOfRange "Indexing invalid child in Tree::Handle:: getChild()")
        ↔ nd.children.length ≤ i) ∧
      (nd.children.length < UNSIGNED_RANGE →
        ((h.getChild i m).1
            = .error (.outOfRange "Indexing invalid child in Tree::Handle:: getChild()")
          ↔ k ≤ i)) ∧
      (i < nd.children.length →
        ∃ c, nd.children[i]? = some c ∧ (h.getChild i m).1 = .ok ⟨c, h.pTree⟩ ∧
          Live m t ⟨c, h.pTree⟩) ∧
      (h.getChild i m).2 = m := by
  obtain ⟨f, R⟩ := hv
  obtain ⟨ht, hp⟩ := (R.live_iff h).mp hl
  obtain ⟨p, t0⟩ := h
  simp only at ht hp
  subst ht
  obtain ⟨v, par, hlk, -⟩ := R.holds.lookup_mem hp
  have hrd := read_eq_ok hlk
  have hiff : (Handle.getChild ⟨p, t0⟩ i m).1
        = .error (.outOfRange "Indexing invalid child in Tree::Handle:: getChild()")
      ↔ (rootPtrs (kidsAt p f)).length ≤ i := by
    by_cases hi : (rootPtrs (kidsAt p f)).length ≤ i
    · simp [Handle.getChild, hrd, hi]
    · simp [Handle.getChild, hrd, hi]
  refine ⟨_, (rootPtrs (kidsAt p f)).length % UNSIGNED_RANGE, hlk, ?_, rfl, hiff, ?_, ?_, ?_⟩
  · simp only [Handle.numChildren, hrd]
  · intro hlen
    simp only at hlen
    rw [hiff, Nat.mod_eq_of_lt hlen]
  · intro hi
    simp only at hi
    have hc : (rootPtrs (kidsAt p f))[i]? = some ((rootPtrs (kidsAt p f))[i]) :=
      List.getElem?_eq_getElem hi
    refine ⟨_, hc, ?_, ?_⟩
    · have hge : ¬ i ≥ (rootPtrs (kidsAt p f)).length := by omega
      simp only [Handle.getChild, hrd, if_neg hge, List.getD_eq_getElem?_getD, hc,
        Option.getD_some]
    · refine (R.live_iff _).mpr ⟨rfl, ?_⟩
      exact kidsAt_subset (rootPtrs_subset (List.getElem_mem hi))
  · simp only [Handle.getChild, hrd]
    split <;> rfl

/-- Witness for C8: the root of `m -> (a, r, k)` and index 3. -/
theorem getChild_fails_exactly_past_the_children_witness :
    Valid markMem 0 ∧ Live markMem 0 ⟨1, 0⟩ ∧
      ∃ nd k, lookup markMem.heap 1 = some nd ∧ Handle.numChildren ⟨1, 0⟩ markMem = .ok k ∧
        k = nd.children.length % UNSIGNED_RANGE ∧
        ((Handle.getChild ⟨1, 0⟩ 3 markMem).1
            = .error (.outOfRange "Indexing invalid child in Tree::Handle:: getChild()")
          ↔ nd.children.length ≤ 3) ∧
        (nd.children.length < UNSIGNED_RANGE →
          ((Handle.getChild ⟨1, 0⟩ 3 markMem).1
              = .error (.outOfRange "Indexing invalid child in Tree::Handle:: getChild()")
            ↔ k ≤ 3)) ∧
        (3 < nd.children.length →
          ∃ c, nd.children[3]? = some c ∧
            (Handle.getChild ⟨1, 0⟩ 3 markMem).1 = .ok ⟨c, 0⟩ ∧ Live markMem 0 ⟨c, 0⟩) ∧
        (Handle.getChild ⟨1, 0⟩ 3 markMem).2 = markMem :=
  ⟨markMem_valid, ⟨rfl, by decide⟩,
    getChild_fails_exactly_past_the_children markMem 0 ⟨1, 0⟩ 3 markMem_valid
      ⟨rfl, by decide⟩⟩

/-- C11, as stated, fails when a counter is full. The tree reached by
`Tree('m')` and 4294967294 calls of `addChild('a')` at the root has `size()`
4294967295; one more `addChild('a')` at the root succeeds and `size()` is 0
afterwards, not 4294967296. In the tree it leaves, the root has 4294967295
children; a further `addChild('a')` at the root takes `numChildren()` from
4294967295 to 0, not to 4294967296. -/
theorem addChild_counters_wrap_when_full :
    ∃ m, run (Tree.new 'm' emptyMem).2
        (List.replicate 4294967294 (Op.addChild ⟨1, 0⟩ 'a')) = .ok m ∧
      Reachable m ∧ Valid m 0 ∧ Live m 0 ⟨1, 0⟩ ∧ Tree.size 0 m = .ok 4294967295 ∧
      ∃ m1, Handle.addChild ⟨1, 0⟩ 'a' m = .ok m1 ∧ Tree.size 0 m1 = .ok 0 ∧
        Reachable m1 ∧ Valid m1 0 ∧ Live m1 0 ⟨1, 0⟩ ∧
        Handle.numChildren ⟨1, 0⟩ m1 = .ok 4294967295 ∧
        ∃ m2, Handle.addChild ⟨1, 0⟩ 'a' m1 = .ok m2 ∧
          Handle.numChildren ⟨1, 0⟩ m2 = .ok 0 := by
  obtain ⟨R, hp, hl, ht⟩ := newTree_state
  obtain ⟨hlive, m, f, nd, o, e, R1, hp1, hs, hl1, -, hlen, -, ht1, -⟩ :=
    replicate_addChild_state (t := 0) (p := 1) 'a' 4294967294 R hp hl ht
  have hsz : f.size = 4294967295 := by rw [hs]; rfl
  have hlen1 : nd.children.length = 4294967294 := by rw [hlen]; rfl
  have hr : Reachable m := Reachable.run _ (reachable_new 'm') hlive e
  have hlv : Live m 0 ⟨1, 0⟩ := (R1.live_iff _).mpr ⟨rfl, hp1⟩
  obtain ⟨m1, e1, R2, hl2, -, ht2, -⟩ := addChild_state 'a' R1 hp1 hl1 ht1
  have hp2 := mem_addrs_addAt (m.heap.length + 1, 'a') hp1 R1.nodup hp1
  obtain ⟨m2, e2, -, hl3, -⟩ := addChild_state 'a' R2 hp2 hl2 ht2
  refine ⟨m, e, hr, ⟨f, R1⟩, hlv, ?_, m1, e1, ?_,
    Reachable.mutate (t := 0) (Op.addChild ⟨1, 0⟩ 'a') hr hlv e1, ⟨_, R2⟩,
    (R2.live_iff _).mpr ⟨rfl, hp2⟩, ?_, m2, e2, ?_⟩
  · rw [R1.size, hsz]; rfl
  · rw [R2.size, size_addAt _ hp1 R1.nodup, hsz]; rfl
  · simp only [Handle.numChildren, read_eq_ok hl2, List.length_append, List.length_cons,
      List.length_nil, hlen1]
    rfl
  · simp only [Handle.numChildren, read_eq_ok hl3, List.length_append, List.length_cons,
      List.length_nil, hlen1]
    rfl

/-- C11 (amended): for a handle `h` on a live node of a tree and a value
`v`, `h.addChild(v)` succeeds; the `children` of the node are the former ones
in the same order followed by a new node, which is a leaf holding `v` with the
node as parent; every other node is exactly as before (so the former children
head the same subtrees); the pointer graph of the tree is the former one with
that leaf appended under the node; `h.numChildren()` goes from `k` to `k + 1`
modulo 2^32 and `size()` goes from `n` to `n + 1` modulo 2^32, that is, to
`k + 1` and `n + 1` unless the counter in question was 4294967295. -/
theorem addChild_appends_last_leaf_modulo_wraparound (m : Mem T) (t : Nat) (h : Handle)
    (v : T) (hv : Valid m t) (hl : Live m t h) :
    ∃ m1 nd k n, h.addChild v m = .ok m1 ∧
      lookup m.heap h.pCurr = some nd ∧
      h.numChildren m = .ok k ∧ h.numChildren m1 = .ok ((k + 1) % UNSIGNED_RANGE) ∧
      (k + 1 < UNSIGNED_RANGE → h.numChildren m1 = .ok (k + 1)) ∧
      lookup m1.heap h.pCurr
        = some ⟨nd.data, nd.children ++ [m.heap.length + 1], nd.pParent⟩ ∧
      lookup m.heap (m.heap.length + 1) = none ∧
      lookup m1.heap (m.heap.length + 1) = some ⟨v, [], h.pCurr⟩ ∧
      (∀ q, q ≠ h.pCurr → q ≠ m.heap.length + 1 → lookup m1.heap q = lookup m.heap q) ∧
      Tree.graph t m1 = addAt h.pCurr (m.heap.length + 1, v) (Tree.graph t m) ∧
      Tree.size t m = .ok n ∧ Tree.size t m1 = .ok ((n + 1) % UNSIGNED_RANGE) ∧
      (n + 1 < UNSIGNED_RANGE → Tree.size t m1 = .ok (n + 1)) := by
  obtain ⟨f, R⟩ := hv
  obtain ⟨ht, hp⟩ := (R.live_iff h).mp hl
  obtain ⟨p, t0⟩ := h
  simp only at ht hp
  subst ht
  have hnd := R.nodup
  obtain ⟨vp, par, hlk, -⟩ := R.holds.lookup_mem hp
  obtain ⟨a, w, k0, -, htr, -, -⟩ := id R
  obtain ⟨m1, e, R1, hcp, hcc, -, hlen1, hfr⟩ := addChild_state v R hp hlk htr
  simp only at hcp
  have hsz1 : (addAt p (m.heap.length + 1, v) f).size = f.size + 1 := size_addAt _ hp hnd
  have hk1 : Handle.numChildren ⟨p, t0⟩ m1
      = .ok (((rootPtrs (kidsAt p f)).length % UNSIGNED_RANGE + 1) % UNSIGNED_RANGE) := by
    simp only [Handle.numChildren, read_eq_ok hcp, List.length_append, List.length_cons,
      List.length_nil, Nat.mod_add_mod]
  have hn1 : Tree.size t0 m1 = .ok ((f.size % UNSIGNED_RANGE + 1) % UNSIGNED_RANGE) := by
    rw [R1.size, hsz1, Nat.mod_add_mod]
  refine ⟨m1, _, (rootPtrs (kidsAt p f)).length % UNSIGNED_RANGE, f.size % UNSIGNED_RANGE,
    e, hlk, ?_, hk1, ?_, hcp, lookup_of_length_lt (Nat.lt_succ_self _), hcc, ?_, ?_, R.size,
    hn1, ?_⟩
  · simp only [Handle.numChildren, read_eq_ok hlk]
  · intro hk
    rw [hk1, Nat.mod_eq_of_lt hk]
  · intro q hqp hqn
    by_cases hq : q ≤ m.heap.length
    · exact hfr q hqp hq
    · rw [lookup_of_length_lt (h := m1.heap) (by rw [hlen1]; omega),
        lookup_of_length_lt (h := m.heap) (by omega)]
  · rw [R1.graph, R.graph]
  · intro hn
    rw [hn1, Nat.mod_eq_of_lt hn]

/-- Witness for C11: adding `'x'` under the second node (`a`) of
`m -> (a, r, k)`. -/
theorem addChild_appends_last_leaf_modulo_wraparound_witness :
    Valid markMem 0 ∧ Live markMem 0 ⟨2, 0⟩ ∧
      ∃ m1 nd k n, Handle.addChild ⟨2, 0⟩ 'x' markMem = .ok m1 ∧
        lookup markMem.heap 2 = some nd ∧
        Handle.numChildren ⟨2, 0⟩ markMem = .ok k ∧
        Handle.numChildren ⟨2, 0⟩ m1 = .ok ((k + 1) % UNSIGNED_RANGE) ∧
        (k + 1 < UNSIGNED_RANGE → Handle.numChildren ⟨2, 0⟩ m1 = .ok (k + 1)) ∧
        lookup m1.heap 2
          = some ⟨nd.data, nd.children ++ [markMem.heap.length + 1], nd.pParent⟩ ∧
        lookup markMem.heap (markMem.heap.length + 1) = none ∧
        lookup m1.heap (markMem.heap.length + 1) = some ⟨'x', [], 2⟩ ∧
        (∀ q, q ≠ 2 → q ≠ markMem.heap.length + 1 →
          lookup m1.heap q = lookup markMem.heap q) ∧
        Tree.graph 0 m1 = addAt 2 (markMem.heap.length + 1, 'x') (Tree.graph 0 markMem) ∧
        Tree.size 0 markMem = .ok n ∧ Tree.size 0 m1 = .ok ((n + 1) % UNSIGNED_RANGE) ∧
        (n + 1 < UNSIGNED_RANGE → Tree.size 0 m1 = .ok (n + 1)) :=
  ⟨markMem_valid, ⟨rfl, by decide⟩,
    addChild_appends_last_leaf_modulo_wraparound markMem 0 ⟨2, 0⟩ 'x' markMem_valid
      ⟨rfl, by decide⟩⟩

/-- C16, as stated, fails once a node has 2^32 children: in the tree
reached by `Tree('m')` and 4294967296 calls of `addChild('a')` at the root, the
root is a live node and `numChildren()` is 0; `prune()` at the root succeeds
but is no no-op: the tree had 4294967297 nodes before the call and has one
node after it. -/
theorem prune_changes_tree_at_wrapped_numChildren :
    ∃ m, run (Tree.new 'm' emptyMem).2
        (List.replicate 4294967296 (Op.addChild ⟨1, 0⟩ 'a')) = .ok m ∧
      Reachable m ∧ Valid m 0 ∧ Live m 0 ⟨1, 0⟩ ∧
      Handle.numChildren ⟨1, 0⟩ m = .ok 0 ∧
      ∃ m1, Handle.prune ⟨1, 0⟩ m = .ok m1 ∧ (Tree.nodes 0 m).length = 4294967297 ∧
        (Tree.nodes 0 m1).length = 1 ∧ m1 ≠ m := by
  obtain ⟨R, hp, hl, ht⟩ := newTree_state
  obtain ⟨hlive, m, f, nd, o, e, R1, hp1, hs, hl1, -, hlen, -, ht1, ho, -, -⟩ :=
    replicate_addChild_state (t := 0) (p := 1) 'a' 4294967296 R hp hl ht
  have hsz : f.size = 4294967297 := by rw [hs]; rfl
  have hlen1 : nd.children.length = 4294967296 := by rw [hlen]; rfl
  have hroot : rootPtrs f = [1] := by rw [R1.root_of_tree ht1, ho]
  obtain ⟨hs1, -⟩ := prune_root_size R1 hroot
  obtain ⟨m1, e1, R2, -⟩ := prune_rep R1 hp1
  have hn : (Tree.nodes 0 m).length = 4294967297 := by rw [R1.nodes, length_addrs, hsz]
  have hn1 : (Tree.nodes 0 m1).length = 1 := by rw [R2.nodes, length_addrs, hs1]
  refine ⟨m, e, Reachable.run _ (reachable_new 'm') hlive e, ⟨f, R1⟩,
    (R1.live_iff _).mpr ⟨rfl, hp1⟩, ?_, m1, e1, hn, hn1, ?_⟩
  · simp only [Handle.numChildren, read_eq_ok hl1, hlen1]
    rfl
  · intro hmm
    rw [hmm, hn] at hn1
    exact absurd hn1 (by decide)

/-- C16 (amended): for a handle `h` on a live node of a tree, if the
node's `children` vector is empty then `h.prune()` returns normally and leaves
the whole memory as it was (hence `size()`, structure and text);
`h.numChildren()` is the length of that vector modulo 2^32, so the same holds
when `h.numChildren()` is 0 and the node has fewer than 2^32 children; and in
every case a second `h.prune()` returns normally and changes nothing the first
one left, so pruning twice gives the same tree and size as pruning once. -/
theorem prune_without_children_is_noop (m : Mem T) (t : Nat) (h : Handle)
    (hv : Valid m t) (hl : Live m t h) :
    ∃ nd, lookup m.heap h.pCurr = some nd ∧
      h.numChildren m = .ok (nd.children.length % UNSIGNED_RANGE) ∧
      (nd.children = [] → h.prune m = .ok m) ∧
      (nd.children.length < UNSIGNED_RANGE → h.numChildren m = .ok 0 → h.prune m = .ok m) ∧
      ∃ m1, h.prune m = .ok m1 ∧ h.prune m1 = .ok m1 := by
  obtain ⟨f, R⟩ := hv
  obtain ⟨ht, hp⟩ := (R.live_iff h).mp hl
  obtain ⟨p, t0⟩ := h
  simp only at ht hp
  subst ht
  obtain ⟨vp, par, hlk, -⟩ := R.holds.lookup_mem hp
  have hleaf : rootPtrs (kidsAt p f) = [] → Handle.prune ⟨p, t0⟩ m = .ok m := by
    intro h0
    rw [h0] at hlk
    exact prune_leaf hlk
  refine ⟨_, hlk, ?_, hleaf, ?_, ?_⟩
  · simp only [Handle.numChildren, read_eq_ok hlk]
  · intro hlen h0
    simp only at hlen
    simp only [Handle.numChildren, read_eq_ok hlk, Nat.mod_eq_of_lt hlen, Except.ok.injEq,
      List.length_eq_zero] at h0
    exact hleaf h0
  · obtain ⟨m1, e, -, hcell, -⟩ := prune_rep R hp
    exact ⟨m1, e, prune_leaf (hcell _ hlk)⟩

/-- Witness for C16: the childless second node (`a`) of `m -> (a, r, k)`,
where `prune()` leaves the memory as it was. -/
theorem prune_without_children_is_noop_witness :
    Valid markMem 0 ∧ Live markMem 0 ⟨2, 0⟩ ∧
      lookup markMem.heap 2 = some ⟨'a', [], 1⟩ ∧
      Handle.prune ⟨2, 0⟩ markMem = .ok markMem ∧
      ∃ nd, lookup markMem.heap 2 = some nd ∧
        Handle.numChildren ⟨2, 0⟩ markMem = .ok (nd.children.length % UNSIGNED_RANGE) ∧
        (nd.children = [] → Handle.prune ⟨2, 0⟩ markMem = .ok markMem) ∧
        (nd.children.length < UNSIGNED_RANGE → Handle.numChildren ⟨2, 0⟩ markMem = .ok 0 →
          Handle.prune ⟨2, 0⟩ markMem = .ok markMem) ∧
        ∃ m1, Handle.prune ⟨2, 0⟩ markMem = .ok m1 ∧ Handle.prune ⟨2, 0⟩ m1 = .ok m1 :=
  ⟨markMem_valid, ⟨rfl, by decide⟩, rfl, rfl,
    prune_without_children_is_noop markMem 0 ⟨2, 0⟩ markMem_valid ⟨rfl, by decide⟩⟩

end GeneralTree
